import Mathlib

/-!
# Sparse optical-flow tracker (`src/main.cc`): embedding and verified properties

The program is a single C++ file built on OpenCV.  The embedding keeps the
source's names.  Conventions:

* A `float` or `double` value is the rational number (`ℚ`) it denotes.  Arithmetic
  on them is IEEE 754 binary32 and binary64 with round to nearest, ties to even
  (`f32`, `f64`, `sqrt64`); `std::pow(x, 2)` and `std::sqrt` are taken as correctly
  rounded.  Coordinates are finite; an overflow to infinity in `float` is kept as
  `2 ^ 128` (or `-2 ^ 128`), which exceeds every finite `float` and so compares like
  infinity wherever the program looks at it.
* `std::vector<T>` is `List T`; `operator[]` outside the bounds is undefined
  behaviour in C++ and is `none` here, so every function that indexes a vector
  returns `Option`.
* `uchar` status flags are natural numbers; `!status[i]` is `status[i] = 0`.
* OpenCV routines whose code is not part of the repository (`cvtColor`,
  `goodFeaturesToTrack`, `cornerSubPix`, `calcOpticalFlowPyrLK`) are fields of
  the parameter `Vision`.
* `cv::circle` does not rasterise: a `Mat` carries its pixel buffer and the
  ordered list of circles drawn on it.
-/

namespace LKDemo

/-! ## Data model -/

/-- The type `cv::Point2f`; a coordinate is the rational value of the `float`. -/
structure Point2f where
  x : ℚ
  y : ℚ
deriving DecidableEq, Repr

instance : Inhabited Point2f := ⟨⟨0, 0⟩⟩

/-- The type `cv::Scalar`, used as a BGR colour. -/
structure Scalar where
  v0 : Nat
  v1 : Nat
  v2 : Nat
deriving DecidableEq, Repr

/-- Line 12: `const Scalar blue = Scalar(255, 0, 0)`. -/
def blue : Scalar := ⟨255, 0, 0⟩
/-- Line 13: `const Scalar green = Scalar(0, 255, 0)`. -/
def green : Scalar := ⟨0, 255, 0⟩
/-- Line 14: `const Scalar red = Scalar(0, 0, 255)`. -/
def red : Scalar := ⟨0, 0, 255⟩

/-- Line 16: `const float THRESH = 2.0`. -/
def THRESH : ℚ := 2
/-- Line 17: `const int MAX_COUNT = 500`. -/
def MAX_COUNT : Nat := 500

/-- The arguments of one call `circle(image, center, radius, color, thickness)`. -/
structure Circle where
  center : Point2f
  radius : Nat
  color : Scalar
  thickness : Int
deriving DecidableEq, Repr

/-- A `cv::Mat`: its pixel buffer and the circles drawn on it so far, oldest first.
`empty()` is "no pixels". -/
structure Mat where
  pixels : List Nat
  drawn : List Circle
deriving DecidableEq, Repr

/-- The method `Mat::empty()`. -/
def Mat.empty (m : Mat) : Bool := m.pixels.isEmpty

/-- The default-constructed `Mat`. -/
def Mat.nil : Mat := ⟨[], []⟩

/-- The function `circle(image_, center, radius, color, thickness)`. -/
def circle (image : Mat) (center : Point2f) (radius : Nat) (color : Scalar)
    (thickness : Int) : Mat :=
  { image with drawn := image.drawn ++ [⟨center, radius, color, thickness⟩] }

/-- The assignment `image = Scalar::all(0)`: every element is set to zero. -/
def Mat.setAllZero (m : Mat) : Mat := ⟨m.pixels.map (fun _ => 0), []⟩

/-- The OpenCV routines called by the program; their code is outside the repository.
`calcOpticalFlowPyrLK prevGray gray prevPts nextPts` returns the new `nextPts` and
`status` vectors. -/
structure Vision where
  cvtColor : Mat → Mat
  goodFeaturesToTrack : Mat → Nat → List Point2f
  cornerSubPix : Mat → List Point2f → List Point2f
  calcOpticalFlowPyrLK : Mat → Mat → List Point2f → List Point2f → List Point2f × List Nat

/-- Observable calls made by the program, in program order. -/
inductive Call where
  | cout (s : String)
  | namedWindow (name : String)
  | goodFeaturesToTrack (gray : Mat)
  | cornerSubPix (gray : Mat) (pts : List Point2f)
  | calcOpticalFlowPyrLK (prevGray gray : Mat) (prevPts : List Point2f)
  | imshow (name : String) (image : Mat)
  | waitKey (delay : Nat)
deriving DecidableEq, Repr

/-! ## `opticalFlow`, lines 39-95 -/

/-- Bounds-checked `xs[k] = v`. -/
def assignAt {α : Type} (xs : List α) (k : Nat) (v : α) : Option (List α) :=
  if k < xs.length then some (xs.set k v) else none

/-- The method `std::vector::resize(n)`: truncate, or pad with value-initialised
elements. -/
def resize {α : Type} [Inhabited α] (xs : List α) (n : Nat) : List α :=
  xs.take n ++ List.replicate (n - xs.length) default

/-- The variables the first loop of `opticalFlow` reads and writes. -/
structure Compaction where
  k : Nat
  prevFeatures : List Point2f
  features : List Point2f
  image : Mat
deriving DecidableEq, Repr

/-- One iteration of the loop of lines 56-63, at index `i`. -/
def compactBody (status : List Nat) (c : Compaction) (i : Nat) : Option Compaction := do
  let s ← status[i]?
  if s = 0 then
    pure c
  else
    let fi ← c.features[i]?
    let features ← assignAt c.features c.k fi
    let pi ← c.prevFeatures[i]?
    let prevFeatures ← assignAt c.prevFeatures c.k pi
    let center ← features[i]?
    pure { k := c.k + 1, prevFeatures := prevFeatures, features := features,
           image := circle c.image center 1 blue (-1) }

/-- Lines 56-63: `for (i = k = 0; i < features.size(); i++)`.  The body assigns
elements only, so `features.size()` is the same at every test of the loop
condition. -/
def compactLoop (status : List Nat) (prevFeatures features : List Point2f) (image : Mat) :
    Option Compaction :=
  (List.range features.length).foldlM (compactBody status)
    { k := 0, prevFeatures := prevFeatures, features := features, image := image }

/-- Lines 56-65: the loop followed by `features.resize(k); prevFeatures.resize(k)`. -/
def compact (status : List Nat) (prevFeatures features : List Point2f) (image : Mat) :
    Option Compaction :=
  (compactLoop status prevFeatures features image).map fun c =>
    { c with features := resize c.features c.k, prevFeatures := resize c.prevFeatures c.k }

/-! ## Floating-point arithmetic

The classifier of lines 67-94 computes in `float` and `double`.  Values are kept as
rationals and every operation rounds its exact result to the format, to nearest with ties
to even. -/

/-- Round half to even: the integer nearest to `z`, the even one of the two on a tie. -/
def roundHalfEven (z : ℚ) : ℤ :=
  if z - ⌊z⌋ < 1 / 2 then ⌊z⌋
  else if 1 / 2 < z - ⌊z⌋ then ⌊z⌋ + 1
  else if ⌊z⌋ % 2 = 0 then ⌊z⌋ else ⌊z⌋ + 1

/-- Exponent of the unit in the last place of `x` in a binary format with `p` significand
bits whose smallest positive value is `2 ^ emin`. -/
def ulpExp (p : ℕ) (emin : ℤ) (x : ℚ) : ℤ :=
  max (Int.log 2 |x| - ((p : ℤ) - 1)) emin

/-- Round to nearest, ties to even, in a binary format with `p` significand bits, gradual
underflow down to `2 ^ emin` and no bound on the exponent. -/
def roundNearest (p : ℕ) (emin : ℤ) (x : ℚ) : ℚ :=
  (roundHalfEven (x / (2 : ℚ) ^ ulpExp p emin x) : ℚ) * (2 : ℚ) ^ ulpExp p emin x

/-- Conversion to `float` (IEEE binary32). -/
def f32 (x : ℚ) : ℚ :=
  max (-(2 : ℚ) ^ 128) (min ((2 : ℚ) ^ 128) (roundNearest 24 (-149) x))

/-- Conversion to `double` (IEEE binary64). -/
def f64 (x : ℚ) : ℚ := roundNearest 53 (-1074) x

/-- The integer nearest to the square root of `z`, the even one of the two on a tie:
with `n` the integer part of the root, the root is below `n + 1/2` exactly when `z` is
below `n * n + n + 1/4`. -/
def sqrtRound (z : ℚ) : ℤ :=
  let n : ℤ := (Nat.sqrt ⌊z⌋₊ : ℤ)
  let m : ℚ := (n : ℚ) * n + n + 1 / 4
  if z < m then n else if m < z then n + 1 else if n % 2 = 0 then n else n + 1

/-- The function `std::sqrt` on `double`: the square root rounded to nearest, ties to
even.  The root of a value in `[2 ^ e, 2 ^ (e + 1))` lies in `[2 ^ (e / 2), 2 ^ (e / 2 + 1))`,
which fixes the unit in the last place. -/
def sqrt64 (s : ℚ) : ℚ :=
  if s ≤ 0 then 0
  else
    let ue : ℤ := max (Int.log 2 s / 2 - 52) (-1074)
    (sqrtRound (s / (2 : ℚ) ^ (2 * ue)) : ℚ) * (2 : ℚ) ^ ue

/-- Lines 69-93: the colour of the radius-3 circle drawn for one point pair.  Lines 69-70
subtract in `float`; on line 72 `std::pow(float, int)` and `std::sqrt` compute in `double`
and the result is narrowed to the `float` `distChange`; line 79 compares the absolute
values of the `float` differences; lines 81 and 89 compare the coordinates themselves. -/
def classifyColor (prev cur : Point2f) : Scalar :=
  let diffx := f32 (cur.x - prev.x)
  let diffy := f32 (cur.y - prev.y)
  let distChange := f32 (sqrt64 (f64 (f64 (diffx ^ 2) + f64 (diffy ^ 2))))
  if distChange < THRESH then
    blue
  else if |diffy| < |diffx| then
    if prev.x < cur.x then green else red
  else
    if prev.y < cur.y then green else red

/-- Lines 69-93: the circle drawn for one point pair; every branch draws at
`features[i]` with radius 3 and thickness -1. -/
def classify (prev cur : Point2f) : Circle :=
  ⟨cur, 3, classifyColor prev cur, -1⟩

/-- One iteration of the loop of lines 67-94, at index `i`. -/
def classifyBody (prevFeatures features : List Point2f) (image : Mat) (i : Nat) :
    Option Mat := do
  let f ← features[i]?
  let p ← prevFeatures[i]?
  let m := classify p f
  pure (circle image m.center m.radius m.color m.thickness)

/-- Lines 67-94: `for (i = 0; i < features.size(); i++)`. -/
def classifyLoop (prevFeatures features : List Point2f) (image : Mat) : Option Mat :=
  (List.range features.length).foldlM (classifyBody prevFeatures features) image

/-- What `opticalFlow` leaves in its reference parameters, and the calls it made. -/
structure FlowResult where
  prevGray : Mat
  image : Mat
  prevFeatures : List Point2f
  features : List Point2f
  calls : List Call
deriving DecidableEq, Repr

/-- The diagnostic of line 54. -/
def sizesMessage : String := "sizes don\x27t match\n"

/-- Lines 39-95. -/
def opticalFlow (v : Vision) (prevGray gray image : Mat)
    (prevFeatures features : List Point2f) : Option FlowResult :=
  let prevGray := if prevGray.empty then gray else prevGray
  let r := v.calcOpticalFlowPyrLK prevGray gray prevFeatures features
  let features := r.1
  let status := r.2
  let diag := if features.length ≠ prevFeatures.length then [Call.cout sizesMessage] else []
  match compact status prevFeatures features image with
  | none => none
  | some c =>
    match classifyLoop c.prevFeatures c.features c.image with
    | none => none
    | some image =>
      some { prevGray := prevGray, image := image, prevFeatures := c.prevFeatures,
             features := c.features,
             calls := Call.calcOpticalFlowPyrLK prevGray gray prevFeatures :: diag }

/-! ## `help`, `initFeatures` and `main` -/

/-- Lines 21-30: the text `help` writes; `cvVersion` is the macro `CV_VERSION`. -/
def help (cvVersion : String) : List Call :=
  [Call.cout ("\nLukas-Kanade optical flow\n" ++ "OpenCV version: " ++ cvVersion ++ "\n"),
   Call.cout ("\tESC - quit the program\n" ++
              "\tr - auto-initialize tracking\n" ++
              "\tc - delete all the points\n" ++
              "\tn - switch the \"dark\" mode on/off\n" ++
              "To add/remove a feature point click it\n" ++ "\n")]

/-- Lines 32-35: `goodFeaturesToTrack` overwrites `points_`, `cornerSubPix` refines it;
the value `points_` had before the call is not read. -/
def initFeatures (v : Vision) (gray : Mat) : List Point2f :=
  v.cornerSubPix gray (v.goodFeaturesToTrack gray MAX_COUNT)

/-- The variables of `main` that live across iterations of the frame loop. -/
structure Session where
  needToInit : Bool
  darkMode : Bool
  gray : Mat
  prevGray : Mat
  image : Mat
  frame : Mat
  points0 : List Point2f
  points1 : List Point2f
deriving DecidableEq, Repr

/-- Lines 104-108: the variables as declared before the loop. -/
def Session.initial : Session :=
  { needToInit := false, darkMode := false, gray := Mat.nil, prevGray := Mat.nil,
    image := Mat.nil, frame := Mat.nil, points0 := [], points1 := [] }

/-- What the outside world supplies on one iteration: the frame delivered by
`cap >> frame` and the value returned by `waitKey(10)`. -/
structure FrameInput where
  frame : Mat
  key : Int
deriving DecidableEq, Repr

/-- The code of a character, as an `int`. -/
def ord (c : Char) : Int := (c.toNat : Int)

/-- The conversion `(char)waitKey(10)`: the low eight bits, read as a signed char. -/
def toChar (k : Int) : Int :=
  let m := k % 256
  if m < 128 then m else m - 256

/-- Lines 115-121: copy the frame, convert it to grayscale, blank the display image in
dark mode. -/
def acquire (v : Vision) (s : Session) (frame : Mat) : Session :=
  let image := frame
  let gray := v.cvtColor image
  let image := if s.darkMode then image.setAllZero else image
  { s with frame := frame, image := image, gray := gray }

/-- Lines 124-128: the three-way branch.  `none` is an out-of-bounds access inside
`opticalFlow`. -/
def track (v : Vision) (s : Session) : Option (Session × List Call) :=
  if s.needToInit then
    some ({ s with points1 := initFeatures v s.gray },
          [Call.goodFeaturesToTrack s.gray,
           Call.cornerSubPix s.gray (v.goodFeaturesToTrack s.gray MAX_COUNT)])
  else if !s.points0.isEmpty then
    match opticalFlow v s.prevGray s.gray s.image s.points0 s.points1 with
    | none => none
    | some r =>
      some ({ s with prevGray := r.prevGray, image := r.image, points0 := r.prevFeatures,
                     points1 := r.features }, r.calls)
  else
    some (s, [])

/-- Lines 131-132: reset the flag and show the image. -/
def display (s : Session) : Session × List Call :=
  ({ s with needToInit := false }, [Call.imshow "motion tracking" s.image])

/-- Lines 136-147: the `switch` on the key. -/
def handleKey (s : Session) (c : Int) : Session :=
  if c = ord 'r' then { s with needToInit := true }
  else if c = ord 'c' then { s with points0 := [], points1 := [] }
  else if c = ord 'd' then { s with darkMode := !s.darkMode }
  else s

/-- Lines 151-152: `std::swap(points[1], points[0]); cv::swap(prevGray, gray)`. -/
def rotate (s : Session) : Session :=
  { s with points0 := s.points1, points1 := s.points0, prevGray := s.gray,
           gray := s.prevGray }

/-- How one iteration of the frame loop ends. -/
inductive Step where
  | next (s : Session) (calls : List Call)
  | exit (s : Session) (calls : List Call)
  | fault
deriving DecidableEq, Repr

/-- Lines 110-152: one iteration of `for (;;)`. -/
def frameStep (v : Vision) (s : Session) (inp : FrameInput) : Step :=
  if inp.frame.empty then
    Step.exit { s with frame := inp.frame } []
  else
    match track v (acquire v s inp.frame) with
    | none => Step.fault
    | some (s1, calls1) =>
      let shown := display s1
      let calls := calls1 ++ shown.2 ++ [Call.waitKey 10]
      let c := toChar inp.key
      if c = 27 then Step.exit shown.1 calls
      else Step.next (rotate (handleKey shown.1 c)) calls

/-- Lines 109-153: the frame loop over a recorded capture.  When the recording is
exhausted `cap >> frame` leaves `frame` empty, which ends the loop.  The result is the
calls made, or `none` after an out-of-bounds access. -/
def mainLoop (v : Vision) : Session → List FrameInput → Option (List Call)
  | _, [] => some []
  | s, inp :: rest =>
    match frameStep v s inp with
    | Step.fault => none
    | Step.exit _ calls => some calls
    | Step.next s1 calls => (mainLoop v s1 rest).map (fun later => calls ++ later)

/-- Lines 97-156: the exit status and the calls made; `isOpened` is `cap.isOpened()`. -/
def main (v : Vision) (cvVersion : String) (isOpened : Bool) (inputs : List FrameInput) :
    Option (Int × List Call) :=
  if !isOpened then
    some (-1, [Call.cout "error, could not open webcam\n"])
  else
    (mainLoop v Session.initial inputs).map fun calls =>
      (0, help cvVersion ++ [Call.namedWindow "motion tracking"] ++ calls)

/-- Whether a call sequence contains a call of the feature detector. -/
def invokesDetection (calls : List Call) : Bool :=
  calls.any fun c =>
    match c with
    | Call.goodFeaturesToTrack _ => true
    | Call.cornerSubPix _ _ => true
    | _ => false

/-- Whether a call sequence contains a call of the correspondence engine. -/
def invokesCorrespondence (calls : List Call) : Bool :=
  calls.any fun c =>
    match c with
    | Call.calcOpticalFlowPyrLK _ _ _ => true
    | _ => false

/-! ## Specification-side definitions -/

/-- Whether index `i` carries a non-zero status flag. -/
def tracked (status : List Nat) (i : Nat) : Bool :=
  match status[i]? with
  | some s => decide (s ≠ 0)
  | none => false

/-- The indices below `n` whose status flag is non-zero, in increasing order. -/
def successIndices (status : List Nat) (n : Nat) : List Nat :=
  (List.range n).filter (tracked status)

/-- The entries of `xs` at the successful indices, in increasing index order. -/
def atSuccessIndices {α : Type} (status : List Nat) (xs : List α) : List α :=
  (successIndices status xs.length).filterMap (fun i => xs[i]?)

/-- The order-preserving filter of `xs` by the status flags: zip the entries with their
flags, keep the pairs whose flag is non-zero, drop the flags. -/
def keepTracked {α : Type} (status : List Nat) (xs : List α) : List α :=
  ((xs.zip status).filter (fun p => decide (p.2 ≠ 0))).map Prod.fst

/-- The trace circle of line 62 for a retained point. -/
def traceCircle (f : Point2f) : Circle := ⟨f, 1, blue, -1⟩

/-- The state of the compaction loop after the iterations `0 .. n-1`, in terms of the
vectors it started from. -/
structure CompactInv (status : List Nat) (prev feat : List Point2f) (image : Mat) (n : Nat)
    (c : Compaction) : Prop where
  len_feat : c.features.length = feat.length
  len_prev : c.prevFeatures.length = prev.length
  k_le : c.k ≤ n
  take_feat : c.features.take c.k = (successIndices status n).filterMap (fun i => feat[i]?)
  take_prev : c.prevFeatures.take c.k = (successIndices status n).filterMap (fun i => prev[i]?)
  rest_feat : ∀ j, n ≤ j → c.features[j]? = feat[j]?
  rest_prev : ∀ j, n ≤ j → c.prevFeatures[j]? = prev[j]?
  pixels : c.image.pixels = image.pixels
  drawn : c.image.drawn =
    image.drawn ++ ((successIndices status n).filterMap (fun i => feat[i]?)).map traceCircle

/-- The calls made during one iteration; none are recorded for a faulting one. -/
def Step.calls : Step → List Call
  | Step.next _ calls => calls
  | Step.exit _ calls => calls
  | Step.fault => []

/-- The session at the decision point of the frame that follows `inputs`: `none` when the
loop has ended or faulted before. -/
def runFrames (v : Vision) : Session → List FrameInput → Option Session
  | s, [] => some s
  | s, inp :: rest =>
    match frameStep v s inp with
    | Step.next s1 _ => runFrames v s1 rest
    | _ => none

/-- The session at the decision point of the frame that follows `inputs`, with the calls
made while processing `inputs`, in order: `none` when the loop has ended or faulted
before. -/
def runTrace (v : Vision) : Session → List FrameInput → Option (Session × List Call)
  | s, [] => some (s, [])
  | s, inp :: rest =>
    match frameStep v s inp with
    | Step.next s1 calls => (runTrace v s1 rest).map (fun r => (r.1, calls ++ r.2))
    | _ => none

/-- The length contract of `calcOpticalFlowPyrLK`: the returned point vector and the
status vector have one entry per input point. -/
def Vision.WellFormed (v : Vision) : Prop :=
  ∀ (prevGray gray : Mat) (prevPts nextPts : List Point2f),
    (v.calcOpticalFlowPyrLK prevGray gray prevPts nextPts).1.length = prevPts.length ∧
    (v.calcOpticalFlowPyrLK prevGray gray prevPts nextPts).2.length = prevPts.length

/-- The size contract of `cvtColor`: a non-empty source gives a non-empty result. -/
def Vision.KeepsSize (v : Vision) : Prop :=
  ∀ m : Mat, m.empty = false → (v.cvtColor m).empty = false

/-! ## Concrete collaborators for worked examples -/

/-- A one-pixel image. -/
def pixelMat : Mat := ⟨[7], []⟩

/-- An engine under which nothing moves: detection finds the point (4, 4), and every
point is found again where it was. -/
def stillVision : Vision :=
  { cvtColor := fun m => m
    goodFeaturesToTrack := fun _ _ => [⟨4, 4⟩]
    cornerSubPix := fun _ pts => pts
    calcOpticalFlowPyrLK := fun _ _ prevPts _ => (prevPts, prevPts.map (fun _ => 1)) }

/-- An engine whose detector finds nothing and under which every tracked point is found
again where it was. -/
def blindVision : Vision :=
  { cvtColor := fun m => m
    goodFeaturesToTrack := fun _ _ => []
    cornerSubPix := fun _ pts => pts
    calcOpticalFlowPyrLK := fun _ _ prevPts _ => (prevPts, prevPts.map (fun _ => 1)) }

/-- An engine that breaks the length contract: detection finds nothing, and the
correspondence output has one entry fewer than its input. -/
def lossyVision : Vision :=
  { cvtColor := fun m => m
    goodFeaturesToTrack := fun _ _ => []
    cornerSubPix := fun _ pts => pts
    calcOpticalFlowPyrLK := fun _ _ prevPts _ =>
      (prevPts.dropLast, prevPts.dropLast.map (fun _ => 1)) }

/-- A second one-pixel image, darker than `pixelMat`. -/
def darkMat : Mat := ⟨[0], []⟩

/-- An engine whose detector finds the point (4, 4) in `pixelMat` and nothing in any other
image, and under which every tracked point is found again where it was. -/
def fickleVision : Vision :=
  { cvtColor := fun m => m
    goodFeaturesToTrack := fun g _ => if g = pixelMat then [⟨4, 4⟩] else []
    cornerSubPix := fun _ pts => pts
    calcOpticalFlowPyrLK := fun _ _ prevPts _ => (prevPts, prevPts.map (fun _ => 1)) }

/-- An engine that keeps the length contract and finds only the first point again. -/
def firstOnlyVision : Vision :=
  { cvtColor := fun m => m
    goodFeaturesToTrack := fun _ _ => []
    cornerSubPix := fun _ pts => pts
    calcOpticalFlowPyrLK := fun _ _ prevPts _ =>
      (prevPts, (List.range prevPts.length).map (fun i => if i = 0 then 1 else 0)) }

/-! ## Rounding to an integer -/

theorem roundHalfEven_floor_le (z : ℚ) : ⌊z⌋ ≤ roundHalfEven z := by
  unfold roundHalfEven
  split_ifs <;> omega

theorem roundHalfEven_le_floor_succ (z : ℚ) : roundHalfEven z ≤ ⌊z⌋ + 1 := by
  unfold roundHalfEven
  split_ifs <;> omega

theorem roundHalfEven_intCast (n : ℤ) : roundHalfEven (n : ℚ) = n := by
  unfold roundHalfEven
  rw [Int.floor_intCast]
  simp

theorem le_roundHalfEven {z : ℚ} {n : ℤ} (h : (n : ℚ) ≤ z) : n ≤ roundHalfEven z :=
  le_trans (Int.le_floor.mpr h) (roundHalfEven_floor_le z)

theorem roundHalfEven_le {z : ℚ} {n : ℤ} (h : z ≤ (n : ℚ)) : roundHalfEven z ≤ n := by
  by_cases hz : z = (n : ℚ)
  · rw [hz, roundHalfEven_intCast]
  · have hlt : z < (n : ℚ) := lt_of_le_of_ne h hz
    have hfl : ⌊z⌋ < n := Int.floor_lt.mpr hlt
    have := roundHalfEven_le_floor_succ z
    omega

theorem roundHalfEven_lt_of_lt {z : ℚ} {n : ℤ} (h : z < (n : ℚ) - 1 / 2) :
    roundHalfEven z < n := by
  have hfl : ⌊z⌋ < n := Int.floor_lt.mpr (by linarith)
  unfold roundHalfEven
  have hz := Int.floor_le z
  by_cases h1 : z - ⌊z⌋ < 1 / 2
  · rw [if_pos h1]; exact hfl
  · have hge : (1 : ℚ) / 2 ≤ z - ⌊z⌋ := not_lt.mp h1
    have hlt2 : (⌊z⌋ : ℚ) < (n : ℚ) - 1 := by linarith
    have hlt3 : ⌊z⌋ < n - 1 := by exact_mod_cast hlt2
    rw [if_neg h1]
    split_ifs <;> omega

theorem le_roundHalfEven_of_lt {z : ℚ} {n : ℤ} (h : (n : ℚ) - 1 / 2 < z) :
    n ≤ roundHalfEven z := by
  have hfl : n - 1 ≤ ⌊z⌋ := Int.le_floor.mpr (by push_cast; linarith)
  unfold roundHalfEven
  have hz := Int.lt_floor_add_one z
  by_cases h1 : z - ⌊z⌋ < 1 / 2
  · rw [if_pos h1]
    have hlt2 : (n : ℚ) - 1 < ⌊z⌋ := by linarith
    have hlt3 : n - 1 < ⌊z⌋ := by exact_mod_cast hlt2
    omega
  · rw [if_neg h1]
    by_cases h2 : 1 / 2 < z - ⌊z⌋
    · rw [if_pos h2]; omega
    · rw [if_neg h2]
      have heq : z - ⌊z⌋ = 1 / 2 := le_antisymm (not_lt.mp h2) (not_lt.mp h1)
      have hlt2 : (n : ℚ) - 1 < ⌊z⌋ := by linarith
      have hlt3 : n - 1 < ⌊z⌋ := by exact_mod_cast hlt2
      split_ifs <;> omega

theorem roundHalfEven_tie_even {n : ℤ} (hn : n % 2 = 0) :
    roundHalfEven ((n : ℚ) - 1 / 2) = n := by
  have hfl : ⌊(n : ℚ) - 1 / 2⌋ = n - 1 := by
    rw [Int.floor_eq_iff]
    push_cast
    constructor <;> linarith
  unfold roundHalfEven
  rw [hfl]
  have h1 : ¬ ((n : ℚ) - 1 / 2 - ((n - 1 : ℤ) : ℚ) < 1 / 2) := by push_cast; linarith
  have h2 : ¬ ((1 : ℚ) / 2 < (n : ℚ) - 1 / 2 - ((n - 1 : ℤ) : ℚ)) := by push_cast; linarith
  rw [if_neg h1, if_neg h2]
  have h3 : ¬ ((n - 1) % 2 = 0) := by omega
  rw [if_neg h3]
  omega

/-- Below an even integer `n` the rounding stays below `n` exactly up to the midpoint
`n - 1/2`, which itself rounds up to `n`. -/
theorem roundHalfEven_lt_even {z : ℚ} {n : ℤ} (hn : n % 2 = 0) :
    roundHalfEven z < n ↔ z < (n : ℚ) - 1 / 2 := by
  constructor
  · intro h
    by_contra hge
    have hge : (n : ℚ) - 1 / 2 ≤ z := not_lt.mp hge
    rcases eq_or_lt_of_le hge with heq | hlt
    · rw [← heq, roundHalfEven_tie_even hn] at h
      exact lt_irrefl _ h
    · have := le_roundHalfEven_of_lt hlt
      omega
  · exact roundHalfEven_lt_of_lt

theorem roundHalfEven_eq_of_near {z : ℚ} {n : ℤ} (h1 : (n : ℚ) - 1 / 2 < z)
    (h2 : z < (n : ℚ) + 1 / 2) : roundHalfEven z = n := by
  have ha := le_roundHalfEven_of_lt h1
  have hb : roundHalfEven z < n + 1 := roundHalfEven_lt_of_lt (by push_cast; linarith)
  omega

theorem roundHalfEven_neg (z : ℚ) : roundHalfEven (-z) = -roundHalfEven z := by
  by_cases hint : (⌊z⌋ : ℚ) = z
  · rw [← hint, ← Int.cast_neg, roundHalfEven_intCast, roundHalfEven_intCast]
  · have hlt : (⌊z⌋ : ℚ) < z := lt_of_le_of_ne (Int.floor_le z) hint
    have hlt2 := Int.lt_floor_add_one z
    have hfl : ⌊-z⌋ = -⌊z⌋ - 1 := by
      rw [Int.floor_eq_iff]
      push_cast
      constructor <;> linarith
    unfold roundHalfEven
    rw [hfl]
    push_cast
    by_cases h1 : z - ⌊z⌋ < 1 / 2
    · have h1n : ¬ (-z - (-(⌊z⌋ : ℚ) - 1) < 1 / 2) := by linarith
      have h2n : (1 : ℚ) / 2 < -z - (-(⌊z⌋ : ℚ) - 1) := by linarith
      rw [if_pos h1, if_neg h1n, if_pos h2n]
      omega
    · by_cases h2 : 1 / 2 < z - ⌊z⌋
      · have h1n : -z - (-(⌊z⌋ : ℚ) - 1) < 1 / 2 := by linarith
        rw [if_neg h1, if_pos h2, if_pos h1n]
        omega
      · have h1n : ¬ (-z - (-(⌊z⌋ : ℚ) - 1) < 1 / 2) := by linarith
        have h2n : ¬ ((1 : ℚ) / 2 < -z - (-(⌊z⌋ : ℚ) - 1)) := by linarith
        rw [if_neg h1, if_neg h2, if_neg h1n, if_neg h2n]
        split_ifs <;> omega

/-! ## Rounding to a binary floating-point format -/

theorem two_zpow_pos (k : ℤ) : (0 : ℚ) < (2 : ℚ) ^ k := zpow_pos (by norm_num) k

theorem two_zpow_le {a b : ℤ} (h : a ≤ b) : (2 : ℚ) ^ a ≤ (2 : ℚ) ^ b :=
  zpow_le_zpow_right₀ (by norm_num) h

theorem two_zpow_sub (a b : ℤ) : (2 : ℚ) ^ a / (2 : ℚ) ^ b = (2 : ℚ) ^ (a - b) :=
  (zpow_sub₀ (by norm_num) a b).symm

theorem two_zpow_natCast (n : ℕ) : (2 : ℚ) ^ (n : ℤ) = (((2 : ℤ) ^ n : ℤ) : ℚ) := by
  rw [zpow_natCast]
  push_cast
  rfl

theorem two_zpow_toNat {k : ℤ} (h : 0 ≤ k) : (2 : ℚ) ^ k = (((2 : ℤ) ^ k.toNat : ℤ) : ℚ) := by
  rw [← two_zpow_natCast, Int.toNat_of_nonneg h]

theorem log_le_iff {x : ℚ} (hx : 0 < x) (e : ℤ) : (2 : ℚ) ^ e ≤ x ↔ e ≤ Int.log 2 x := by
  have h := Int.zpow_le_iff_le_log (R := ℚ) (b := 2) (by norm_num) (x := e) hx
  simpa using h

theorem log_lt_iff {x : ℚ} (hx : 0 < x) (e : ℤ) : x < (2 : ℚ) ^ e ↔ Int.log 2 x < e := by
  have h := Int.lt_zpow_iff_log_lt (R := ℚ) (b := 2) (by norm_num) (x := e) hx
  simpa using h

theorem log_eq_of_binade {x : ℚ} {e : ℤ} (h1 : (2 : ℚ) ^ e ≤ x) (h2 : x < (2 : ℚ) ^ (e + 1)) :
    Int.log 2 x = e := by
  have hx : 0 < x := lt_of_lt_of_le (two_zpow_pos e) h1
  have ha := (log_le_iff hx e).mp h1
  have hb := (log_lt_iff hx (e + 1)).mp h2
  omega

theorem zpow_log_le {x : ℚ} (hx : 0 < x) : (2 : ℚ) ^ Int.log 2 x ≤ x :=
  (log_le_iff hx _).mpr le_rfl

theorem lt_zpow_log_succ {x : ℚ} (hx : 0 < x) : x < (2 : ℚ) ^ (Int.log 2 x + 1) :=
  (log_lt_iff hx _).mpr (by omega)

theorem roundNearest_zero (p : ℕ) (emin : ℤ) : roundNearest p emin 0 = 0 := by
  unfold roundNearest
  rw [zero_div]
  have h : roundHalfEven 0 = 0 := by
    have := roundHalfEven_intCast 0
    simpa using this
  rw [h]
  simp

theorem roundNearest_neg (p : ℕ) (emin : ℤ) (x : ℚ) :
    roundNearest p emin (-x) = -roundNearest p emin x := by
  unfold roundNearest ulpExp
  rw [abs_neg, neg_div, roundHalfEven_neg]
  push_cast
  ring

theorem ulpExp_of_binade {p : ℕ} {emin : ℤ} {x : ℚ} {e : ℤ} (h1 : (2 : ℚ) ^ e ≤ |x|)
    (h2 : |x| < (2 : ℚ) ^ (e + 1)) (he : emin ≤ e - ((p : ℤ) - 1)) :
    ulpExp p emin x = e - ((p : ℤ) - 1) := by
  unfold ulpExp
  rw [log_eq_of_binade h1 h2]
  exact max_eq_left he

theorem roundNearest_of_binade {p : ℕ} {emin : ℤ} {x : ℚ} {e : ℤ} (h1 : (2 : ℚ) ^ e ≤ |x|)
    (h2 : |x| < (2 : ℚ) ^ (e + 1)) (he : emin ≤ e - ((p : ℤ) - 1)) :
    roundNearest p emin x =
      (roundHalfEven (x / (2 : ℚ) ^ (e - ((p : ℤ) - 1))) : ℚ) * (2 : ℚ) ^ (e - ((p : ℤ) - 1)) := by
  unfold roundNearest
  rw [ulpExp_of_binade h1 h2 he]

theorem le_roundNearest {p : ℕ} {emin : ℤ} {x : ℚ} {k : ℤ} (hp : 1 ≤ p)
    (hk : emin ≤ k - ((p : ℤ) - 1)) (h : (2 : ℚ) ^ k ≤ x) :
    (2 : ℚ) ^ k ≤ roundNearest p emin x := by
  have hx : 0 < x := lt_of_lt_of_le (two_zpow_pos k) h
  have habs : |x| = x := abs_of_pos hx
  have hlog : k ≤ Int.log 2 x := (log_le_iff hx k).mp h
  have hue : ulpExp p emin x = Int.log 2 x - ((p : ℤ) - 1) := by
    unfold ulpExp
    rw [habs]
    exact max_eq_left (by omega)
  unfold roundNearest
  rw [hue]
  have hp0 : (0 : ℤ) ≤ (p : ℤ) - 1 := by omega
  have hz : (((2 : ℤ) ^ ((p : ℤ) - 1).toNat : ℤ) : ℚ) ≤
      x / (2 : ℚ) ^ (Int.log 2 x - ((p : ℤ) - 1)) := by
    rw [← two_zpow_toNat hp0, le_div_iff₀ (two_zpow_pos _), ← zpow_add₀ (by norm_num)]
    have : (p : ℤ) - 1 + (Int.log 2 x - ((p : ℤ) - 1)) = Int.log 2 x := by ring
    rw [this]
    exact zpow_log_le hx
  have hr := le_roundHalfEven hz
  have hr' : (((2 : ℤ) ^ ((p : ℤ) - 1).toNat : ℤ) : ℚ) ≤
      (roundHalfEven (x / (2 : ℚ) ^ (Int.log 2 x - ((p : ℤ) - 1))) : ℚ) := by exact_mod_cast hr
  calc (2 : ℚ) ^ k ≤ (2 : ℚ) ^ Int.log 2 x := two_zpow_le hlog
    _ = (2 : ℚ) ^ ((p : ℤ) - 1) * (2 : ℚ) ^ (Int.log 2 x - ((p : ℤ) - 1)) := by
        rw [← zpow_add₀ (by norm_num)]; congr 1; ring
    _ ≤ _ := by
        rw [two_zpow_toNat hp0]
        exact mul_le_mul_of_nonneg_right hr' (le_of_lt (two_zpow_pos _))

theorem roundNearest_le {p : ℕ} {emin : ℤ} {x : ℚ} {k : ℤ} (hp : 1 ≤ p) (hk : emin ≤ k)
    (h : x ≤ (2 : ℚ) ^ k) : roundNearest p emin x ≤ (2 : ℚ) ^ k := by
  unfold roundNearest
  rcases le_or_lt x 0 with hx | hx
  · have hz : x / (2 : ℚ) ^ ulpExp p emin x ≤ ((0 : ℤ) : ℚ) := by
      rw [Int.cast_zero]
      exact div_nonpos_of_nonpos_of_nonneg hx (le_of_lt (two_zpow_pos _))
    have hr := roundHalfEven_le hz
    have hr' : (roundHalfEven (x / (2 : ℚ) ^ ulpExp p emin x) : ℚ) ≤ 0 := by exact_mod_cast hr
    exact le_trans (mul_nonpos_of_nonpos_of_nonneg hr' (le_of_lt (two_zpow_pos _)))
      (le_of_lt (two_zpow_pos _))
  · have habs : |x| = x := abs_of_pos hx
    have hlog : Int.log 2 x ≤ k := by
      by_contra hc
      have hc : k + 1 ≤ Int.log 2 x := by omega
      have h1 := (log_le_iff hx (k + 1)).mpr hc
      have h2 : (2 : ℚ) ^ k < (2 : ℚ) ^ (k + 1) := zpow_lt_zpow_right₀ (by norm_num) (by omega)
      linarith
    have hue : ulpExp p emin x ≤ k := by
      unfold ulpExp
      rw [habs]
      exact max_le (by omega) hk
    have hd : (0 : ℤ) ≤ k - ulpExp p emin x := by omega
    have hz : x / (2 : ℚ) ^ ulpExp p emin x ≤
        (((2 : ℤ) ^ (k - ulpExp p emin x).toNat : ℤ) : ℚ) := by
      rw [← two_zpow_toNat hd, div_le_iff₀ (two_zpow_pos _), ← zpow_add₀ (by norm_num)]
      have : k - ulpExp p emin x + ulpExp p emin x = k := by ring
      rw [this]
      exact h
    have hr := roundHalfEven_le hz
    have hr' : (roundHalfEven (x / (2 : ℚ) ^ ulpExp p emin x) : ℚ) ≤
        (((2 : ℤ) ^ (k - ulpExp p emin x).toNat : ℤ) : ℚ) := by exact_mod_cast hr
    calc _ ≤ (((2 : ℤ) ^ (k - ulpExp p emin x).toNat : ℤ) : ℚ) * (2 : ℚ) ^ ulpExp p emin x :=
          mul_le_mul_of_nonneg_right hr' (le_of_lt (two_zpow_pos _))
      _ = (2 : ℚ) ^ k := by
          rw [← two_zpow_toNat hd, ← zpow_add₀ (by norm_num)]; congr 1; ring

theorem roundNearest_fixed {p : ℕ} {emin : ℤ} {n j : ℤ} (hn : |n| < (2 : ℤ) ^ p)
    (hj : emin ≤ j) :
    roundNearest p emin ((n : ℚ) * (2 : ℚ) ^ j) = (n : ℚ) * (2 : ℚ) ^ j := by
  by_cases hn0 : n = 0
  · rw [hn0, Int.cast_zero, zero_mul, roundNearest_zero]
  · have hnpos : (0 : ℚ) < |(n : ℚ)| := abs_pos.mpr (by exact_mod_cast hn0)
    have habs : |(n : ℚ) * (2 : ℚ) ^ j| = |(n : ℚ)| * (2 : ℚ) ^ j := by
      rw [abs_mul, abs_of_pos (two_zpow_pos j)]
    have hxpos : (0 : ℚ) < |(n : ℚ) * (2 : ℚ) ^ j| := by
      rw [habs]; exact mul_pos hnpos (two_zpow_pos j)
    have hnq : |(n : ℚ)| < (2 : ℚ) ^ (p : ℤ) := by
      rw [two_zpow_natCast]
      have : ((|n| : ℤ) : ℚ) < (((2 : ℤ) ^ p : ℤ) : ℚ) := by exact_mod_cast hn
      simpa using this
    have hlt : |(n : ℚ) * (2 : ℚ) ^ j| < (2 : ℚ) ^ ((p : ℤ) + j) := by
      rw [habs, zpow_add₀ (by norm_num)]
      exact mul_lt_mul_of_pos_right hnq (two_zpow_pos j)
    have hlog := (log_lt_iff hxpos _).mp hlt
    have hue : ulpExp p emin ((n : ℚ) * (2 : ℚ) ^ j) ≤ j := by
      unfold ulpExp
      exact max_le (by omega) hj
    have hd : (0 : ℤ) ≤ j - ulpExp p emin ((n : ℚ) * (2 : ℚ) ^ j) := by omega
    unfold roundNearest
    have hz : (n : ℚ) * (2 : ℚ) ^ j / (2 : ℚ) ^ ulpExp p emin ((n : ℚ) * (2 : ℚ) ^ j) =
        ((n * (2 : ℤ) ^ (j - ulpExp p emin ((n : ℚ) * (2 : ℚ) ^ j)).toNat : ℤ) : ℚ) := by
      rw [Int.cast_mul, ← two_zpow_toNat hd, mul_div_assoc, two_zpow_sub]
    rw [hz, roundHalfEven_intCast, Int.cast_mul, ← two_zpow_toNat hd, mul_assoc,
      ← zpow_add₀ (by norm_num)]
    congr 2
    ring

theorem roundNearest_shape {p : ℕ} (emin : ℤ) (x : ℚ) :
    ∃ n : ℤ, roundNearest p emin x = (n : ℚ) * (2 : ℚ) ^ ulpExp p emin x ∧
      |n| ≤ (2 : ℤ) ^ p ∧ emin ≤ ulpExp p emin x := by
  refine ⟨roundHalfEven (x / (2 : ℚ) ^ ulpExp p emin x), rfl, ?_, le_max_right _ _⟩
  have hbound : |x / (2 : ℚ) ^ ulpExp p emin x| ≤ (2 : ℚ) ^ (p : ℤ) := by
    rw [abs_div, abs_of_pos (two_zpow_pos _), div_le_iff₀ (two_zpow_pos _),
      ← zpow_add₀ (by norm_num)]
    by_cases hx : x = 0
    · rw [hx, abs_zero]; exact le_of_lt (two_zpow_pos _)
    · have hxpos : (0 : ℚ) < |x| := abs_pos.mpr hx
      have h1 := lt_zpow_log_succ hxpos
      have h2 : Int.log 2 |x| + 1 ≤ (p : ℤ) + ulpExp p emin x := by
        have := le_max_left (Int.log 2 |x| - ((p : ℤ) - 1)) emin
        unfold ulpExp
        omega
      exact le_trans (le_of_lt h1) (two_zpow_le h2)
  rw [two_zpow_natCast] at hbound
  have hb := abs_le.mp hbound
  have h1 : roundHalfEven (x / (2 : ℚ) ^ ulpExp p emin x) ≤ (2 : ℤ) ^ p := roundHalfEven_le hb.2
  have h2 : -((2 : ℤ) ^ p) ≤ roundHalfEven (x / (2 : ℚ) ^ ulpExp p emin x) :=
    le_roundHalfEven (by push_cast; push_cast at hb; exact hb.1)
  exact abs_le.mpr ⟨h2, h1⟩

/-! ## The formats `float` and `double` -/

theorem f32_zero : f32 0 = 0 := by
  unfold f32
  rw [roundNearest_zero]
  norm_num

theorem clamp_neg (b r : ℚ) (hb : 0 < b) :
    max (-b) (min b (-r)) = -max (-b) (min b r) := by
  rcases le_total r b with h1 | h1 <;> rcases le_total (-b) r with h2 | h2
  · have e1 : min b r = r := min_eq_right h1
    have e2 : min b (-r) = -r := min_eq_right (by linarith)
    have e3 : max (-b) r = r := max_eq_right h2
    have e4 : max (-b) (-r) = -r := max_eq_right (by linarith)
    rw [e1, e2, e3, e4]
  · have e1 : min b r = r := min_eq_right h1
    have e2 : min b (-r) = b := min_eq_left (by linarith)
    have e3 : max (-b) r = -b := max_eq_left h2
    have e4 : max (-b) b = b := max_eq_right (by linarith)
    rw [e1, e2, e3, e4, neg_neg]
  · have e1 : min b r = b := min_eq_left h1
    have e2 : min b (-r) = -r := min_eq_right (by linarith)
    have e3 : max (-b) b = b := max_eq_right (by linarith)
    have e4 : max (-b) (-r) = -b := max_eq_left (by linarith)
    rw [e1, e2, e3, e4]
  · linarith

theorem f32_neg (x : ℚ) : f32 (-x) = -f32 x := by
  unfold f32
  rw [roundNearest_neg]
  exact clamp_neg _ _ (by positivity)

theorem f32_abs (x : ℚ) : |f32 x| = f32 |x| := by
  have h0 : ∀ y : ℚ, 0 ≤ y → 0 ≤ f32 y := by
    intro y hy
    unfold f32
    have hr : 0 ≤ roundNearest 24 (-149) y := by
      unfold roundNearest
      have hz : ((0 : ℤ) : ℚ) ≤ y / (2 : ℚ) ^ ulpExp 24 (-149) y := by
        rw [Int.cast_zero]; exact div_nonneg hy (le_of_lt (two_zpow_pos _))
      have := le_roundHalfEven hz
      have h' : (0 : ℚ) ≤ (roundHalfEven (y / (2 : ℚ) ^ ulpExp 24 (-149) y) : ℚ) := by
        exact_mod_cast this
      exact mul_nonneg h' (le_of_lt (two_zpow_pos _))
    exact le_max_of_le_right (le_min (by positivity) hr)
  rcases le_total 0 x with hx | hx
  · rw [abs_of_nonneg hx, abs_of_nonneg (h0 x hx)]
  · have h1 := h0 (-x) (by linarith)
    rw [f32_neg] at h1
    rw [abs_of_nonpos hx, f32_neg, abs_of_nonpos (by linarith)]

theorem f32_shape (x : ℚ) :
    ∃ n j : ℤ, f32 x = (n : ℚ) * (2 : ℚ) ^ j ∧ |n| ≤ (2 : ℤ) ^ 24 ∧ -149 ≤ j := by
  obtain ⟨n, hn, hb, hj⟩ := @roundNearest_shape 24 (-149) x
  have hpos : (0 : ℚ) < (2 : ℚ) ^ 128 := by positivity
  have hone : |(1 : ℤ)| ≤ (2 : ℤ) ^ 24 := by norm_num
  have hmone : |(-1 : ℤ)| ≤ (2 : ℤ) ^ 24 := by norm_num
  have hz : (2 : ℚ) ^ (128 : ℤ) = (2 : ℚ) ^ 128 := by norm_cast
  unfold f32
  rcases le_total (roundNearest 24 (-149) x) ((2 : ℚ) ^ 128) with h1 | h1
  · rcases le_total (-(2 : ℚ) ^ 128) (roundNearest 24 (-149) x) with h2 | h2
    · exact ⟨n, _, by rw [min_eq_right h1, max_eq_right h2, hn], hb, hj⟩
    · refine ⟨-1, 128, ?_, hmone, by omega⟩
      rw [min_eq_right h1, max_eq_left h2, hz]
      push_cast
      ring
  · refine ⟨1, 128, ?_, hone, by omega⟩
    rw [min_eq_left h1, max_eq_right (by linarith), hz]
    push_cast
    ring

theorem f64_sq_f32 (x : ℚ) : f64 (f32 x ^ 2) = f32 x ^ 2 := by
  obtain ⟨n, j, hx, hn, hj⟩ := f32_shape x
  have hsq : f32 x ^ 2 = ((n * n : ℤ) : ℚ) * (2 : ℚ) ^ (j + j) := by
    rw [hx, zpow_add₀ (by norm_num)]
    push_cast
    ring
  rw [hsq]
  unfold f64
  apply roundNearest_fixed
  · have h1 : |n * n| = |n| * |n| := abs_mul n n
    rw [h1]
    have h2 : |n| * |n| ≤ (2 : ℤ) ^ 24 * (2 : ℤ) ^ 24 :=
      mul_le_mul hn hn (abs_nonneg n) (by norm_num)
    have h3 : (2 : ℤ) ^ 24 * (2 : ℤ) ^ 24 < (2 : ℤ) ^ 53 := by norm_num
    exact lt_of_le_of_lt h2 h3
  · omega

/-! ## Rounding a square root -/

theorem sqrt_floor_bounds {z : ℚ} (hz : 0 ≤ z) :
    ((Nat.sqrt ⌊z⌋₊ : ℤ) : ℚ) * (Nat.sqrt ⌊z⌋₊ : ℤ) ≤ z ∧
      z < (((Nat.sqrt ⌊z⌋₊ : ℤ) : ℚ) + 1) * (((Nat.sqrt ⌊z⌋₊ : ℤ) : ℚ) + 1) := by
  have h1 : Nat.sqrt ⌊z⌋₊ * Nat.sqrt ⌊z⌋₊ ≤ ⌊z⌋₊ := Nat.sqrt_le _
  have h2 : ⌊z⌋₊ < (Nat.sqrt ⌊z⌋₊ + 1) * (Nat.sqrt ⌊z⌋₊ + 1) := Nat.lt_succ_sqrt _
  constructor
  · have h3 : ((Nat.sqrt ⌊z⌋₊ * Nat.sqrt ⌊z⌋₊ : ℕ) : ℚ) ≤ (⌊z⌋₊ : ℚ) := by exact_mod_cast h1
    have h4 : (⌊z⌋₊ : ℚ) ≤ z := Nat.floor_le hz
    push_cast at h3 ⊢
    linarith
  · have h3 : z < (((Nat.sqrt ⌊z⌋₊ + 1) * (Nat.sqrt ⌊z⌋₊ + 1) : ℕ) : ℚ) :=
      (Nat.floor_lt hz).mp h2
    push_cast at h3 ⊢
    linarith

theorem sqrtRound_ge_floor (z : ℚ) : (Nat.sqrt ⌊z⌋₊ : ℤ) ≤ sqrtRound z := by
  unfold sqrtRound
  simp only
  split_ifs <;> omega

theorem sqrtRound_le_floor_succ (z : ℚ) : sqrtRound z ≤ (Nat.sqrt ⌊z⌋₊ : ℤ) + 1 := by
  unfold sqrtRound
  simp only
  split_ifs <;> omega

theorem le_sqrtRound {z : ℚ} {k : ℤ} (hz : 0 ≤ z) (h : (k : ℚ) * k ≤ z) :
    k ≤ sqrtRound z := by
  have hb := (sqrt_floor_bounds hz).2
  have hn : (0 : ℤ) ≤ (Nat.sqrt ⌊z⌋₊ : ℤ) := Int.natCast_nonneg _
  have hlt : k < (Nat.sqrt ⌊z⌋₊ : ℤ) + 1 := by
    by_contra hc
    have hc : ((Nat.sqrt ⌊z⌋₊ : ℤ) : ℚ) + 1 ≤ (k : ℚ) := by exact_mod_cast not_lt.mp hc
    have hn' : (0 : ℚ) ≤ ((Nat.sqrt ⌊z⌋₊ : ℤ) : ℚ) := by exact_mod_cast hn
    nlinarith
  have := sqrtRound_ge_floor z
  omega

theorem sqrtRound_le {z : ℚ} {k : ℤ} (hz : 0 ≤ z) (hk : 0 ≤ k) (h : z ≤ (k : ℚ) * k) :
    sqrtRound z ≤ k := by
  have hb := (sqrt_floor_bounds hz).1
  have hn : (0 : ℤ) ≤ (Nat.sqrt ⌊z⌋₊ : ℤ) := Int.natCast_nonneg _
  have hn' : (0 : ℚ) ≤ ((Nat.sqrt ⌊z⌋₊ : ℤ) : ℚ) := by exact_mod_cast hn
  have hk' : (0 : ℚ) ≤ (k : ℚ) := by exact_mod_cast hk
  have hle : (Nat.sqrt ⌊z⌋₊ : ℤ) ≤ k := by
    by_contra hc
    have hc : (k : ℚ) + 1 ≤ ((Nat.sqrt ⌊z⌋₊ : ℤ) : ℚ) := by exact_mod_cast not_le.mp hc
    nlinarith
  rcases eq_or_lt_of_le hle with heq | hlt
  · unfold sqrtRound
    simp only
    rw [heq]
    have hm : z < (k : ℚ) * k + k + 1 / 4 := by linarith
    rw [if_pos hm]
  · have := sqrtRound_le_floor_succ z
    omega

theorem sqrtRound_lt_even {z : ℚ} {c : ℤ} (hz : 0 ≤ z) (hc1 : 1 ≤ c) (hc : c % 2 = 0) :
    sqrtRound z < c ↔ z < ((c : ℚ) - 1 / 2) * ((c : ℚ) - 1 / 2) := by
  have hb := sqrt_floor_bounds hz
  have hn : (0 : ℤ) ≤ (Nat.sqrt ⌊z⌋₊ : ℤ) := Int.natCast_nonneg _
  have hn' : (0 : ℚ) ≤ ((Nat.sqrt ⌊z⌋₊ : ℤ) : ℚ) := by exact_mod_cast hn
  have hc' : (1 : ℚ) ≤ (c : ℚ) := by exact_mod_cast hc1
  constructor
  · intro h
    by_contra hge
    have hge : ((c : ℚ) - 1 / 2) * ((c : ℚ) - 1 / 2) ≤ z := not_lt.mp hge
    have hN : c - 1 ≤ (Nat.sqrt ⌊z⌋₊ : ℤ) := by
      by_contra hcon
      have hcon : ((Nat.sqrt ⌊z⌋₊ : ℤ) : ℚ) + 1 ≤ (c : ℚ) - 1 := by
        have : (Nat.sqrt ⌊z⌋₊ : ℤ) + 1 ≤ c - 1 := by omega
        exact_mod_cast this
      nlinarith [hb.2]
    rcases eq_or_lt_of_le hN with heq | hlt
    · unfold sqrtRound at h
      simp only at h
      rw [← heq] at h
      have hm : ¬ (z < ((c - 1 : ℤ) : ℚ) * ((c - 1 : ℤ) : ℚ) + ((c - 1 : ℤ) : ℚ) + 1 / 4) := by
        push_cast
        have : ((c : ℚ) - 1) * ((c : ℚ) - 1) + ((c : ℚ) - 1) + 1 / 4 =
            ((c : ℚ) - 1 / 2) * ((c : ℚ) - 1 / 2) := by ring
        rw [this]
        exact not_lt.mpr hge
      rw [if_neg hm] at h
      have hodd : ¬ ((c - 1) % 2 = 0) := by omega
      split_ifs at h <;> omega
    · have := sqrtRound_ge_floor z
      omega
  · intro h
    have hN : (Nat.sqrt ⌊z⌋₊ : ℤ) ≤ c - 1 := by
      by_contra hcon
      have hcon : (c : ℚ) ≤ ((Nat.sqrt ⌊z⌋₊ : ℤ) : ℚ) := by
        have : c ≤ (Nat.sqrt ⌊z⌋₊ : ℤ) := by omega
        exact_mod_cast this
      nlinarith [hb.1]
    rcases eq_or_lt_of_le hN with heq | hlt
    · unfold sqrtRound
      simp only
      rw [heq]
      have hm : z < ((c - 1 : ℤ) : ℚ) * ((c - 1 : ℤ) : ℚ) + ((c - 1 : ℤ) : ℚ) + 1 / 4 := by
        push_cast
        have : ((c : ℚ) - 1) * ((c : ℚ) - 1) + ((c : ℚ) - 1) + 1 / 4 =
            ((c : ℚ) - 1 / 2) * ((c : ℚ) - 1 / 2) := by ring
        rw [this]
        exact h
      rw [if_pos hm]
      omega
    · have := sqrtRound_le_floor_succ z
      omega

/-! ## The threshold test `distChange < THRESH` -/

theorem f32_lt_two_iff_round (y : ℚ) : f32 y < 2 ↔ roundNearest 24 (-149) y < 2 := by
  unfold f32
  have hbig : (2 : ℚ) < (2 : ℚ) ^ 128 := by norm_num
  constructor
  · intro h
    have h1 := lt_of_le_of_lt (le_max_right _ _) h
    rcases min_lt_iff.mp h1 with h2 | h2
    · linarith
    · exact h2
  · intro h
    exact max_lt (by linarith) (lt_of_le_of_lt (min_le_right _ _) h)

/-- The conversion to `float` gives a value below 2 exactly for arguments below
`2 - 2^-24`, the midpoint between 2 and the `float` before it. -/
theorem f32_lt_two_iff (y : ℚ) : f32 y < 2 ↔ y < 2 - 1 / 2 ^ 24 := by
  rw [f32_lt_two_iff_round]
  have hu : (2 : ℚ) ^ ((0 : ℤ) - (((24 : ℕ) : ℤ) - 1)) = 1 / 2 ^ 23 := by norm_num [zpow_neg]
  constructor
  · intro h
    by_contra hge
    have hge : 2 - 1 / 2 ^ 24 ≤ y := not_lt.mp hge
    rcases le_or_lt 2 y with h2 | h2
    · have := @le_roundNearest 24 (-149) y 1 (by norm_num) (by norm_num)
        (by norm_num; exact h2)
      norm_num at this
      linarith
    · have hy0 : 0 < y := by norm_num at hge; linarith
      have hb1 : (2 : ℚ) ^ (0 : ℤ) ≤ |y| := by
        rw [abs_of_pos hy0]; norm_num at hge ⊢; linarith
      have hb2 : |y| < (2 : ℚ) ^ ((0 : ℤ) + 1) := by
        rw [abs_of_pos hy0]; norm_num; exact h2
      rw [roundNearest_of_binade hb1 hb2 (by norm_num), hu] at h
      have hn : ¬ (roundHalfEven (y / (1 / 2 ^ 23)) < (2 : ℤ) ^ 24) := by
        rw [roundHalfEven_lt_even (by norm_num)]
        push_cast
        rw [not_lt, le_div_iff₀ (by norm_num)]
        norm_num at hge ⊢
        linarith
      have hn' : ((2 : ℤ) ^ 24 : ℤ) ≤ roundHalfEven (y / (1 / 2 ^ 23)) := not_lt.mp hn
      have hq : (((2 : ℤ) ^ 24 : ℤ) : ℚ) ≤ (roundHalfEven (y / (1 / 2 ^ 23)) : ℚ) := by
        exact_mod_cast hn'
      push_cast at hq
      norm_num at h hq
      linarith
  · intro h
    rcases lt_or_le y 1 with h1 | h1
    · have := @roundNearest_le 24 (-149) y 0 (by norm_num)
        (by norm_num) (by norm_num; exact le_of_lt h1)
      norm_num at this
      linarith
    · have hy0 : 0 < y := by linarith
      have hb1 : (2 : ℚ) ^ (0 : ℤ) ≤ |y| := by rw [abs_of_pos hy0]; norm_num; exact h1
      have hb2 : |y| < (2 : ℚ) ^ ((0 : ℤ) + 1) := by
        rw [abs_of_pos hy0]; norm_num at h ⊢; linarith
      rw [roundNearest_of_binade hb1 hb2 (by norm_num), hu]
      have hn : roundHalfEven (y / (1 / 2 ^ 23)) < (2 : ℤ) ^ 24 := by
        rw [roundHalfEven_lt_even (by norm_num)]
        push_cast
        rw [div_lt_iff₀ (by norm_num)]
        norm_num at h ⊢
        linarith
      have hn' : roundHalfEven (y / (1 / 2 ^ 23)) ≤ (2 : ℤ) ^ 24 - 1 := by omega
      have hq : (roundHalfEven (y / (1 / 2 ^ 23)) : ℚ) ≤ (((2 : ℤ) ^ 24 - 1 : ℤ) : ℚ) := by
        exact_mod_cast hn'
      push_cast at hq
      norm_num at hq ⊢
      linarith

theorem sqrt64_of_mid {s : ℚ} (h1 : 1 ≤ s) (h4 : s < 4) :
    sqrt64 s = (sqrtRound (s * 2 ^ 104) : ℚ) / 2 ^ 52 := by
  have hs : 0 < s := by linarith
  have hlo : (0 : ℤ) ≤ Int.log 2 s := (log_le_iff hs 0).mp (by norm_num; exact h1)
  have hhi : Int.log 2 s < 2 := (log_lt_iff hs 2).mp (by norm_num; exact h4)
  have hue : max (Int.log 2 s / 2 - 52) (-1074) = -52 := by
    have : Int.log 2 s / 2 = 0 := by omega
    rw [this]
    norm_num
  unfold sqrt64
  rw [if_neg (not_le.mpr hs)]
  simp only [hue]
  have e1 : (2 : ℚ) ^ (2 * (-52) : ℤ) = 1 / 2 ^ 104 := by norm_num [zpow_neg]
  have e2 : (2 : ℚ) ^ (-52 : ℤ) = 1 / 2 ^ 52 := by norm_num [zpow_neg]
  rw [e1, e2]
  have e3 : s / (1 / 2 ^ 104) = s * 2 ^ 104 := by field_simp
  rw [e3]
  ring

theorem sqrt64_le_one {s : ℚ} (h0 : 0 < s) (h1 : s < 1) : sqrt64 s ≤ 1 := by
  have hhi : Int.log 2 s < 0 := (log_lt_iff h0 0).mp (by norm_num; exact h1)
  have hue : max (Int.log 2 s / 2 - 52) (-1074) ≤ 0 := max_le (by omega) (by norm_num)
  unfold sqrt64
  rw [if_neg (not_le.mpr h0)]
  simp only
  generalize max (Int.log 2 s / 2 - 52) (-1074) = ue at hue
  have hd : (0 : ℤ) ≤ -ue := by omega
  have hz : s / (2 : ℚ) ^ (2 * ue) ≤
      (((2 : ℤ) ^ (-ue).toNat : ℤ) : ℚ) * (((2 : ℤ) ^ (-ue).toNat : ℤ) : ℚ) := by
    rw [← two_zpow_toNat hd, ← zpow_add₀ (by norm_num), div_le_iff₀ (two_zpow_pos _),
      ← zpow_add₀ (by norm_num)]
    have : -ue + -ue + 2 * ue = 0 := by ring
    rw [this, zpow_zero]
    exact le_of_lt h1
  have hz0 : 0 ≤ s / (2 : ℚ) ^ (2 * ue) := div_nonneg (le_of_lt h0) (le_of_lt (two_zpow_pos _))
  have hr := sqrtRound_le hz0 (by positivity) hz
  have hr' : (sqrtRound (s / (2 : ℚ) ^ (2 * ue)) : ℚ) ≤ (((2 : ℤ) ^ (-ue).toNat : ℤ) : ℚ) := by
    exact_mod_cast hr
  calc _ ≤ (((2 : ℤ) ^ (-ue).toNat : ℤ) : ℚ) * (2 : ℚ) ^ ue :=
        mul_le_mul_of_nonneg_right hr' (le_of_lt (two_zpow_pos _))
    _ = 1 := by
        rw [← two_zpow_toNat hd, ← zpow_add₀ (by norm_num)]
        have : -ue + ue = 0 := by ring
        rw [this, zpow_zero]

theorem two_le_sqrt64 {s : ℚ} (h : 4 ≤ s) : 2 ≤ sqrt64 s := by
  have hs : 0 < s := by linarith
  have hlo : (2 : ℤ) ≤ Int.log 2 s := (log_le_iff hs 2).mp (by norm_num; exact h)
  have hpow := zpow_log_le hs
  unfold sqrt64
  rw [if_neg (not_le.mpr hs)]
  simp only
  generalize Int.log 2 s = e at hlo hpow
  have hue : max (e / 2 - 52) (-1074) = e / 2 - 52 := max_eq_left (by omega)
  rw [hue]
  have hz0 : 0 ≤ s / (2 : ℚ) ^ (2 * (e / 2 - 52)) :=
    div_nonneg (le_of_lt hs) (le_of_lt (two_zpow_pos _))
  have hz : (((2 : ℤ) ^ 52 : ℤ) : ℚ) * (((2 : ℤ) ^ 52 : ℤ) : ℚ) ≤
      s / (2 : ℚ) ^ (2 * (e / 2 - 52)) := by
    rw [le_div_iff₀ (two_zpow_pos _)]
    have e1 : (((2 : ℤ) ^ 52 : ℤ) : ℚ) * (((2 : ℤ) ^ 52 : ℤ) : ℚ) = (2 : ℚ) ^ (104 : ℤ) := by
      norm_num
    rw [e1, ← zpow_add₀ (by norm_num)]
    exact le_trans (two_zpow_le (by omega)) hpow
  have hr := le_sqrtRound hz0 hz
  have hr' : (((2 : ℤ) ^ 52 : ℤ) : ℚ) ≤ (sqrtRound (s / (2 : ℚ) ^ (2 * (e / 2 - 52))) : ℚ) := by
    exact_mod_cast hr
  calc (2 : ℚ) = (2 : ℚ) ^ (1 : ℤ) := by norm_num
    _ ≤ (2 : ℚ) ^ (e / 2) := two_zpow_le (by omega)
    _ = (((2 : ℤ) ^ 52 : ℤ) : ℚ) * (2 : ℚ) ^ (e / 2 - 52) := by
        have e1 : (((2 : ℤ) ^ 52 : ℤ) : ℚ) = (2 : ℚ) ^ (52 : ℤ) := by norm_num
        rw [e1, ← zpow_add₀ (by norm_num)]
        congr 1
        ring
    _ ≤ _ := mul_le_mul_of_nonneg_right hr' (le_of_lt (two_zpow_pos _))

/-- The double square root is below `2 - 2^-24` exactly when its argument is below the
square of `2 - 2^-24 - 2^-53`, the midpoint before `2 - 2^-24`. -/
theorem sqrt64_lt_iff (s : ℚ) :
    sqrt64 s < 2 - 1 / 2 ^ 24 ↔ s < (2 - 1 / 2 ^ 24 - 1 / 2 ^ 53) ^ 2 := by
  rcases le_or_lt s 0 with h0 | h0
  · have hl : sqrt64 s = 0 := by unfold sqrt64; rw [if_pos h0]
    rw [hl]
    constructor
    · intro _
      have : (0 : ℚ) < (2 - 1 / 2 ^ 24 - 1 / 2 ^ 53) ^ 2 := by norm_num
      linarith
    · intro _; norm_num
  · rcases lt_or_le s 1 with h1 | h1
    · have hl := sqrt64_le_one h0 h1
      constructor
      · intro _
        have : (1 : ℚ) < (2 - 1 / 2 ^ 24 - 1 / 2 ^ 53) ^ 2 := by norm_num
        linarith
      · intro _
        have : (1 : ℚ) < 2 - 1 / 2 ^ 24 := by norm_num
        linarith
    · rcases lt_or_le s 4 with h4 | h4
      · rw [sqrt64_of_mid h1 h4]
        have hz0 : (0 : ℚ) ≤ s * 2 ^ 104 := by positivity
        have hiff := sqrtRound_lt_even (z := s * 2 ^ 104) (c := 2 ^ 53 - 2 ^ 28) hz0
          (by norm_num) (by norm_num)
        constructor
        · intro h
          have hlt : sqrtRound (s * 2 ^ 104) < 2 ^ 53 - 2 ^ 28 := by
            have h' : (sqrtRound (s * 2 ^ 104) : ℚ) < (((2 : ℤ) ^ 53 - 2 ^ 28 : ℤ) : ℚ) := by
              rw [div_lt_iff₀ (by norm_num)] at h
              push_cast
              norm_num at h ⊢
              linarith
            exact_mod_cast h'
          have := hiff.mp hlt
          push_cast at this
          norm_num at this ⊢
          linarith
        · intro h
          have hlt : sqrtRound (s * 2 ^ 104) < 2 ^ 53 - 2 ^ 28 := by
            apply hiff.mpr
            push_cast
            norm_num at h ⊢
            linarith
          have h' : (sqrtRound (s * 2 ^ 104) : ℚ) < (((2 : ℤ) ^ 53 - 2 ^ 28 : ℤ) : ℚ) := by
            exact_mod_cast hlt
          rw [div_lt_iff₀ (by norm_num)]
          push_cast at h'
          norm_num at h' ⊢
          linarith
      · have hl := two_le_sqrt64 h4
        constructor
        · intro h
          have : (2 : ℚ) - 1 / 2 ^ 24 < 2 := by norm_num
          linarith
        · intro h
          have : (2 - 1 / 2 ^ 24 - 1 / 2 ^ 53 : ℚ) ^ 2 < 4 := by norm_num
          linarith

/-- The conversion of the sum of squares to `double` is below the square-root threshold
exactly when the sum is below `4 - 2^-22 + 15 * 2^-52`, a midpoint of two doubles. -/
theorem f64_lt_iff (q : ℚ) :
    f64 q < (2 - 1 / 2 ^ 24 - 1 / 2 ^ 53) ^ 2 ↔ q < 4 - 1 / 2 ^ 22 + 15 / 2 ^ 52 := by
  unfold f64
  have hu : (2 : ℚ) ^ ((1 : ℤ) - (((53 : ℕ) : ℤ) - 1)) = 1 / 2 ^ 51 := by norm_num [zpow_neg]
  rcases lt_or_le q 2 with h2 | h2
  · have := @roundNearest_le 53 (-1074) q 1 (by norm_num) (by norm_num)
      (by norm_num; exact le_of_lt h2)
    constructor
    · intro _
      norm_num
      linarith
    · intro _
      norm_num at this ⊢
      linarith
  · rcases lt_or_le q 4 with h4 | h4
    · have hq0 : 0 < q := by linarith
      have hb1 : (2 : ℚ) ^ (1 : ℤ) ≤ |q| := by rw [abs_of_pos hq0]; norm_num; exact h2
      have hb2 : |q| < (2 : ℚ) ^ ((1 : ℤ) + 1) := by rw [abs_of_pos hq0]; norm_num; exact h4
      rw [roundNearest_of_binade hb1 hb2 (by norm_num), hu]
      have hiff := @roundHalfEven_lt_even (q / (1 / 2 ^ 51)) ((2 : ℤ) ^ 53 - 2 ^ 29 + 8)
        (by norm_num)
      constructor
      · intro h
        have hlt : roundHalfEven (q / (1 / 2 ^ 51)) < (2 : ℤ) ^ 53 - 2 ^ 29 + 8 := by
          have h' : (roundHalfEven (q / (1 / 2 ^ 51)) : ℚ) <
              (((2 : ℤ) ^ 53 - 2 ^ 29 + 8 : ℤ) : ℚ) := by
            push_cast
            norm_num at h ⊢
            linarith
          exact_mod_cast h'
        have := hiff.mp hlt
        push_cast at this
        rw [div_lt_iff₀ (by norm_num)] at this
        norm_num at this ⊢
        linarith
      · intro h
        have hlt : roundHalfEven (q / (1 / 2 ^ 51)) < (2 : ℤ) ^ 53 - 2 ^ 29 + 8 := by
          apply hiff.mpr
          push_cast
          rw [div_lt_iff₀ (by norm_num)]
          norm_num at h ⊢
          linarith
        have hle : roundHalfEven (q / (1 / 2 ^ 51)) ≤ (2 : ℤ) ^ 53 - 2 ^ 29 + 7 := by omega
        have h' : (roundHalfEven (q / (1 / 2 ^ 51)) : ℚ) ≤
            (((2 : ℤ) ^ 53 - 2 ^ 29 + 7 : ℤ) : ℚ) := by exact_mod_cast hle
        push_cast at h'
        norm_num at h' ⊢
        linarith
    · have := @le_roundNearest 53 (-1074) q 2 (by norm_num) (by norm_num)
        (by norm_num; exact h4)
      constructor
      · intro h
        norm_num at this h
        linarith
      · intro h
        norm_num at h
        linarith

/-- The threshold test of the classifier in terms of the two rounded differences. -/
theorem distChange_lt_iff (a b : ℚ) :
    f32 (sqrt64 (f64 (f64 (f32 a ^ 2) + f64 (f32 b ^ 2)))) < 2 ↔
      f32 a ^ 2 + f32 b ^ 2 < 4 - 1 / 2 ^ 22 + 15 / 2 ^ 52 := by
  rw [f32_lt_two_iff, sqrt64_lt_iff, f64_lt_iff, f64_sq_f32, f64_sq_f32]

/-! ## Evaluating the conversions -/

theorem f32_of_abs_le {x : ℚ} (h : |x| ≤ 2 ^ 128) : f32 x = roundNearest 24 (-149) x := by
  have hz : (2 : ℚ) ^ (128 : ℤ) = 2 ^ 128 := by norm_cast
  have h1 : roundNearest 24 (-149) x ≤ 2 ^ 128 := by
    have := @roundNearest_le 24 (-149) x 128 (by norm_num) (by norm_num)
      (by rw [hz]; exact le_trans (le_abs_self x) h)
    rw [hz] at this
    exact this
  have h2 : -(2 : ℚ) ^ 128 ≤ roundNearest 24 (-149) x := by
    have := @roundNearest_le 24 (-149) (-x) 128 (by norm_num) (by norm_num)
      (by rw [hz]; exact le_trans (neg_le_abs x) h)
    rw [hz, roundNearest_neg] at this
    linarith
  unfold f32
  rw [min_eq_right h1, max_eq_right h2]

theorem f32_fixed {n j : ℤ} (hn : |n| < (2 : ℤ) ^ 24) (hj : -149 ≤ j)
    (hb : |(n : ℚ) * (2 : ℚ) ^ j| ≤ 2 ^ 128) : f32 ((n : ℚ) * (2 : ℚ) ^ j) = (n : ℚ) * (2 : ℚ) ^ j := by
  rw [f32_of_abs_le hb]
  exact roundNearest_fixed hn hj

theorem f32_intCast (n : ℤ) (hn : |n| < (2 : ℤ) ^ 24) : f32 (n : ℚ) = (n : ℚ) := by
  have hq : |(n : ℚ)| < 2 ^ 24 := by exact_mod_cast hn
  have h := @f32_fixed n 0 hn (by norm_num) (by
    rw [zpow_zero, mul_one]
    have : (2 : ℚ) ^ 24 ≤ 2 ^ 128 := by norm_num
    linarith)
  rw [zpow_zero, mul_one] at h
  exact h

/-- A nonnegative value whose square is at least 2 converts to a `float` no smaller than
`11863283 / 2 ^ 23`, the largest `float` below the square root of 2. -/
theorem f32_ge_of_sq {x : ℚ} (hx : 0 ≤ x) (h : 2 ≤ x ^ 2) : 11863283 / 2 ^ 23 ≤ f32 x := by
  have hf : (11863283 / 2 ^ 23 : ℚ) ≤ x := by
    by_contra hc
    have hc : x < 11863283 / 2 ^ 23 := not_le.mp hc
    have : x ^ 2 < (11863283 / 2 ^ 23 : ℚ) ^ 2 := by
      exact pow_lt_pow_left₀ hc hx (by norm_num)
    have h2 : (11863283 / 2 ^ 23 : ℚ) ^ 2 < 2 := by norm_num
    linarith
  have hr : (11863283 / 2 ^ 23 : ℚ) ≤ roundNearest 24 (-149) x := by
    rcases le_or_lt 2 x with h2 | h2
    · have := @le_roundNearest 24 (-149) x 1 (by norm_num) (by norm_num)
        (by norm_num; exact h2)
      norm_num at this ⊢
      linarith
    · have hx0 : 0 < x := lt_of_lt_of_le (by norm_num) hf
      have h1 : (1 : ℚ) ≤ x := le_trans (by norm_num) hf
      have hb1 : (2 : ℚ) ^ (0 : ℤ) ≤ |x| := by rw [abs_of_pos hx0]; norm_num; exact h1
      have hb2 : |x| < (2 : ℚ) ^ ((0 : ℤ) + 1) := by rw [abs_of_pos hx0]; norm_num; exact h2
      have hu : (2 : ℚ) ^ ((0 : ℤ) - (((24 : ℕ) : ℤ) - 1)) = 1 / 2 ^ 23 := by
        norm_num [zpow_neg]
      rw [roundNearest_of_binade hb1 hb2 (by norm_num), hu]
      have hz : ((11863283 : ℤ) : ℚ) ≤ x / (1 / 2 ^ 23) := by
        rw [le_div_iff₀ (by norm_num)]
        push_cast
        linarith
      have hn := le_roundHalfEven hz
      have hq : ((11863283 : ℤ) : ℚ) ≤ (roundHalfEven (x / (1 / 2 ^ 23)) : ℚ) := by
        exact_mod_cast hn
      push_cast at hq
      linarith
  unfold f32
  exact le_trans (le_min (by norm_num) hr) (le_max_right _ _)

theorem two_le_sqrt_iff (s : ℚ) : (2 : ℝ) ≤ Real.sqrt (s : ℝ) ↔ 4 ≤ s := by
  rw [← not_lt, ← not_lt, Real.sqrt_lt' (by norm_num : (0 : ℝ) < 2)]
  have h4 : ((2 : ℝ)) ^ 2 = ((4 : ℚ) : ℝ) := by norm_num
  rw [h4, Rat.cast_lt]

/-- The conversion to `float` of a value in the binade `[2 ^ e, 2 ^ (e + 1))` of the normal
range, from the integer nearest to the value counted in units in the last place. -/
theorem f32_eq_of_near {x : ℚ} {e n : ℤ} (h1 : (2 : ℚ) ^ e ≤ |x|) (h2 : |x| < (2 : ℚ) ^ (e + 1))
    (he : -126 ≤ e) (he2 : e ≤ 127) (hn1 : (n : ℚ) - 1 / 2 < x / (2 : ℚ) ^ (e - 23))
    (hn2 : x / (2 : ℚ) ^ (e - 23) < (n : ℚ) + 1 / 2) :
    f32 x = (n : ℚ) * (2 : ℚ) ^ (e - 23) := by
  have hz : (2 : ℚ) ^ (128 : ℤ) = 2 ^ 128 := by norm_cast
  have hb : |x| ≤ 2 ^ 128 := by
    rw [← hz]
    exact le_of_lt (lt_of_lt_of_le h2 (two_zpow_le (by omega)))
  have hexp : e - (((24 : ℕ) : ℤ) - 1) = e - 23 := by norm_num
  rw [f32_of_abs_le hb, roundNearest_of_binade h1 h2 (by rw [hexp]; omega), hexp,
    roundHalfEven_eq_of_near hn1 hn2]

/-! ## The classifier -/

/-- The classifier with the threshold test on `distChange` replaced by the equivalent
test on the sum of the squares of the two `float` differences. -/
theorem classifyColor_eq (prev cur : Point2f) :
    classifyColor prev cur =
      if f32 (cur.x - prev.x) ^ 2 + f32 (cur.y - prev.y) ^ 2 < 4 - 1 / 2 ^ 22 + 15 / 2 ^ 52 then
        blue
      else if |f32 (cur.y - prev.y)| < |f32 (cur.x - prev.x)| then
        (if prev.x < cur.x then green else red)
      else (if prev.y < cur.y then green else red) := by
  unfold classifyColor THRESH
  simp only [distChange_lt_iff]

theorem classifyColor_blue_iff (prev cur : Point2f) :
    classifyColor prev cur = blue ↔
      f32 (cur.x - prev.x) ^ 2 + f32 (cur.y - prev.y) ^ 2 < 4 - 1 / 2 ^ 22 + 15 / 2 ^ 52 := by
  have hgb : green ≠ blue := by decide
  have hrb : red ≠ blue := by decide
  rw [classifyColor_eq]
  split_ifs with h1 h2 h3 h3
  · simp only [true_iff]; exact h1
  all_goals simp only [hgb, hrb, false_iff]; exact h1

theorem classifyColor_cases (prev cur : Point2f) :
    classifyColor prev cur = blue ∨ classifyColor prev cur = green ∨
      classifyColor prev cur = red := by
  rw [classifyColor_eq]
  split_ifs <;> simp

theorem classifyColor_large (prev cur : Point2f)
    (h : 4 - 1 / 2 ^ 22 + 15 / 2 ^ 52 ≤ f32 (cur.x - prev.x) ^ 2 + f32 (cur.y - prev.y) ^ 2) :
    classifyColor prev cur =
      if |f32 (cur.y - prev.y)| < |f32 (cur.x - prev.x)| then
        (if prev.x < cur.x then green else red)
      else (if prev.y < cur.y then green else red) := by
  rw [classifyColor_eq, if_neg (not_lt.mpr h)]

theorem classifyColor_axis (prev cur : Point2f)
    (h : 4 - 1 / 2 ^ 22 + 15 / 2 ^ 52 ≤ f32 (cur.x - prev.x) ^ 2 + f32 (cur.y - prev.y) ^ 2) :
    (|f32 (cur.y - prev.y)| < |f32 (cur.x - prev.x)| →
      (classifyColor prev cur = green ↔ 0 < cur.x - prev.x) ∧
      (classifyColor prev cur = red ↔ cur.x - prev.x < 0)) ∧
    (¬ |f32 (cur.y - prev.y)| < |f32 (cur.x - prev.x)| →
      (classifyColor prev cur = green ↔ 0 < cur.y - prev.y) ∧
      (classifyColor prev cur = red ↔ cur.y - prev.y < 0)) := by
  have hgr : green ≠ red := by decide
  have hrg : red ≠ green := by decide
  rw [classifyColor_large prev cur h]
  constructor
  · intro hlt
    have hx : cur.x - prev.x ≠ 0 := by
      intro h0
      rw [h0, f32_zero, abs_zero] at hlt
      exact absurd hlt (not_lt.mpr (abs_nonneg _))
    rw [if_pos hlt]
    by_cases hp : prev.x < cur.x
    · rw [if_pos hp]
      simp only [true_iff, hgr, false_iff, not_lt]
      constructor <;> linarith
    · rw [if_neg hp]
      have hneg : cur.x - prev.x < 0 := lt_of_le_of_ne (by linarith) hx
      simp only [hrg, false_iff, true_iff, not_lt]
      constructor <;> linarith
  · intro hge
    have hy : cur.y - prev.y ≠ 0 := by
      intro h0
      rw [h0, f32_zero, abs_zero, not_lt, abs_nonpos_iff] at hge
      rw [h0, hge, f32_zero] at h
      norm_num at h
    rw [if_neg hge]
    by_cases hp : prev.y < cur.y
    · rw [if_pos hp]
      simp only [true_iff, hgr, false_iff, not_lt]
      constructor <;> linarith
    · rw [if_neg hp]
      have hneg : cur.y - prev.y < 0 := lt_of_le_of_ne (by linarith) hy
      simp only [hrg, false_iff, true_iff, not_lt]
      constructor <;> linarith

/-- On an exact tie `|dy| = |dx|` with exact magnitude at least 2 the rounded differences
tie as well and the sum of their squares reaches the threshold. -/
theorem tie_large (dx dy : ℚ) (htie : |dy| = |dx|) (h4 : 4 ≤ dx ^ 2 + dy ^ 2) :
    |f32 dy| = |f32 dx| ∧ 4 - 1 / 2 ^ 22 + 15 / 2 ^ 52 ≤ f32 dx ^ 2 + f32 dy ^ 2 := by
  have hft : |f32 dy| = |f32 dx| := by rw [f32_abs, f32_abs, htie]
  refine ⟨hft, ?_⟩
  have hsq : dy ^ 2 = dx ^ 2 := by rw [← sq_abs dy, htie, sq_abs]
  have h2 : 2 ≤ |dx| ^ 2 := by rw [sq_abs]; linarith
  have hf := f32_ge_of_sq (abs_nonneg dx) h2
  rw [← f32_abs] at hf
  have hfsq : f32 dy ^ 2 = f32 dx ^ 2 := by rw [← sq_abs (f32 dy), hft, sq_abs]
  have hlow : (11863283 / 2 ^ 23 : ℚ) ^ 2 ≤ |f32 dx| ^ 2 :=
    pow_le_pow_left₀ (by norm_num) hf 2
  rw [sq_abs] at hlow
  rw [hfsq]
  have hc : (4 : ℚ) - 1 / 2 ^ 22 + 15 / 2 ^ 52 ≤ 2 * (11863283 / 2 ^ 23 : ℚ) ^ 2 := by norm_num
  linarith


/-- C4 (counterexample): the `float` points (300, 200) and (302 - 2^-15, 200 + 362 * 2^-15)
have differences `dx = 2 - 2^-15` and `dy = 362 * 2^-15`, both computed without rounding,
with `dx^2 + dy^2 < 4`, so the exact magnitude is below 2.0; the sum of squares lies so
close to 4 that `distChange` rounds to 2.0 and the circle is green, not blue. -/
theorem classify_threshold_inexact :
    f32 300 = 300 ∧ f32 200 = 200 ∧ f32 (302 - 1 / 2 ^ 15) = 302 - 1 / 2 ^ 15 ∧
    f32 (200 + 362 / 2 ^ 15) = 200 + 362 / 2 ^ 15 ∧
    ((302 - 1 / 2 ^ 15 : ℚ) - 300) ^ 2 + ((200 + 362 / 2 ^ 15 : ℚ) - 200) ^ 2 < 4 ∧
    Real.sqrt (((((302 - 1 / 2 ^ 15 : ℚ) - 300) ^ 2 +
      ((200 + 362 / 2 ^ 15 : ℚ) - 200) ^ 2 : ℚ)) : ℝ) < 2 ∧
    (classify ⟨300, 200⟩ ⟨302 - 1 / 2 ^ 15, 200 + 362 / 2 ^ 15⟩).color = green ∧
    (classify ⟨300, 200⟩ ⟨302 - 1 / 2 ^ 15, 200 + 362 / 2 ^ 15⟩).color ≠ blue := by
  have e300 : f32 300 = 300 := by
    have := f32_intCast 300 (by norm_num)
    exact_mod_cast this
  have e200 : f32 200 = 200 := by
    have := f32_intCast 200 (by norm_num)
    exact_mod_cast this
  have ecx : f32 (302 - 1 / 2 ^ 15) = 302 - 1 / 2 ^ 15 := by
    have hv : ((9895935 : ℤ) : ℚ) * (2 : ℚ) ^ (-15 : ℤ) = 302 - 1 / 2 ^ 15 := by
      norm_num [zpow_neg]
    have := @f32_fixed 9895935 (-15) (by norm_num) (by norm_num) (by rw [hv]; norm_num [abs_le])
    rw [hv] at this
    exact this
  have ecy : f32 (200 + 362 / 2 ^ 15) = 200 + 362 / 2 ^ 15 := by
    have hv : ((6553962 : ℤ) : ℚ) * (2 : ℚ) ^ (-15 : ℤ) = 200 + 362 / 2 ^ 15 := by
      norm_num [zpow_neg]
    have := @f32_fixed 6553962 (-15) (by norm_num) (by norm_num) (by rw [hv]; norm_num [abs_le])
    rw [hv] at this
    exact this
  have edx : f32 ((302 - 1 / 2 ^ 15 : ℚ) - 300) = 2 - 1 / 2 ^ 15 := by
    have hv : ((65535 : ℤ) : ℚ) * (2 : ℚ) ^ (-15 : ℤ) = (302 - 1 / 2 ^ 15 : ℚ) - 300 := by
      norm_num [zpow_neg]
    have := @f32_fixed 65535 (-15) (by norm_num) (by norm_num) (by rw [hv]; norm_num [abs_le])
    rw [hv] at this
    rw [this]
    norm_num
  have edy : f32 ((200 + 362 / 2 ^ 15 : ℚ) - 200) = 362 / 2 ^ 15 := by
    have hv : ((362 : ℤ) : ℚ) * (2 : ℚ) ^ (-15 : ℤ) = (200 + 362 / 2 ^ 15 : ℚ) - 200 := by
      norm_num [zpow_neg]
    have := @f32_fixed 362 (-15) (by norm_num) (by norm_num) (by rw [hv]; norm_num [abs_le])
    rw [hv] at this
    rw [this]
    norm_num
  have hlt : ((302 - 1 / 2 ^ 15 : ℚ) - 300) ^ 2 + ((200 + 362 / 2 ^ 15 : ℚ) - 200) ^ 2 < 4 := by
    norm_num
  have hgreen : classifyColor ⟨300, 200⟩ ⟨302 - 1 / 2 ^ 15, 200 + 362 / 2 ^ 15⟩ = green := by
    rw [classifyColor_eq]
    simp only [edx, edy]
    norm_num
  refine ⟨e300, e200, ecx, ecy, hlt, ?_, hgreen, ?_⟩
  · rw [← not_le, two_le_sqrt_iff, not_le]
    exact hlt
  · show classifyColor ⟨300, 200⟩ ⟨302 - 1 / 2 ^ 15, 200 + 362 / 2 ^ 15⟩ ≠ blue
    rw [hgreen]
    decide

/-- C4 (amended): with `fdx` and `fdy` the coordinate differences rounded to `float`, the
classifier circle is blue exactly when the `float` `distChange` computed on line 72 is
below `THRESH`, which is exactly when `fdx^2 + fdy^2 < 4 - 2^-22 + 15 * 2^-52`.  A blue
circle implies that the rounded displacement has magnitude below 2.0, and a rounded
displacement of magnitude below `2 - 2^-23` is blue.  The circle is always blue, green or
red, has radius 3 and is centred on the current position; the displacement `dx = 2`,
`dy = 0` of magnitude exactly 2.0 is not blue but green. -/
theorem classify_threshold_float (prev cur : Point2f) :
    ((classify prev cur).color = blue ↔
      f32 (sqrt64 (f64 (f64 (f32 (cur.x - prev.x) ^ 2) + f64 (f32 (cur.y - prev.y) ^ 2)))) <
        THRESH) ∧
    ((classify prev cur).color = blue ↔
      f32 (cur.x - prev.x) ^ 2 + f32 (cur.y - prev.y) ^ 2 < 4 - 1 / 2 ^ 22 + 15 / 2 ^ 52) ∧
    ((classify prev cur).color = blue →
      Real.sqrt (((f32 (cur.x - prev.x) ^ 2 + f32 (cur.y - prev.y) ^ 2 : ℚ)) : ℝ) < 2) ∧
    (Real.sqrt (((f32 (cur.x - prev.x) ^ 2 + f32 (cur.y - prev.y) ^ 2 : ℚ)) : ℝ) <
        2 - 1 / 2 ^ 23 → (classify prev cur).color = blue) ∧
    ((classify prev cur).color = blue ∨ (classify prev cur).color = green ∨
      (classify prev cur).color = red) ∧
    (classify prev cur).radius = 3 ∧
    (classify prev cur).center = cur ∧
    (classify ⟨0, 0⟩ ⟨2, 0⟩).color = green ∧
    (classify ⟨0, 0⟩ ⟨2, 0⟩).color ≠ blue := by
  have hgreen : classifyColor ⟨0, 0⟩ ⟨2, 0⟩ = green := by
    have e2 : f32 2 = 2 := by
      have := f32_intCast 2 (by norm_num)
      exact_mod_cast this
    rw [classifyColor_eq]
    simp only [sub_zero, e2, f32_zero]
    norm_num
  refine ⟨?_, classifyColor_blue_iff prev cur, ?_, ?_, classifyColor_cases prev cur, rfl, rfl,
    hgreen, ?_⟩
  · show classifyColor prev cur = blue ↔ _
    rw [classifyColor_blue_iff]
    unfold THRESH
    exact (distChange_lt_iff _ _).symm
  · intro hb
    have hq := (classifyColor_blue_iff prev cur).mp hb
    rw [← not_le, two_le_sqrt_iff, not_le]
    have : (4 : ℚ) - 1 / 2 ^ 22 + 15 / 2 ^ 52 < 4 := by norm_num
    linarith
  · intro hs
    apply (classifyColor_blue_iff prev cur).mpr
    rw [Real.sqrt_lt' (by norm_num)] at hs
    have hc : (((2 : ℝ) - 1 / 2 ^ 23) ^ 2) = (((2 - 1 / 2 ^ 23 : ℚ) ^ 2 : ℚ) : ℝ) := by
      push_cast
      ring
    rw [hc, Rat.cast_lt] at hs
    have : (2 - 1 / 2 ^ 23 : ℚ) ^ 2 < 4 - 1 / 2 ^ 22 + 15 / 2 ^ 52 := by norm_num
    linarith
  · show classifyColor ⟨0, 0⟩ ⟨2, 0⟩ ≠ blue
    rw [hgreen]
    decide


/-- C5 (counterexample): for the `float` points (0, 300 + 2^-15) and (300 + 2^-15, 2^-30)
the exact differences satisfy `|dy| < |dx|` and `dx > 0` and the magnitude is far above
2.0, yet the circle is red: `dy = -(300 + 2^-15) + 2^-30` rounds to `-(300 + 2^-15)`, the
rounded differences tie, the vertical branch runs and finds the `y` coordinate
decreasing. -/
theorem classify_dominant_axis_inexact :
    f32 0 = 0 ∧ f32 (300 + 1 / 2 ^ 15) = 300 + 1 / 2 ^ 15 ∧ f32 (1 / 2 ^ 30) = 1 / 2 ^ 30 ∧
    |(1 / 2 ^ 30 : ℚ) - (300 + 1 / 2 ^ 15)| < |(300 + 1 / 2 ^ 15 : ℚ) - 0| ∧
    0 < (300 + 1 / 2 ^ 15 : ℚ) - 0 ∧
    (2 : ℝ) ≤ Real.sqrt ((((((300 + 1 / 2 ^ 15 : ℚ) - 0) ^ 2 +
      ((1 / 2 ^ 30 : ℚ) - (300 + 1 / 2 ^ 15)) ^ 2 : ℚ)) : ℝ)) ∧
    (classify ⟨0, 300 + 1 / 2 ^ 15⟩ ⟨300 + 1 / 2 ^ 15, 1 / 2 ^ 30⟩).color = red ∧
    (classify ⟨0, 300 + 1 / 2 ^ 15⟩ ⟨300 + 1 / 2 ^ 15, 1 / 2 ^ 30⟩).color ≠ green := by
  have ec : f32 (300 + 1 / 2 ^ 15) = 300 + 1 / 2 ^ 15 := by
    have hv : ((9830401 : ℤ) : ℚ) * (2 : ℚ) ^ (-15 : ℤ) = 300 + 1 / 2 ^ 15 := by
      norm_num [zpow_neg]
    have := @f32_fixed 9830401 (-15) (by norm_num) (by norm_num) (by rw [hv]; norm_num [abs_le])
    rw [hv] at this
    exact this
  have et : f32 (1 / 2 ^ 30) = 1 / 2 ^ 30 := by
    have hv : ((1 : ℤ) : ℚ) * (2 : ℚ) ^ (-30 : ℤ) = 1 / 2 ^ 30 := by
      norm_num [zpow_neg]
    have := @f32_fixed 1 (-30) (by norm_num) (by norm_num) (by rw [hv]; norm_num [abs_le])
    rw [hv] at this
    exact this
  have edx : f32 ((300 + 1 / 2 ^ 15 : ℚ) - 0) = 300 + 1 / 2 ^ 15 := by
    rw [sub_zero, ec]
  have edy : f32 ((1 / 2 ^ 30 : ℚ) - (300 + 1 / 2 ^ 15)) = -(300 + 1 / 2 ^ 15) := by
    have hneg : (1 / 2 ^ 30 : ℚ) - (300 + 1 / 2 ^ 15) < 0 := by norm_num
    have hu : (2 : ℚ) ^ ((8 : ℤ) - 23) = 1 / 2 ^ 15 := by norm_num [zpow_neg]
    have := @f32_eq_of_near ((1 / 2 ^ 30 : ℚ) - (300 + 1 / 2 ^ 15)) 8 (-9830401)
      (by rw [abs_of_neg hneg]; norm_num) (by rw [abs_of_neg hneg]; norm_num)
      (by norm_num) (by norm_num)
      (by rw [hu]; norm_num) (by rw [hu]; norm_num)
    rw [this, hu]
    norm_num
  have hred : classifyColor ⟨0, 300 + 1 / 2 ^ 15⟩ ⟨300 + 1 / 2 ^ 15, 1 / 2 ^ 30⟩ = red := by
    rw [classifyColor_eq]
    simp only [edx, edy]
    norm_num
  refine ⟨f32_zero, ec, et, ?_, by norm_num, ?_, hred, ?_⟩
  · rw [abs_of_neg (by norm_num), abs_of_pos (by norm_num)]
    norm_num
  · rw [two_le_sqrt_iff]
    norm_num
  · show classifyColor ⟨0, 300 + 1 / 2 ^ 15⟩ ⟨300 + 1 / 2 ^ 15, 1 / 2 ^ 30⟩ ≠ green
    rw [hred]
    decide

/-- C5 (amended): for a pair whose computed `float` magnitude `distChange` is at least
`THRESH`, with `fdx` and `fdy` the coordinate differences rounded to `float`: when
`|fdy| < |fdx|` the classifier circle is green exactly when `dx > 0` and red exactly when
`dx < 0`; otherwise it is green exactly when `dy > 0` and red exactly when `dy < 0`.  The
axis is chosen on the rounded differences and the sign is read from the coordinates
themselves; red is drawn only for a strictly decreasing coordinate of the chosen axis. -/
theorem classify_dominant_axis_float (prev cur : Point2f)
    (h : THRESH ≤
      f32 (sqrt64 (f64 (f64 (f32 (cur.x - prev.x) ^ 2) + f64 (f32 (cur.y - prev.y) ^ 2))))) :
    (classify prev cur).color ≠ blue ∧
    (|f32 (cur.y - prev.y)| < |f32 (cur.x - prev.x)| →
      ((classify prev cur).color = green ↔ 0 < cur.x - prev.x) ∧
      ((classify prev cur).color = red ↔ cur.x - prev.x < 0)) ∧
    (¬ |f32 (cur.y - prev.y)| < |f32 (cur.x - prev.x)| →
      ((classify prev cur).color = green ↔ 0 < cur.y - prev.y) ∧
      ((classify prev cur).color = red ↔ cur.y - prev.y < 0)) := by
  have hT : 4 - 1 / 2 ^ 22 + 15 / 2 ^ 52 ≤
      f32 (cur.x - prev.x) ^ 2 + f32 (cur.y - prev.y) ^ 2 := by
    unfold THRESH at h
    exact not_lt.mp (fun hc => absurd ((distChange_lt_iff _ _).mpr hc) (not_lt.mpr h))
  refine ⟨?_, classifyColor_axis prev cur hT⟩
  show classifyColor prev cur ≠ blue
  rw [Ne, classifyColor_blue_iff]
  exact not_lt.mpr hT

/-- C5 (amended) at a concrete pair: the point moves from (0, 0) to (-5, 1); the computed
magnitude is above 2.0, the horizontal axis is chosen and the `x` coordinate decreases, so
the circle is red. -/
theorem classify_dominant_axis_float_witness :
    THRESH ≤ f32 (sqrt64 (f64 (f64 (f32 ((⟨-5, 1⟩ : Point2f).x - (⟨0, 0⟩ : Point2f).x) ^ 2) +
      f64 (f32 ((⟨-5, 1⟩ : Point2f).y - (⟨0, 0⟩ : Point2f).y) ^ 2)))) ∧
    (classify ⟨0, 0⟩ ⟨-5, 1⟩).color = red :=
  have ex : f32 ((⟨-5, 1⟩ : Point2f).x - (⟨0, 0⟩ : Point2f).x) = -5 := by
    have := f32_intCast (-5) (by norm_num)
    simp only [sub_zero]
    exact_mod_cast this
  have ey : f32 ((⟨-5, 1⟩ : Point2f).y - (⟨0, 0⟩ : Point2f).y) = 1 := by
    have := f32_intCast 1 (by norm_num)
    simp only [sub_zero]
    exact_mod_cast this
  have h : THRESH ≤
      f32 (sqrt64 (f64 (f64 (f32 ((⟨-5, 1⟩ : Point2f).x - (⟨0, 0⟩ : Point2f).x) ^ 2) +
        f64 (f32 ((⟨-5, 1⟩ : Point2f).y - (⟨0, 0⟩ : Point2f).y) ^ 2)))) := by
    unfold THRESH
    refine not_lt.mp (fun hc => ?_)
    have hq := (distChange_lt_iff _ _).mp hc
    rw [ex, ey] at hq
    norm_num at hq
  ⟨h, ((classify_dominant_axis_float ⟨0, 0⟩ ⟨-5, 1⟩ h).2.1
    (by rw [ex, ey]; norm_num)).2.mpr (by norm_num)⟩

/-- C6: when `|dy| = |dx|` and the magnitude is at least 2.0 the vertical branch decides:
the circle is green exactly when `dy > 0` and red exactly when `dy < 0`, and mirroring
the displacement horizontally (`dx` to `-dx`) does not change the colour.  The pair with
`dx = 3, dy = 3` is green and the pair with `dx = 3, dy = -3` is red. -/
theorem classify_tie_break (prev cur : Point2f)
    (htie : |cur.y - prev.y| = |cur.x - prev.x|)
    (h : (2 : ℝ) ≤ Real.sqrt ((((cur.x - prev.x) ^ 2 + (cur.y - prev.y) ^ 2 : ℚ)) : ℝ)) :
    ((classify prev cur).color = green ↔ 0 < cur.y - prev.y) ∧
    ((classify prev cur).color = red ↔ cur.y - prev.y < 0) ∧
    (classify prev ⟨2 * prev.x - cur.x, cur.y⟩).color = (classify prev cur).color ∧
    (classify ⟨0, 0⟩ ⟨3, 3⟩).color = green ∧
    (classify ⟨0, 0⟩ ⟨3, -3⟩).color = red := by
  have h4 := (two_le_sqrt_iff _).mp h
  obtain ⟨hft, hT⟩ := tie_large (cur.x - prev.x) (cur.y - prev.y) htie h4
  have hnot : ¬ |f32 (cur.y - prev.y)| < |f32 (cur.x - prev.x)| := by
    rw [hft]; exact lt_irrefl _
  have hax := (classifyColor_axis prev cur hT).2 hnot
  have e3 : f32 3 = 3 := by
    have := f32_intCast 3 (by norm_num)
    exact_mod_cast this
  have em3 : f32 (-3) = -3 := by
    rw [f32_neg, e3]
  refine ⟨hax.1, hax.2, ?_, ?_, ?_⟩
  · show classifyColor prev ⟨2 * prev.x - cur.x, cur.y⟩ = classifyColor prev cur
    have hdx : (2 * prev.x - cur.x) - prev.x = -(cur.x - prev.x) := by ring
    rw [classifyColor_eq prev cur, classifyColor_eq prev ⟨2 * prev.x - cur.x, cur.y⟩]
    simp only [hdx, f32_neg, neg_sq, abs_neg, if_neg hnot, if_neg (not_lt.mpr hT)]
  · show classifyColor ⟨0, 0⟩ ⟨3, 3⟩ = green
    rw [classifyColor_eq]
    simp only [sub_zero, e3]
    norm_num
  · show classifyColor ⟨0, 0⟩ ⟨3, -3⟩ = red
    rw [classifyColor_eq]
    simp only [sub_zero, e3, em3]
    norm_num

/-- C6 at the pair moving from (1, 1) to (-2, 4): `dx = -3`, `dy = 3`, a tie decided by
`dy > 0`, so the circle is green although the horizontal coordinate decreases. -/
theorem classify_tie_break_witness :
    |(⟨-2, 4⟩ : Point2f).y - (⟨1, 1⟩ : Point2f).y| =
      |(⟨-2, 4⟩ : Point2f).x - (⟨1, 1⟩ : Point2f).x| ∧
    (2 : ℝ) ≤ Real.sqrt (((((⟨-2, 4⟩ : Point2f).x - (⟨1, 1⟩ : Point2f).x) ^ 2 +
      ((⟨-2, 4⟩ : Point2f).y - (⟨1, 1⟩ : Point2f).y) ^ 2 : ℚ)) : ℝ) ∧
    (classify ⟨1, 1⟩ ⟨-2, 4⟩).color = green :=
  have htie : |(⟨-2, 4⟩ : Point2f).y - (⟨1, 1⟩ : Point2f).y| =
      |(⟨-2, 4⟩ : Point2f).x - (⟨1, 1⟩ : Point2f).x| := by norm_num
  have h : (2 : ℝ) ≤ Real.sqrt (((((⟨-2, 4⟩ : Point2f).x - (⟨1, 1⟩ : Point2f).x) ^ 2 +
      ((⟨-2, 4⟩ : Point2f).y - (⟨1, 1⟩ : Point2f).y) ^ 2 : ℚ)) : ℝ) :=
    (two_le_sqrt_iff _).mpr (by norm_num)
  ⟨htie, h, (classify_tie_break ⟨1, 1⟩ ⟨-2, 4⟩ htie h).1.mpr (by norm_num)⟩

/-! ## The compaction loop -/

theorem compactBody_untracked {status : List Nat} {c : Compaction} {i : Nat}
    (h : status[i]? = some 0) : compactBody status c i = some c := by
  simp [compactBody, h]

theorem compactBody_tracked {status : List Nat} {c : Compaction} {i s : Nat} {f p : Point2f}
    (hs : status[i]? = some s) (hs0 : s ≠ 0) (hf : c.features[i]? = some f)
    (hp : c.prevFeatures[i]? = some p) (hk : c.k ≤ i) :
    compactBody status c i =
      some { k := c.k + 1, prevFeatures := c.prevFeatures.set c.k p,
             features := c.features.set c.k f, image := circle c.image f 1 blue (-1) } := by
  have hif : i < c.features.length := (List.getElem?_eq_some.mp hf).1
  have hip : i < c.prevFeatures.length := (List.getElem?_eq_some.mp hp).1
  have hkf : c.k < c.features.length := lt_of_le_of_lt hk hif
  have hkp : c.k < c.prevFeatures.length := lt_of_le_of_lt hk hip
  have hread : (c.features.set c.k f)[i]? = some f := by
    rw [List.getElem?_set]
    split_ifs with h1
    · rfl
    · exact hf
  simp [compactBody, hs, hs0, hf, hp, assignAt, hkf, hkp, hread]

theorem successIndices_succ (status : List Nat) (n : Nat) :
    successIndices status (n + 1) =
      successIndices status n ++ (if tracked status n then [n] else []) := by
  unfold successIndices
  rw [List.range_succ, List.filter_append]
  by_cases h : tracked status n = true <;> simp [List.filter_cons, h]

theorem take_succ_set {α : Type} (l : List α) (k : Nat) (a : α) (hk : k < l.length) :
    (l.set k a).take (k + 1) = l.take k ++ [a] := by
  apply List.ext_getElem?
  intro j
  rw [List.getElem?_take, List.getElem?_set]
  by_cases hj : j < k
  · have h1 : j < k + 1 := by omega
    have h2 : k ≠ j := by omega
    rw [if_pos h1, if_neg h2, List.getElem?_append_left (by simp; omega), List.getElem?_take,
      if_pos hj]
  · by_cases hjk : j = k
    · subst hjk
      rw [if_pos (by omega), if_pos rfl, if_pos hk,
        List.getElem?_append_right (by simp)]
      simp [Nat.min_eq_left (le_of_lt hk)]
    · have h1 : ¬ j < k + 1 := by omega
      rw [if_neg h1, List.getElem?_append_right (by simp; omega)]
      simp [Nat.min_eq_left (le_of_lt hk)]
      omega

theorem tracked_of_getElem? {status : List Nat} {n s : Nat} (hs : status[n]? = some s) :
    tracked status n = decide (s ≠ 0) := by
  simp [tracked, hs]

theorem compactInv_init (status : List Nat) (prev feat : List Point2f) (image : Mat) :
    CompactInv status prev feat image 0
      { k := 0, prevFeatures := prev, features := feat, image := image } := by
  constructor <;> simp [successIndices]

theorem compactInv_step {status : List Nat} {prev feat : List Point2f} {image : Mat}
    {n : Nat} {c : Compaction} (hinv : CompactInv status prev feat image n c)
    (hn : n < feat.length) (hs : n < status.length)
    (hp : tracked status n = true → n < prev.length) :
    ∃ c1, compactBody status c n = some c1 ∧ CompactInv status prev feat image (n + 1) c1 := by
  have hsn : status[n]? = some status[n] := List.getElem?_eq_getElem hs
  have htr := tracked_of_getElem? hsn
  by_cases h0 : status[n] = 0
  · refine ⟨c, compactBody_untracked (by rw [hsn, h0]), ?_⟩
    have hfalse : tracked status n = false := by rw [htr]; simp [h0]
    have hsucc : successIndices status (n + 1) = successIndices status n := by
      rw [successIndices_succ, hfalse]; simp
    constructor
    · exact hinv.len_feat
    · exact hinv.len_prev
    · exact Nat.le_succ_of_le hinv.k_le
    · rw [hsucc]; exact hinv.take_feat
    · rw [hsucc]; exact hinv.take_prev
    · intro j hj; exact hinv.rest_feat j (by omega)
    · intro j hj; exact hinv.rest_prev j (by omega)
    · exact hinv.pixels
    · rw [hsucc]; exact hinv.drawn
  · have htrue : tracked status n = true := by rw [htr]; simp [h0]
    have hnp : n < prev.length := hp htrue
    have hf : c.features[n]? = some feat[n] := by
      rw [hinv.rest_feat n le_rfl]; exact List.getElem?_eq_getElem hn
    have hpv : c.prevFeatures[n]? = some prev[n] := by
      rw [hinv.rest_prev n le_rfl]; exact List.getElem?_eq_getElem hnp
    have hkf : c.k < c.features.length := by
      rw [hinv.len_feat]; exact lt_of_le_of_lt hinv.k_le hn
    have hkp : c.k < c.prevFeatures.length := by
      rw [hinv.len_prev]; exact lt_of_le_of_lt hinv.k_le hnp
    have hsucc : successIndices status (n + 1) = successIndices status n ++ [n] := by
      rw [successIndices_succ, htrue]; simp
    refine ⟨_, compactBody_tracked hsn h0 hf hpv hinv.k_le, ?_⟩
    constructor
    · simp [hinv.len_feat]
    · simp [hinv.len_prev]
    · exact Nat.succ_le_succ hinv.k_le
    · show (c.features.set c.k feat[n]).take (c.k + 1) = _
      rw [take_succ_set _ _ _ hkf, hinv.take_feat, hsucc, List.filterMap_append]
      simp [List.getElem?_eq_getElem hn]
    · show (c.prevFeatures.set c.k prev[n]).take (c.k + 1) = _
      rw [take_succ_set _ _ _ hkp, hinv.take_prev, hsucc, List.filterMap_append]
      simp [List.getElem?_eq_getElem hnp]
    · intro j hj
      show (c.features.set c.k feat[n])[j]? = _
      rw [List.getElem?_set, if_neg (by have := hinv.k_le; omega)]
      exact hinv.rest_feat j (by omega)
    · intro j hj
      show (c.prevFeatures.set c.k prev[n])[j]? = _
      rw [List.getElem?_set, if_neg (by have := hinv.k_le; omega)]
      exact hinv.rest_prev j (by omega)
    · exact hinv.pixels
    · show c.image.drawn ++ [_] = _
      rw [hinv.drawn, hsucc, List.filterMap_append]
      simp [List.getElem?_eq_getElem hn, traceCircle]

theorem compactLoop_upto {status : List Nat} {prev feat : List Point2f} (image : Mat)
    (hs : feat.length ≤ status.length)
    (hp : ∀ i, i < feat.length → tracked status i = true → i < prev.length) :
    ∀ n, n ≤ feat.length →
      ∃ c, (List.range n).foldlM (compactBody status)
          { k := 0, prevFeatures := prev, features := feat, image := image } = some c ∧
        CompactInv status prev feat image n c := by
  intro n
  induction n with
  | zero => intro _; exact ⟨_, rfl, compactInv_init status prev feat image⟩
  | succ n ih =>
    intro hn
    obtain ⟨c, hc, hinv⟩ := ih (by omega)
    obtain ⟨c1, hc1, hinv1⟩ := compactInv_step hinv (by omega) (by omega) (hp n (by omega))
    refine ⟨c1, ?_, hinv1⟩
    rw [List.range_succ, List.foldlM_append, hc]
    simp [hc1]

theorem mem_successIndices {status : List Nat} {n i : Nat} :
    i ∈ successIndices status n ↔ i < n ∧ tracked status i = true := by
  simp [successIndices]

theorem filterMap_getElem?_length {α : Type} (xs : List α) (l : List Nat)
    (h : ∀ i ∈ l, i < xs.length) : (l.filterMap (fun i => xs[i]?)).length = l.length := by
  induction l with
  | nil => rfl
  | cons a l ih =>
    have ha : a < xs.length := h a (List.mem_cons_self _ _)
    rw [List.filterMap_cons_some (List.getElem?_eq_getElem ha)]
    simp [ih (fun i hi => h i (List.mem_cons_of_mem _ hi))]

theorem filterMap_getElem?_at {α : Type} (xs : List α) (l : List Nat)
    (h : ∀ i ∈ l, i < xs.length) (j : Nat) :
    (l.filterMap (fun i => xs[i]?))[j]? = l[j]?.bind (fun i => xs[i]?) := by
  induction l generalizing j with
  | nil => simp
  | cons a l ih =>
    have ha : a < xs.length := h a (List.mem_cons_self _ _)
    rw [List.filterMap_cons_some (List.getElem?_eq_getElem ha)]
    cases j with
    | zero => simp [List.getElem?_eq_getElem ha]
    | succ j => simpa using ih (fun i hi => h i (List.mem_cons_of_mem _ hi)) j

theorem successIndices_length (status : List Nat) :
    ∀ n, n ≤ status.length →
      (successIndices status n).length = (status.take n).countP (fun s => decide (s ≠ 0)) := by
  intro n
  induction n with
  | zero => intro _; simp [successIndices]
  | succ n ih =>
    intro hn
    have hlt : n < status.length := by omega
    have hsn : status[n]? = some status[n] := List.getElem?_eq_getElem hlt
    rw [successIndices_succ, List.take_succ, List.countP_append, List.length_append,
      ih (by omega), tracked_of_getElem? hsn, hsn]
    by_cases h0 : status[n] = 0 <;> simp [h0]

theorem keepTracked_nil_left {α : Type} (xs : List α) : keepTracked [] xs = [] := by
  simp [keepTracked]

theorem keepTracked_nil_right {α : Type} (status : List Nat) :
    keepTracked status ([] : List α) = [] := by
  simp [keepTracked]

theorem keepTracked_cons_cons {α : Type} (s : Nat) (status : List Nat) (x : α) (xs : List α) :
    keepTracked (s :: status) (x :: xs) =
      (if s ≠ 0 then [x] else []) ++ keepTracked status xs := by
  by_cases h : s = 0 <;> simp [keepTracked, List.filter_cons, h]

theorem keepTracked_snoc {α : Type} (xs : List α) :
    ∀ (status : List Nat) (x : α) (s : Nat), status[xs.length]? = some s →
      keepTracked status (xs ++ [x]) = keepTracked status xs ++ (if s ≠ 0 then [x] else []) := by
  induction xs with
  | nil =>
    intro status x s hs
    cases status with
    | nil => simp at hs
    | cons t ts =>
      simp at hs
      subst hs
      simp [keepTracked_cons_cons, keepTracked_nil_right]
  | cons y ys ih =>
    intro status x s hs
    cases status with
    | nil => simp at hs
    | cons t ts =>
      simp at hs
      simp only [List.cons_append, keepTracked_cons_cons, ih ts x s hs, List.append_assoc]

theorem keepTracked_take {α : Type} (status : List Nat) (xs : List α)
    (hs : xs.length ≤ status.length) :
    ∀ n, n ≤ xs.length →
      keepTracked status (xs.take n) = (successIndices status n).filterMap (fun i => xs[i]?) := by
  intro n
  induction n with
  | zero => intro _; simp [keepTracked_nil_right, successIndices]
  | succ n ih =>
    intro hn
    have hx : n < xs.length := by omega
    have hlt : n < status.length := by omega
    have hsn : status[n]? = some status[n] := List.getElem?_eq_getElem hlt
    have hlen : (xs.take n).length = n := by simp; omega
    rw [List.take_succ, List.getElem?_eq_getElem hx, Option.toList_some,
      keepTracked_snoc _ status xs[n] status[n] (by rw [hlen]; exact hsn), ih (by omega),
      successIndices_succ, List.filterMap_append, tracked_of_getElem? hsn]
    by_cases h0 : status[n] = 0 <;> simp [h0, List.getElem?_eq_getElem hx]

theorem keepTracked_eq_atSuccessIndices {α : Type} (status : List Nat) (xs : List α)
    (hs : xs.length ≤ status.length) : keepTracked status xs = atSuccessIndices status xs := by
  have h := keepTracked_take status xs hs xs.length le_rfl
  rw [List.take_length] at h
  exact h

theorem successIndices_split (status : List Nat) (i : Nat) (hi : tracked status i = true) :
    ∀ m, ∃ rest, successIndices status (i + 1 + m) = successIndices status i ++ i :: rest := by
  intro m
  induction m with
  | zero => exact ⟨[], by rw [Nat.add_zero, successIndices_succ, hi]; rfl⟩
  | succ m ih =>
    obtain ⟨rest, hrest⟩ := ih
    refine ⟨rest ++ (if tracked status (i + 1 + m) then [i + 1 + m] else []), ?_⟩
    rw [← Nat.add_assoc, successIndices_succ, hrest]
    simp

theorem atSuccessIndices_position {α : Type} (status : List Nat) (xs : List α) (i : Nat)
    (hi : i < xs.length) (ht : tracked status i = true) :
    (atSuccessIndices status xs)[(successIndices status i).length]? = xs[i]? := by
  obtain ⟨rest, hrest⟩ := successIndices_split status i ht (xs.length - (i + 1))
  have hN : i + 1 + (xs.length - (i + 1)) = xs.length := by omega
  rw [hN] at hrest
  unfold atSuccessIndices
  rw [hrest, List.filterMap_append, List.filterMap_cons_some (List.getElem?_eq_getElem hi)]
  have hlen : ((successIndices status i).filterMap (fun j => xs[j]?)).length =
      (successIndices status i).length :=
    filterMap_getElem?_length xs _ (fun j hj => by
      have := (mem_successIndices.mp hj).1
      omega)
  rw [List.getElem?_append_right (by rw [hlen]), hlen, Nat.sub_self]
  simp [List.getElem?_eq_getElem hi]

theorem resize_of_le {α : Type} [Inhabited α] (xs : List α) (n : Nat) (h : n ≤ xs.length) :
    resize xs n = xs.take n := by
  simp [resize, Nat.sub_eq_zero_of_le h]

theorem compact_result (status : List Nat) (prev feat : List Point2f) (image : Mat)
    (hs : feat.length ≤ status.length)
    (hp : ∀ i, i < feat.length → tracked status i = true → i < prev.length) :
    ∃ c, compact status prev feat image = some c ∧
      c.k = (successIndices status feat.length).length ∧
      c.features = atSuccessIndices status feat ∧
      c.prevFeatures = (successIndices status feat.length).filterMap (fun i => prev[i]?) ∧
      c.image.pixels = image.pixels ∧
      c.image.drawn = image.drawn ++ (atSuccessIndices status feat).map traceCircle := by
  obtain ⟨c, hc, hinv⟩ := compactLoop_upto image hs hp feat.length le_rfl
  have hlenF : ((successIndices status feat.length).filterMap (fun i => feat[i]?)).length =
      (successIndices status feat.length).length :=
    filterMap_getElem?_length feat _ (fun i hi => (mem_successIndices.mp hi).1)
  have hlenP : ((successIndices status feat.length).filterMap (fun i => prev[i]?)).length =
      (successIndices status feat.length).length :=
    filterMap_getElem?_length prev _ (fun i hi =>
      hp i (mem_successIndices.mp hi).1 (mem_successIndices.mp hi).2)
  have hkF : c.k ≤ c.features.length := by rw [hinv.len_feat]; exact hinv.k_le
  have hk : c.k = (successIndices status feat.length).length := by
    have h := congrArg List.length hinv.take_feat
    rw [List.length_take, hlenF, Nat.min_eq_left hkF] at h
    exact h
  have hkP : c.k ≤ c.prevFeatures.length := by
    have h := congrArg List.length hinv.take_prev
    rw [List.length_take, hlenP, ← hk] at h
    omega
  refine ⟨{ c with features := resize c.features c.k,
                   prevFeatures := resize c.prevFeatures c.k }, ?_, hk, ?_, ?_, hinv.pixels, ?_⟩
  · unfold compact compactLoop
    rw [hc]
    rfl
  · show resize c.features c.k = _
    rw [resize_of_le _ _ hkF, hinv.take_feat]
    rfl
  · show resize c.prevFeatures c.k = _
    rw [resize_of_le _ _ hkP, hinv.take_prev]
  · exact hinv.drawn

theorem compactBody_some {status : List Nat} {c c1 : Compaction} {n : Nat}
    (h : compactBody status c n = some c1) :
    n < status.length ∧ (tracked status n = true → n < c.prevFeatures.length) ∧
      c1.prevFeatures.length = c.prevFeatures.length ∧
      c1.features.length = c.features.length := by
  unfold compactBody at h
  cases hs : status[n]? with
  | none => simp [hs] at h
  | some s =>
    have hlt : n < status.length := (List.getElem?_eq_some.mp hs).1
    rw [tracked_of_getElem? hs]
    by_cases h0 : s = 0
    · simp [hs, h0] at h
      subst h
      exact ⟨hlt, fun ht => by simp [h0] at ht, rfl, rfl⟩
    · simp only [hs, h0, Option.bind_eq_bind, Option.some_bind, if_false] at h
      cases hf : c.features[n]? with
      | none => simp [hf] at h
      | some f =>
        simp only [hf, Option.some_bind] at h
        cases ha : assignAt c.features c.k f with
        | none => simp [ha] at h
        | some fs =>
          simp only [ha, Option.some_bind] at h
          cases hp : c.prevFeatures[n]? with
          | none => simp [hp] at h
          | some p =>
            simp only [hp, Option.some_bind] at h
            cases hb : assignAt c.prevFeatures c.k p with
            | none => simp [hb] at h
            | some ps =>
              simp only [hb, Option.some_bind] at h
              cases hr : fs[n]? with
              | none => simp [hr] at h
              | some ctr =>
                simp only [hr, Option.some_bind] at h
                have hc1 := Option.some.inj h
                have hfs : fs.length = c.features.length := by
                  unfold assignAt at ha
                  split_ifs at ha
                  simp at ha
                  rw [← ha, List.length_set]
                have hps : ps.length = c.prevFeatures.length := by
                  unfold assignAt at hb
                  split_ifs at hb
                  simp at hb
                  rw [← hb, List.length_set]
                refine ⟨hlt, fun _ => (List.getElem?_eq_some.mp hp).1, ?_, ?_⟩
                · rw [← hc1]; exact hps
                · rw [← hc1]; exact hfs

theorem compactLoop_upto_some {status : List Nat} {prev feat : List Point2f} {image : Mat} :
    ∀ (n : Nat) (c : Compaction),
      (List.range n).foldlM (compactBody status)
          { k := 0, prevFeatures := prev, features := feat, image := image } = some c →
      (∀ i, i < n → i < status.length ∧ (tracked status i = true → i < prev.length)) ∧
        c.prevFeatures.length = prev.length ∧ c.features.length = feat.length := by
  intro n
  induction n with
  | zero =>
    intro c hc
    simp at hc
    subst hc
    simp
  | succ n ih =>
    intro c hc
    rw [List.range_succ, List.foldlM_append] at hc
    cases hpre : (List.range n).foldlM (compactBody status)
        { k := 0, prevFeatures := prev, features := feat, image := image } with
    | none => simp [hpre] at hc
    | some c0 =>
      simp [hpre] at hc
      obtain ⟨hall, hlp, hlf⟩ := ih c0 hpre
      obtain ⟨h1, h2, h3, h4⟩ := compactBody_some hc
      refine ⟨?_, by rw [h3, hlp], by rw [h4, hlf]⟩
      intro i hi
      by_cases hin : i = n
      · subst hin
        exact ⟨h1, fun ht => by rw [← hlp]; exact h2 ht⟩
      · exact hall i (by omega)

theorem compactLoop_isSome_iff (status : List Nat) (prev feat : List Point2f) (image : Mat) :
    (compactLoop status prev feat image).isSome = true ↔
      feat.length ≤ status.length ∧
        ∀ i, i < feat.length → tracked status i = true → i < prev.length := by
  constructor
  · intro h
    obtain ⟨c, hc⟩ := Option.isSome_iff_exists.mp h
    have hall := (compactLoop_upto_some feat.length c hc).1
    refine ⟨?_, fun i hi => (hall i hi).2⟩
    by_contra hlt
    have := (hall status.length (by omega)).1
    omega
  · rintro ⟨hs, hp⟩
    obtain ⟨c, hc, _⟩ := compactLoop_upto image hs hp feat.length le_rfl
    unfold compactLoop
    rw [hc]
    rfl

theorem keepTracked_zip {α β : Type} (status : List Nat) :
    ∀ (xs : List α) (ys : List β),
      keepTracked status (xs.zip ys) = (keepTracked status xs).zip (keepTracked status ys) := by
  induction status with
  | nil => intro xs ys; simp [keepTracked_nil_left]
  | cons s status ih =>
    intro xs ys
    cases xs with
    | nil => simp [keepTracked_nil_right]
    | cons x xs =>
      cases ys with
      | nil => simp [keepTracked_nil_right]
      | cons y ys =>
        rw [List.zip_cons_cons, keepTracked_cons_cons, keepTracked_cons_cons,
          keepTracked_cons_cons, ih]
        by_cases h0 : s = 0 <;> simp [h0]

/-- C1: when `prevFeatures`, `features` and `status` all have length N, the loop of lines
56-63 followed by the two `resize` calls returns, and leaves in both vectors exactly the
entries at the indices with a non-zero status flag, in increasing index order: both have
length K, the number of non-zero flags; each is the order-preserving filter of the
original by the flags (also as zipped pairs); entry `j` is the original entry at the
`j`-th successful index; and the entry originally at a successful index `i` ends at the
position that counts the successes among the indices below `i`. -/
theorem compact_correct (status : List Nat) (prevFeatures features : List Point2f)
    (image : Mat) (hp : prevFeatures.length = status.length)
    (hf : features.length = status.length) :
    ∃ c, compact status prevFeatures features image = some c ∧
      c.k = status.countP (fun s => decide (s ≠ 0)) ∧
      c.prevFeatures.length = c.k ∧ c.features.length = c.k ∧
      c.prevFeatures = keepTracked status prevFeatures ∧
      c.features = keepTracked status features ∧
      c.prevFeatures.zip c.features = keepTracked status (prevFeatures.zip features) ∧
      (∀ j, j < c.k → ∃ i, (successIndices status status.length)[j]? = some i ∧
        c.prevFeatures[j]? = prevFeatures[i]? ∧ c.features[j]? = features[i]?) ∧
      (∀ i, i < status.length → tracked status i = true →
        c.prevFeatures[(status.take i).countP (fun s => decide (s ≠ 0))]? = prevFeatures[i]? ∧
        c.features[(status.take i).countP (fun s => decide (s ≠ 0))]? = features[i]?) := by
  obtain ⟨c, hc, hk, hfeat, hprev, _, _⟩ :=
    compact_result status prevFeatures features image (le_of_eq hf)
      (fun i hi _ => by omega)
  have hprev1 : c.prevFeatures = atSuccessIndices status prevFeatures := by
    rw [hprev]; unfold atSuccessIndices; rw [hp, hf]
  have hinF : ∀ i ∈ successIndices status status.length, i < features.length :=
    fun i hi => by have := (mem_successIndices.mp hi).1; omega
  have hinP : ∀ i ∈ successIndices status status.length, i < prevFeatures.length :=
    fun i hi => by have := (mem_successIndices.mp hi).1; omega
  have hkeepF := keepTracked_eq_atSuccessIndices status features (le_of_eq hf)
  have hkeepP := keepTracked_eq_atSuccessIndices status prevFeatures (le_of_eq hp)
  rw [hf] at hk
  refine ⟨c, hc, ?_, ?_, ?_, ?_, ?_, ?_, ?_, ?_⟩
  · rw [hk, successIndices_length status status.length le_rfl, List.take_length]
  · rw [hprev1, hk]; unfold atSuccessIndices; rw [hp]
    exact filterMap_getElem?_length _ _ hinP
  · rw [hfeat, hk]; unfold atSuccessIndices; rw [hf]
    exact filterMap_getElem?_length _ _ hinF
  · rw [hprev1, hkeepP]
  · rw [hfeat, hkeepF]
  · rw [keepTracked_zip, hprev1, hfeat, hkeepP, hkeepF]
  · intro j hj
    rw [hk] at hj
    refine ⟨(successIndices status status.length)[j], List.getElem?_eq_getElem hj, ?_, ?_⟩
    · rw [hprev1]; unfold atSuccessIndices
      rw [hp, filterMap_getElem?_at _ _ hinP, List.getElem?_eq_getElem hj]
      rfl
    · rw [hfeat]; unfold atSuccessIndices
      rw [hf, filterMap_getElem?_at _ _ hinF, List.getElem?_eq_getElem hj]
      rfl
  · intro i hi ht
    rw [← successIndices_length status i (le_of_lt hi), hprev1, hfeat]
    exact ⟨atSuccessIndices_position status prevFeatures i (by omega) ht,
      atSuccessIndices_position status features i (by omega) ht⟩


/-- C1 on three points with flags 1, 0, 2: the middle point is dropped and the third
moves up to position 1. -/
theorem compact_correct_witness :
    ([⟨0, 0⟩, ⟨3, 3⟩, ⟨4, 4⟩] : List Point2f).length = [1, 0, 2].length ∧
    ([⟨1, 1⟩, ⟨2, 2⟩, ⟨5, 5⟩] : List Point2f).length = [1, 0, 2].length ∧
    ∃ c, compact [1, 0, 2] [⟨0, 0⟩, ⟨3, 3⟩, ⟨4, 4⟩] [⟨1, 1⟩, ⟨2, 2⟩, ⟨5, 5⟩] pixelMat = some c ∧
      c.features = keepTracked [1, 0, 2] [⟨1, 1⟩, ⟨2, 2⟩, ⟨5, 5⟩] :=
  ⟨rfl, rfl,
    (compact_correct [1, 0, 2] [⟨0, 0⟩, ⟨3, 3⟩, ⟨4, 4⟩] [⟨1, 1⟩, ⟨2, 2⟩, ⟨5, 5⟩] pixelMat
      rfl rfl).imp (fun _ h => ⟨h.1, h.2.2.2.2.2.1⟩)⟩

/-- C2 fails as stated: with two features, both flagged as found, and a single previous
point, iteration 1 reads `prevFeatures[1]` out of bounds; with two features and a single
status flag, iteration 1 reads `status[1]` out of bounds. -/
theorem compactLoop_out_of_bounds :
    compactLoop [1, 1] [⟨0, 0⟩] [⟨1, 1⟩, ⟨2, 2⟩] pixelMat = none ∧
    compactLoop [1] [⟨0, 0⟩, ⟨3, 3⟩] [⟨1, 1⟩, ⟨2, 2⟩] pixelMat = none := by
  decide

/-- C2 as amended: the loop of lines 56-63 runs over all of `features` and stays in bounds
exactly when `status` has at least `features.size()` entries and every index below
`features.size()` with a non-zero flag is below `prevFeatures.size()`. -/
theorem compactLoop_in_bounds_iff (status : List Nat) (prevFeatures features : List Point2f)
    (image : Mat) :
    (compactLoop status prevFeatures features image).isSome = true ↔
      features.length ≤ status.length ∧
        ∀ i, i < features.length → tracked status i = true → i < prevFeatures.length :=
  compactLoop_isSome_iff status prevFeatures features image

theorem circle_classify (image : Mat) (p f : Point2f) :
    circle image (classify p f).center (classify p f).radius (classify p f).color
      (classify p f).thickness = { image with drawn := image.drawn ++ [classify p f] } := rfl

theorem classifyLoop_upto (prev feat : List Point2f) (image : Mat)
    (h : feat.length ≤ prev.length) :
    ∀ n, n ≤ feat.length →
      (List.range n).foldlM (classifyBody prev feat) image =
        some { image with drawn := image.drawn ++ (List.zipWith classify prev feat).take n } := by
  intro n
  induction n with
  | zero => intro _; simp
  | succ n ih =>
    intro hn
    have hf : n < feat.length := by omega
    have hp : n < prev.length := by omega
    rw [List.range_succ, List.foldlM_append, ih (by omega)]
    simp only [Option.bind_eq_bind, Option.some_bind, List.foldlM_cons, List.foldlM_nil]
    have hbody : ∀ img : Mat, classifyBody prev feat img n =
        some { img with drawn := img.drawn ++ [classify prev[n] feat[n]] } := by
      intro img
      simp [classifyBody, List.getElem?_eq_getElem hf, List.getElem?_eq_getElem hp, circle]
    rw [hbody]
    simp [List.take_succ, List.getElem?_eq_getElem hf, List.getElem?_eq_getElem hp,
      List.getElem?_zipWith]

theorem classifyLoop_eq (prev feat : List Point2f) (image : Mat)
    (h : feat.length ≤ prev.length) :
    classifyLoop prev feat image =
      some { image with drawn := image.drawn ++ List.zipWith classify prev feat } := by
  unfold classifyLoop
  rw [classifyLoop_upto prev feat image h feat.length le_rfl, List.take_of_length_le]
  simp [List.length_zipWith, h]

/-! ## `opticalFlow` as a whole -/

theorem opticalFlow_result (v : Vision) (prevGray gray image : Mat)
    (prev feat : List Point2f)
    (hs : (v.calcOpticalFlowPyrLK (if prevGray.empty then gray else prevGray) gray prev
        feat).1.length ≤
      (v.calcOpticalFlowPyrLK (if prevGray.empty then gray else prevGray) gray prev
        feat).2.length)
    (hp : ∀ i, i < (v.calcOpticalFlowPyrLK (if prevGray.empty then gray else prevGray) gray
        prev feat).1.length →
      tracked (v.calcOpticalFlowPyrLK (if prevGray.empty then gray else prevGray) gray prev
        feat).2 i = true → i < prev.length) :
    ∃ r, opticalFlow v prevGray gray image prev feat = some r ∧
      r.prevGray = (if prevGray.empty then gray else prevGray) ∧
      r.features = atSuccessIndices
        (v.calcOpticalFlowPyrLK (if prevGray.empty then gray else prevGray) gray prev feat).2
        (v.calcOpticalFlowPyrLK (if prevGray.empty then gray else prevGray) gray prev feat).1 ∧
      r.prevFeatures = (successIndices
        (v.calcOpticalFlowPyrLK (if prevGray.empty then gray else prevGray) gray prev feat).2
        (v.calcOpticalFlowPyrLK (if prevGray.empty then gray else prevGray) gray prev
          feat).1.length).filterMap (fun i => prev[i]?) ∧
      r.prevFeatures.length = r.features.length ∧
      r.image.pixels = image.pixels ∧
      r.image.drawn = image.drawn ++ r.features.map traceCircle ++
        List.zipWith classify r.prevFeatures r.features ∧
      r.calls = Call.calcOpticalFlowPyrLK (if prevGray.empty then gray else prevGray) gray prev ::
        (if (v.calcOpticalFlowPyrLK (if prevGray.empty then gray else prevGray) gray prev
            feat).1.length ≠ prev.length
          then [Call.cout sizesMessage] else []) := by
  generalize hpg : (if prevGray.empty then gray else prevGray) = pg at hs hp ⊢
  generalize hout : v.calcOpticalFlowPyrLK pg gray prev feat = out at hs hp ⊢
  obtain ⟨c, hc, hk, hfeat, hprev, hpix, hdrawn⟩ := compact_result out.2 prev out.1 image hs hp
  have hlenF : c.features.length = (successIndices out.2 out.1.length).length := by
    rw [hfeat]
    exact filterMap_getElem?_length _ _ (fun i hi => (mem_successIndices.mp hi).1)
  have hlenP : c.prevFeatures.length = (successIndices out.2 out.1.length).length := by
    rw [hprev]
    exact filterMap_getElem?_length _ _ (fun i hi =>
      hp i (mem_successIndices.mp hi).1 (mem_successIndices.mp hi).2)
  have hcl := classifyLoop_eq c.prevFeatures c.features c.image (by rw [hlenF, hlenP])
  have hex : ∃ r, opticalFlow v prevGray gray image prev feat = some r := by
    unfold opticalFlow
    simp only [hpg, hout, hc, hcl]
    exact ⟨_, rfl⟩
  obtain ⟨r, hr⟩ := hex
  refine ⟨r, hr, ?_⟩
  unfold opticalFlow at hr
  simp only [hpg, hout, hc, hcl] at hr
  have hr1 := Option.some.inj hr
  subst hr1
  refine ⟨rfl, hfeat, hprev, by rw [hlenF, hlenP], hpix, ?_, rfl⟩
  show c.image.drawn ++ _ = _
  rw [hdrawn, hfeat]

theorem opticalFlow_some_calls {v : Vision} {prevGray gray image : Mat}
    {prev feat : List Point2f} {r : FlowResult}
    (h : opticalFlow v prevGray gray image prev feat = some r) :
    r.calls = Call.calcOpticalFlowPyrLK (if prevGray.empty then gray else prevGray) gray prev ::
        (if (v.calcOpticalFlowPyrLK (if prevGray.empty then gray else prevGray) gray prev
            feat).1.length ≠ prev.length
          then [Call.cout sizesMessage] else []) := by
  unfold opticalFlow at h
  simp only at h
  split at h
  · exact absurd h (by simp)
  · split at h
    · exact absurd h (by simp)
    · rw [← Option.some.inj h]


/-! ## The frame loop -/

theorem frameStep_of_track {v : Vision} {s : Session} {inp : FrameInput} {s1 : Session}
    {calls1 : List Call} (hframe : inp.frame.empty = false)
    (htrack : track v (acquire v s inp.frame) = some (s1, calls1)) :
    frameStep v s inp =
      if toChar inp.key = 27 then
        Step.exit (display s1).1 (calls1 ++ (display s1).2 ++ [Call.waitKey 10])
      else
        Step.next (rotate (handleKey (display s1).1 (toChar inp.key)))
          (calls1 ++ (display s1).2 ++ [Call.waitKey 10]) := by
  unfold frameStep
  simp only [hframe, htrack]
  rfl

theorem frameStep_fault_of_track {v : Vision} {s : Session} {inp : FrameInput}
    (hframe : inp.frame.empty = false) (htrack : track v (acquire v s inp.frame) = none) :
    frameStep v s inp = Step.fault := by
  unfold frameStep
  simp only [hframe, htrack]
  rfl

theorem track_of_not_fault {v : Vision} {s : Session} {inp : FrameInput}
    (hframe : inp.frame.empty = false) (hsafe : frameStep v s inp ≠ Step.fault) :
    ∃ s1 calls1, track v (acquire v s inp.frame) = some (s1, calls1) := by
  cases h : track v (acquire v s inp.frame) with
  | none => exact absurd (frameStep_fault_of_track hframe h) hsafe
  | some r => exact ⟨r.1, r.2, rfl⟩

theorem track_reinit {v : Vision} {s : Session} (h : s.needToInit = true) :
    track v s = some ({ s with points1 := initFeatures v s.gray },
      [Call.goodFeaturesToTrack s.gray,
       Call.cornerSubPix s.gray (v.goodFeaturesToTrack s.gray MAX_COUNT)]) := by
  unfold track
  simp [h]

theorem track_idle {v : Vision} {s : Session} (h : s.needToInit = false)
    (hp : s.points0 = []) : track v s = some (s, []) := by
  unfold track
  simp [h, hp]

theorem track_flow {v : Vision} {s : Session} (h : s.needToInit = false)
    (hp : s.points0 ≠ []) :
    track v s =
      (opticalFlow v s.prevGray s.gray s.image s.points0 s.points1).map (fun r =>
        ({ s with prevGray := r.prevGray, image := r.image, points0 := r.prevFeatures,
                  points1 := r.features }, r.calls)) := by
  unfold track
  have hne : s.points0.isEmpty = false := by
    cases hs : s.points0 with
    | nil => exact absurd hs hp
    | cons a l => rfl
  simp only [h, hne]
  cases opticalFlow v s.prevGray s.gray s.image s.points0 s.points1 <;> rfl

theorem track_flow_some {v : Vision} {s : Session} {r : FlowResult}
    (h : s.needToInit = false) (hp : s.points0 ≠ [])
    (hr : opticalFlow v s.prevGray s.gray s.image s.points0 s.points1 = some r) :
    track v s = some (⟨s.needToInit, s.darkMode, s.gray, r.prevGray, r.image, s.frame,
      r.prevFeatures, r.features⟩, r.calls) := by
  rw [track_flow h hp, hr]
  rfl

theorem invokesDetection_frame (calls1 : List Call) (name : String) (image : Mat) (d : Nat) :
    invokesDetection (calls1 ++ [Call.imshow name image] ++ [Call.waitKey d]) =
      invokesDetection calls1 := by
  simp [invokesDetection, List.any_append]

theorem invokesCorrespondence_frame (calls1 : List Call) (name : String) (image : Mat)
    (d : Nat) :
    invokesCorrespondence (calls1 ++ [Call.imshow name image] ++ [Call.waitKey d]) =
      invokesCorrespondence calls1 := by
  simp [invokesCorrespondence, List.any_append]

theorem frameStep_calls_of_track {v : Vision} {s : Session} {inp : FrameInput} {s1 : Session}
    {calls1 : List Call} (hframe : inp.frame.empty = false)
    (htrack : track v (acquire v s inp.frame) = some (s1, calls1)) :
    (frameStep v s inp).calls =
      calls1 ++ [Call.imshow "motion tracking" s1.image] ++ [Call.waitKey 10] := by
  rw [frameStep_of_track hframe htrack]
  split_ifs <;> rfl

theorem track_flow_calls {v : Vision} {s s1 : Session} {calls1 : List Call}
    (h : s.needToInit = false) (htrack : track v s = some (s1, calls1)) :
    invokesDetection calls1 = false := by
  by_cases hp : s.points0 = []
  · rw [track_idle h hp] at htrack
    have := (Prod.mk.inj (Option.some.inj htrack)).2
    rw [← this]; rfl
  · rw [track_flow h hp] at htrack
    cases hr : opticalFlow v s.prevGray s.gray s.image s.points0 s.points1 with
    | none => rw [hr] at htrack; exact absurd htrack (by simp)
    | some r =>
      rw [hr] at htrack
      have h2 := (Prod.mk.inj (Option.some.inj htrack)).2
      rw [← h2, opticalFlow_some_calls hr]
      split_ifs <;> rfl

theorem frameStep_detection_iff (v : Vision) (s : Session) (inp : FrameInput)
    (hframe : inp.frame.empty = false) :
    invokesDetection (frameStep v s inp).calls = true ↔ s.needToInit = true := by
  cases hinit : s.needToInit with
  | true =>
    have ht : track v (acquire v s inp.frame) = _ := track_reinit (v := v) hinit
    rw [frameStep_calls_of_track hframe ht, invokesDetection_frame]
    simp [invokesDetection]
  | false =>
    simp only [Bool.false_eq_true, iff_false, Bool.not_eq_true]
    cases ht : track v (acquire v s inp.frame) with
    | none => rw [frameStep_fault_of_track hframe ht]; rfl
    | some r =>
      obtain ⟨s1, calls1⟩ := r
      rw [frameStep_calls_of_track hframe ht, invokesDetection_frame]
      exact track_flow_calls (v := v) (s := acquire v s inp.frame) hinit ht

theorem runFrames_snoc (v : Vision) (inp : FrameInput) :
    ∀ (inputs : List FrameInput) (s0 s : Session),
      runFrames v s0 (inputs ++ [inp]) = some s →
        ∃ s1 calls, frameStep v s1 inp = Step.next s calls := by
  intro inputs
  induction inputs with
  | nil =>
    intro s0 s h
    simp only [List.nil_append, runFrames] at h
    cases hstep : frameStep v s0 inp with
    | next s1 calls =>
      rw [hstep] at h
      simp only [runFrames] at h
      exact ⟨s0, calls, by rw [← Option.some.inj h]; exact hstep⟩
    | exit s1 calls => rw [hstep] at h; exact absurd h (by simp)
    | fault => rw [hstep] at h; exact absurd h (by simp)
  | cons a rest ih =>
    intro s0 s h
    simp only [List.cons_append, runFrames] at h
    cases hstep : frameStep v s0 a with
    | next s1 calls =>
      rw [hstep] at h
      exact ih s1 s h
    | exit s1 calls => rw [hstep] at h; exact absurd h (by simp)
    | fault => rw [hstep] at h; exact absurd h (by simp)

theorem frameStep_next_needToInit {v : Vision} {s s1 : Session} {inp : FrameInput}
    {calls : List Call} (h : frameStep v s inp = Step.next s1 calls) :
    (s1.needToInit = true ↔ toChar inp.key = ord 'r') := by
  have hframe : inp.frame.empty = false := by
    cases he : inp.frame.empty with
    | false => rfl
    | true =>
      unfold frameStep at h
      simp [he] at h
  have hsafe : frameStep v s inp ≠ Step.fault := by rw [h]; simp
  obtain ⟨t, calls1, ht⟩ := track_of_not_fault hframe hsafe
  rw [frameStep_of_track hframe ht] at h
  split_ifs at h with hk
  have hs1 := (Step.next.inj h).1
  rw [← hs1]
  unfold rotate handleKey display
  by_cases hr : toChar inp.key = ord 'r'
  · simp [hr]
  · simp only [hr, if_false, iff_false]
    split_ifs <;> simp

/-! ## Length mismatch -/

/-- C3 fails as stated: `lossyVision` returns one feature for two previous points, the
sizes differ, and `opticalFlow` still compacts: `prevFeatures` shrinks from two entries to
one instead of being left unchanged. -/
theorem opticalFlow_mismatch_not_skipped :
    (lossyVision.calcOpticalFlowPyrLK pixelMat pixelMat [⟨1, 1⟩, ⟨2, 2⟩] []).1.length ≠
      ([⟨1, 1⟩, ⟨2, 2⟩] : List Point2f).length ∧
    (opticalFlow lossyVision pixelMat pixelMat pixelMat [⟨1, 1⟩, ⟨2, 2⟩] []).map
      (fun r => r.prevFeatures) = some [⟨1, 1⟩] := by
  decide

/-- C3 as amended: on a Track frame where the engine's `features` differ in length from
`prevFeatures` but the compaction stays in bounds, the diagnostic is written and the
update is not skipped: both point vectors are replaced by their entries at the successful
indices below `features.size()`, the frame does not fault, and unless ESC is polled the
loop goes on to the next frame. -/
theorem mismatch_logged_not_skipped (v : Vision) (s : Session) (inp : FrameInput)
    (out : List Point2f × List Nat)
    (hframe : inp.frame.empty = false) (hinit : s.needToInit = false)
    (hpts : s.points0 ≠ [])
    (hout : v.calcOpticalFlowPyrLK
      (if s.prevGray.empty then v.cvtColor inp.frame else s.prevGray) (v.cvtColor inp.frame)
      s.points0 s.points1 = out)
    (hmis : out.1.length ≠ s.points0.length)
    (hs : out.1.length ≤ out.2.length)
    (hp : ∀ i, i < out.1.length → tracked out.2 i = true → i < s.points0.length) :
    ∃ s1 calls1, track v (acquire v s inp.frame) = some (s1, calls1) ∧
      Call.cout sizesMessage ∈ calls1 ∧
      s1.points0 = (successIndices out.2 out.1.length).filterMap (fun i => s.points0[i]?) ∧
      s1.points1 = atSuccessIndices out.2 out.1 ∧
      Call.cout sizesMessage ∈ (frameStep v s inp).calls ∧
      frameStep v s inp ≠ Step.fault ∧
      (toChar inp.key ≠ 27 → ∃ s2 calls, frameStep v s inp = Step.next s2 calls) := by
  subst hout
  obtain ⟨r, hr, _, hfeat, hprev, _, _, _, hcalls⟩ :=
    opticalFlow_result v s.prevGray (v.cvtColor inp.frame) (acquire v s inp.frame).image
      s.points0 s.points1 hs hp
  have htrack := track_flow_some (s := acquire v s inp.frame) hinit hpts hr
  have hmem : Call.cout sizesMessage ∈ r.calls := by
    rw [hcalls, if_pos hmis]
    simp
  refine ⟨_, _, htrack, hmem, hprev, hfeat, ?_, ?_, ?_⟩
  · rw [frameStep_calls_of_track hframe htrack]
    simp [hmem]
  · rw [frameStep_of_track hframe htrack]
    split_ifs <;> simp
  · intro hkey
    rw [frameStep_of_track hframe htrack, if_neg hkey]
    exact ⟨_, _, rfl⟩

/-- C3 as amended, on `lossyVision` with two tracked points and no key polled: the
diagnostic is among the frame's calls and the loop continues. -/
theorem mismatch_logged_not_skipped_witness :
    Call.cout sizesMessage ∈
      (frameStep lossyVision
        { Session.initial with points0 := [⟨1, 1⟩, ⟨2, 2⟩], prevGray := pixelMat }
        ⟨pixelMat, -1⟩).calls ∧
    ∃ s2 calls, frameStep lossyVision
        { Session.initial with points0 := [⟨1, 1⟩, ⟨2, 2⟩], prevGray := pixelMat }
        ⟨pixelMat, -1⟩ = Step.next s2 calls :=
  have h := mismatch_logged_not_skipped lossyVision
    { Session.initial with points0 := [⟨1, 1⟩, ⟨2, 2⟩], prevGray := pixelMat } ⟨pixelMat, -1⟩
    ([⟨1, 1⟩], [1]) (by decide) (by decide) (by decide) (by decide) (by decide) (by decide)
    (by decide)
  h.elim fun _ h1 => h1.elim fun _ h2 => ⟨h2.2.2.2.2.1, h2.2.2.2.2.2.2 (by decide)⟩

/-! ## Session controller -/

/-- C7 fails as stated: with `needToInit` set and one point in `points[0]`, a detector
that finds nothing leaves `points[1]` empty, but after the branch `points[0]` still holds
the pre-reinit point; two frames later, with no key pressed in between, that point is
handed to the correspondence engine again. -/
theorem reinit_keeps_previous :
    (track blindVision
        (acquire blindVision
          { Session.initial with needToInit := true, points0 := [⟨7, 7⟩] } pixelMat)).map
      (fun r => (r.1.points0, r.1.points1)) = some ([⟨7, 7⟩], []) ∧
    (runFrames blindVision { Session.initial with needToInit := true, points0 := [⟨7, 7⟩] }
        [⟨pixelMat, -1⟩, ⟨pixelMat, -1⟩]).map
      (fun s => (s.points0, invokesCorrespondence (frameStep blindVision s ⟨pixelMat, -1⟩).calls)) =
      some ([⟨7, 7⟩], true) := by
  decide

/-- C7 as amended: on a frame with `needToInit` set, whatever `points[0]` holds, the branch
calls the detector and its refiner and nothing else, `opticalFlow` is not invoked anywhere
in the frame, and after the branch `points[1]` is exactly the detector's output for this
frame's grayscale image; `points[0]` and every other variable are as before the branch. -/
theorem reinit_precedence (v : Vision) (s : Session) (inp : FrameInput)
    (hframe : inp.frame.empty = false) (hinit : s.needToInit = true) :
    ∃ s1 calls1, track v (acquire v s inp.frame) = some (s1, calls1) ∧
      calls1 = [Call.goodFeaturesToTrack (v.cvtColor inp.frame),
        Call.cornerSubPix (v.cvtColor inp.frame)
          (v.goodFeaturesToTrack (v.cvtColor inp.frame) MAX_COUNT)] ∧
      s1.points1 = initFeatures v (v.cvtColor inp.frame) ∧
      s1.points0 = s.points0 ∧
      s1.prevGray = s.prevGray ∧ s1.gray = v.cvtColor inp.frame ∧
      s1.image = (acquire v s inp.frame).image ∧
      frameStep v s inp ≠ Step.fault ∧
      invokesDetection (frameStep v s inp).calls = true ∧
      invokesCorrespondence (frameStep v s inp).calls = false := by
  have ht := track_reinit (v := v) (s := acquire v s inp.frame) hinit
  refine ⟨_, _, ht, rfl, rfl, rfl, rfl, rfl, rfl, ?_, ?_, ?_⟩
  · rw [frameStep_of_track hframe ht]
    split_ifs <;> simp
  · rw [frameStep_calls_of_track hframe ht, invokesDetection_frame]
    rfl
  · rw [frameStep_calls_of_track hframe ht, invokesCorrespondence_frame]
    rfl

/-- C7 as amended, on `stillVision` with a non-empty `points[0]`: after the branch
`points[1]` is the detected point and `points[0]` is untouched. -/
theorem reinit_precedence_witness :
    ∃ s1 calls1, track stillVision
        (acquire stillVision { Session.initial with needToInit := true, points0 := [⟨7, 7⟩] }
          pixelMat) = some (s1, calls1) ∧
      s1.points1 = [⟨4, 4⟩] ∧ s1.points0 = [⟨7, 7⟩] :=
  have h := reinit_precedence stillVision
    { Session.initial with needToInit := true, points0 := [⟨7, 7⟩] } ⟨pixelMat, -1⟩
    (by decide) (by decide)
  h.elim fun s1 h1 => h1.elim fun calls1 h2 => ⟨s1, calls1, h2.1, h2.2.2.1, h2.2.2.2.1⟩

/-- C8: on every frame that is not empty, does not fault and on which ESC is not polled,
whichever branch ran and whichever key was polled, the loop continues with the rotated
end-of-frame state: the next `points[0]` is the end-of-frame `points[1]` and conversely,
the next `prevGray` is this frame's grayscale image and the next `gray` is the
end-of-frame `prevGray`; the flags are as the key handling left them. -/
theorem rotation_unconditional (v : Vision) (s : Session) (inp : FrameInput)
    (hframe : inp.frame.empty = false) (hkey : toChar inp.key ≠ 27)
    (hsafe : frameStep v s inp ≠ Step.fault) :
    ∃ s1 calls1 e s2 calls, track v (acquire v s inp.frame) = some (s1, calls1) ∧
      e = handleKey (display s1).1 (toChar inp.key) ∧
      frameStep v s inp = Step.next s2 calls ∧
      s2.points0 = e.points1 ∧ s2.points1 = e.points0 ∧
      s2.prevGray = e.gray ∧ s2.gray = e.prevGray ∧
      e.gray = v.cvtColor inp.frame ∧ s2.prevGray = v.cvtColor inp.frame ∧
      s2.needToInit = e.needToInit ∧ s2.darkMode = e.darkMode := by
  obtain ⟨s1, calls1, ht⟩ := track_of_not_fault hframe hsafe
  have hgray1 : s1.gray = v.cvtColor inp.frame := by
    by_cases hinit : s.needToInit = true
    · rw [track_reinit (s := acquire v s inp.frame) hinit] at ht
      rw [← (Prod.mk.inj (Option.some.inj ht)).1]
      rfl
    · have hinit : s.needToInit = false := by simpa using hinit
      by_cases hp : s.points0 = []
      · rw [track_idle (s := acquire v s inp.frame) hinit hp] at ht
        rw [← (Prod.mk.inj (Option.some.inj ht)).1]
        rfl
      · rw [track_flow (s := acquire v s inp.frame) hinit hp] at ht
        cases hr : opticalFlow v (acquire v s inp.frame).prevGray (acquire v s inp.frame).gray
            (acquire v s inp.frame).image (acquire v s inp.frame).points0
            (acquire v s inp.frame).points1 with
        | none => rw [hr] at ht; exact absurd ht (by simp)
        | some r =>
          rw [hr] at ht
          rw [← (Prod.mk.inj (Option.some.inj ht)).1]
          rfl
  have hgray : (handleKey (display s1).1 (toChar inp.key)).gray = v.cvtColor inp.frame := by
    rw [← hgray1]
    unfold handleKey display
    split_ifs <;> rfl
  refine ⟨s1, calls1, handleKey (display s1).1 (toChar inp.key),
    rotate (handleKey (display s1).1 (toChar inp.key)),
    calls1 ++ (display s1).2 ++ [Call.waitKey 10], ht, rfl, ?_, rfl, rfl, rfl, rfl, hgray,
    hgray, rfl, rfl⟩
  rw [frameStep_of_track hframe ht, if_neg hkey]

/-- C8 on an Idle frame of `stillVision` with the key `d` polled: the loop continues and
this frame's grayscale image is the next `prevGray`. -/
theorem rotation_unconditional_witness :
    ∃ s2 calls, frameStep stillVision { Session.initial with points1 := [⟨7, 7⟩] }
        ⟨pixelMat, 100⟩ = Step.next s2 calls ∧ s2.prevGray = pixelMat :=
  have h := rotation_unconditional stillVision { Session.initial with points1 := [⟨7, 7⟩] }
    ⟨pixelMat, 100⟩ (by decide) (by decide) (by decide)
  h.elim fun _ h1 => h1.elim fun _ h2 => h2.elim fun _ h3 => h3.elim fun s2 h4 =>
    h4.elim fun calls h5 => ⟨s2, calls, h5.2.2.1, h5.2.2.2.2.2.2.2.2.1⟩

/-- C9: on every non-empty, non-faulting frame on which the key `c` is polled the loop
continues with both point vectors empty, and on the next non-empty frame the branch does
nothing: the state is what `acquire` left, no call is made by the branch, the frame does
not fault and its calls include neither the detector nor the correspondence engine. -/
theorem clear_command (v : Vision) (s : Session) (inp : FrameInput)
    (hframe : inp.frame.empty = false) (hkey : toChar inp.key = ord 'c')
    (hsafe : frameStep v s inp ≠ Step.fault) :
    ∃ s1 calls, frameStep v s inp = Step.next s1 calls ∧
      s1.points0 = [] ∧ s1.points1 = [] ∧ s1.needToInit = false ∧
      ∀ inp2 : FrameInput, inp2.frame.empty = false →
        track v (acquire v s1 inp2.frame) = some (acquire v s1 inp2.frame, []) ∧
        frameStep v s1 inp2 ≠ Step.fault ∧
        invokesDetection (frameStep v s1 inp2).calls = false ∧
        invokesCorrespondence (frameStep v s1 inp2).calls = false := by
  obtain ⟨t, calls1, ht⟩ := track_of_not_fault hframe hsafe
  have hne : toChar inp.key ≠ 27 := by rw [hkey]; decide
  have hnr : ¬ (ord 'c' = ord 'r') := by decide
  have hstep := frameStep_of_track hframe ht
  rw [if_neg hne, hkey] at hstep
  have h0 : (rotate (handleKey (display t).1 (ord 'c'))).points0 = [] := by
    simp [rotate, handleKey, display, hnr]
  have h1 : (rotate (handleKey (display t).1 (ord 'c'))).points1 = [] := by
    simp [rotate, handleKey, display, hnr]
  have hi : (rotate (handleKey (display t).1 (ord 'c'))).needToInit = false := by
    simp [rotate, handleKey, display, hnr]
  refine ⟨_, _, hstep, h0, h1, hi, ?_⟩
  intro inp2 hframe2
  have ht2 := track_idle (v := v)
    (s := acquire v (rotate (handleKey (display t).1 (ord 'c'))) inp2.frame) hi h0
  refine ⟨ht2, ?_, ?_, ?_⟩
  · rw [frameStep_of_track hframe2 ht2]
    split_ifs <;> simp
  · rw [frameStep_calls_of_track hframe2 ht2, invokesDetection_frame]
    rfl
  · rw [frameStep_calls_of_track hframe2 ht2, invokesCorrespondence_frame]
    rfl

/-- C9 on a Track frame of `stillVision` with one tracked point and key `c`: the loop
continues with both vectors empty. -/
theorem clear_command_witness :
    ∃ s1 calls, frameStep stillVision
        { Session.initial with points0 := [⟨7, 7⟩], prevGray := pixelMat }
        ⟨pixelMat, 99⟩ = Step.next s1 calls ∧ s1.points0 = [] ∧ s1.points1 = [] :=
  have h := clear_command stillVision
    { Session.initial with points0 := [⟨7, 7⟩], prevGray := pixelMat } ⟨pixelMat, 99⟩
    (by decide) (by decide) (by decide)
  h.elim fun s1 h1 => h1.elim fun calls h2 => ⟨s1, calls, h2.1, h2.2.1, h2.2.2.1⟩

/-- C10: after any non-empty run of processed frames, from any starting state,
`needToInit` is true at the next decision point exactly when the key polled on the last
processed frame was `r`, whichever branches ran; consequently the next non-empty frame
calls the detector exactly in that case.  Before the first frame the flag is false. -/
theorem needToInit_consumed (v : Vision) (s0 : Session) (inputs : List FrameInput)
    (inp : FrameInput) (s : Session) (h : runFrames v s0 (inputs ++ [inp]) = some s) :
    (s.needToInit = true ↔ toChar inp.key = ord 'r') ∧
    (∀ inp2 : FrameInput, inp2.frame.empty = false →
      (invokesDetection (frameStep v s inp2).calls = true ↔ toChar inp.key = ord 'r')) ∧
    Session.initial.needToInit = false := by
  obtain ⟨s1, calls, hstep⟩ := runFrames_snoc v inp inputs s0 s h
  have hflag := frameStep_next_needToInit hstep
  refine ⟨hflag, ?_, rfl⟩
  intro inp2 hframe2
  rw [frameStep_detection_iff v s inp2 hframe2, hflag]

/-- C10 on `stillVision`: two Idle frames, `r` polled on the second; the flag is then set
and the third frame calls the detector. -/
theorem needToInit_consumed_witness :
    runFrames stillVision Session.initial ([⟨pixelMat, -1⟩] ++ [⟨pixelMat, 114⟩]) =
      some { Session.initial with needToInit := true, prevGray := pixelMat, gray := pixelMat,
                                  image := pixelMat, frame := pixelMat } ∧
    invokesDetection (frameStep stillVision
      { Session.initial with needToInit := true, prevGray := pixelMat, gray := pixelMat,
                             image := pixelMat, frame := pixelMat } ⟨pixelMat, -1⟩).calls = true :=
  have h : runFrames stillVision Session.initial ([⟨pixelMat, -1⟩] ++ [⟨pixelMat, 114⟩]) =
      some { Session.initial with needToInit := true, prevGray := pixelMat, gray := pixelMat,
                                  image := pixelMat, frame := pixelMat } := by decide
  ⟨h, ((needToInit_consumed stillVision Session.initial [⟨pixelMat, -1⟩] ⟨pixelMat, 114⟩ _
    h).2.1 ⟨pixelMat, -1⟩ (by decide)).mpr (by decide)⟩

/-! ## Symmetry of the classifier -/

/-- C17: exchanging the roles of previous and current point keeps a blue (neutral)
classification blue and turns green into red and red into green. -/
theorem classify_antisymmetric (p q : Point2f) :
    ((classify q p).color = blue ↔ (classify p q).color = blue) ∧
    ((classify p q).color = green ↔ (classify q p).color = red) ∧
    ((classify p q).color = red ↔ (classify q p).color = green) := by
  have hx : f32 (p.x - q.x) = -f32 (q.x - p.x) := by rw [← f32_neg, neg_sub]
  have hy : f32 (p.y - q.y) = -f32 (q.y - p.y) := by rw [← f32_neg, neg_sub]
  have hsq : f32 (p.x - q.x) ^ 2 + f32 (p.y - q.y) ^ 2 =
      f32 (q.x - p.x) ^ 2 + f32 (q.y - p.y) ^ 2 := by rw [hx, hy, neg_sq, neg_sq]
  have hblue : classifyColor q p = blue ↔ classifyColor p q = blue := by
    rw [classifyColor_blue_iff, classifyColor_blue_iff, hsq]
  refine ⟨hblue, ?_⟩
  show (classifyColor p q = green ↔ classifyColor q p = red) ∧
    (classifyColor p q = red ↔ classifyColor q p = green)
  by_cases hlt : f32 (q.x - p.x) ^ 2 + f32 (q.y - p.y) ^ 2 < 4 - 1 / 2 ^ 22 + 15 / 2 ^ 52
  · have h1 : classifyColor p q = blue := (classifyColor_blue_iff p q).mpr hlt
    have h2 : classifyColor q p = blue := hblue.mpr h1
    rw [h1, h2]
    decide
  · have h4 : 4 - 1 / 2 ^ 22 + 15 / 2 ^ 52 ≤ f32 (q.x - p.x) ^ 2 + f32 (q.y - p.y) ^ 2 :=
      not_lt.mp hlt
    have h4s : 4 - 1 / 2 ^ 22 + 15 / 2 ^ 52 ≤ f32 (p.x - q.x) ^ 2 + f32 (p.y - q.y) ^ 2 := by
      rw [hsq]; exact h4
    have hpq := classifyColor_axis p q h4
    have hqp := classifyColor_axis q p h4s
    by_cases hdom : |f32 (q.y - p.y)| < |f32 (q.x - p.x)|
    · have hdoms : |f32 (p.y - q.y)| < |f32 (p.x - q.x)| := by
        rw [hx, hy, abs_neg, abs_neg]; exact hdom
      obtain ⟨hg, hr⟩ := hpq.1 hdom
      obtain ⟨hgs, hrs⟩ := hqp.1 hdoms
      rw [hg, hr, hgs, hrs]
      constructor <;> constructor <;> intro h <;> linarith
    · have hdoms : ¬ |f32 (p.y - q.y)| < |f32 (p.x - q.x)| := by
        rw [hx, hy, abs_neg, abs_neg]; exact hdom
      obtain ⟨hg, hr⟩ := hpq.2 hdom
      obtain ⟨hgs, hrs⟩ := hqp.2 hdoms
      rw [hg, hr, hgs, hrs]
      constructor <;> constructor <;> intro h <;> linarith

/-! ## Key bindings -/

theorem track_keeps {v : Vision} {s t : Session} {calls : List Call}
    (h : track v s = some (t, calls)) :
    t.darkMode = s.darkMode ∧ t.gray = s.gray ∧ t.frame = s.frame ∧
      t.needToInit = s.needToInit := by
  by_cases hinit : s.needToInit = true
  · rw [track_reinit hinit] at h
    rw [← (Prod.mk.inj (Option.some.inj h)).1]
    exact ⟨rfl, rfl, rfl, rfl⟩
  · have hinit : s.needToInit = false := by simpa using hinit
    by_cases hp : s.points0 = []
    · rw [track_idle hinit hp] at h
      rw [← (Prod.mk.inj (Option.some.inj h)).1]
      exact ⟨rfl, rfl, rfl, rfl⟩
    · rw [track_flow hinit hp] at h
      cases hr : opticalFlow v s.prevGray s.gray s.image s.points0 s.points1 with
      | none => rw [hr] at h; exact absurd h (by simp)
      | some r =>
        rw [hr] at h
        rw [← (Prod.mk.inj (Option.some.inj h)).1]
        exact ⟨rfl, rfl, rfl, rfl⟩

theorem handleKey_other (s : Session) (c : Int) (hr : c ≠ ord 'r') (hc : c ≠ ord 'c')
    (hd : c ≠ ord 'd') : handleKey s c = s := by
  unfold handleKey
  rw [if_neg hr, if_neg hc, if_neg hd]

theorem handleKey_darkMode (s : Session) (c : Int) (hd : c ≠ ord 'd') :
    (handleKey s c).darkMode = s.darkMode := by
  unfold handleKey
  split_ifs <;> rfl

theorem handleKey_d (s : Session) :
    handleKey s (ord 'd') = { s with darkMode := !s.darkMode } := by
  have h1 : ord 'd' ≠ ord 'r' := by decide
  have h2 : ord 'd' ≠ ord 'c' := by decide
  unfold handleKey
  rw [if_neg h1, if_neg h2, if_pos rfl]

/-- C13: on a non-empty, non-faulting frame, polling `d` negates `darkMode` and gives the
same next point vectors, grayscale buffers, `needToInit` value and calls as the same frame
with no key polled (`waitKey` returning -1); any other key that does not end the session
leaves `darkMode` as it was, whichever branch ran. -/
theorem darkMode_orthogonal (v : Vision) (s : Session) (frame : Mat) (kd k : Int)
    (hframe : frame.empty = false) (hd : toChar kd = ord 'd') (hk27 : toChar k ≠ 27)
    (hk : toChar k ≠ ord 'd') (hsafe : frameStep v s ⟨frame, -1⟩ ≠ Step.fault) :
    ∃ sd s0 sk calls, frameStep v s ⟨frame, kd⟩ = Step.next sd calls ∧
      frameStep v s ⟨frame, -1⟩ = Step.next s0 calls ∧
      frameStep v s ⟨frame, k⟩ = Step.next sk calls ∧
      sd.darkMode = (!s.darkMode) ∧ s0.darkMode = s.darkMode ∧ sk.darkMode = s.darkMode ∧
      sd.points0 = s0.points0 ∧ sd.points1 = s0.points1 ∧
      sd.gray = s0.gray ∧ sd.prevGray = s0.prevGray ∧ sd.needToInit = s0.needToInit := by
  obtain ⟨t, calls1, ht⟩ := @track_of_not_fault v s ⟨frame, -1⟩ hframe hsafe
  have hdark : t.darkMode = s.darkMode := (track_keeps ht).1
  have hd27 : toChar kd ≠ 27 := by rw [hd]; decide
  have hn27 : toChar (-1) ≠ 27 := by decide
  have hnone : handleKey (display t).1 (toChar (-1)) = (display t).1 :=
    handleKey_other _ _ (by decide) (by decide) (by decide)
  have hstepd := @frameStep_of_track v s ⟨frame, kd⟩ t calls1 hframe ht
  have hstep0 := @frameStep_of_track v s ⟨frame, -1⟩ t calls1 hframe ht
  have hstepk := @frameStep_of_track v s ⟨frame, k⟩ t calls1 hframe ht
  simp only [if_neg hd27, hd, handleKey_d] at hstepd
  simp only [if_neg hn27, hnone] at hstep0
  simp only [if_neg hk27] at hstepk
  refine ⟨_, _, _, _, hstepd, hstep0, hstepk, ?_, ?_, ?_, rfl, rfl, rfl, rfl, rfl⟩
  · show (!t.darkMode) = (!s.darkMode)
    rw [hdark]
  · exact hdark
  · show (handleKey (display t).1 (toChar k)).darkMode = s.darkMode
    rw [handleKey_darkMode _ _ hk]
    exact hdark

/-- C13 on an Idle frame of `stillVision`: with `d` polled the next state has dark mode
on, and its point vectors are those of the run with no key. -/
theorem darkMode_orthogonal_witness :
    ∃ sd s0 calls, frameStep stillVision Session.initial ⟨pixelMat, 100⟩ = Step.next sd calls ∧
      frameStep stillVision Session.initial ⟨pixelMat, -1⟩ = Step.next s0 calls ∧
      sd.darkMode = true ∧ sd.points0 = s0.points0 ∧ sd.points1 = s0.points1 :=
  have h := darkMode_orthogonal stillVision Session.initial pixelMat 100 99
    (by decide) (by decide) (by decide) (by decide) (by decide)
  h.elim fun sd h1 => h1.elim fun s0 h2 => h2.elim fun _ h3 => h3.elim fun calls h4 =>
    ⟨sd, s0, calls, h4.1, h4.2.1, h4.2.2.2.1, h4.2.2.2.2.2.2.1, h4.2.2.2.2.2.2.2.1⟩

/-- C14 does not hold of the code: the text written by `help` advertises the key `n` for the
dark mode, but the `switch` has no case for `n`, so polling `n` (code 110) changes nothing;
the key that toggles `darkMode` is `d` (code 100). -/
theorem help_key_not_handled (cvVersion : String) (s : Session) :
    (∃ pre post, Call.cout (pre ++ "\tn - switch the \"dark\" mode on/off\n" ++ post) ∈
      help cvVersion) ∧
    toChar 110 = ord 'n' ∧ handleKey s (ord 'n') = s ∧
    (handleKey s (ord 'd')).darkMode = (!s.darkMode) ∧
    (runFrames stillVision Session.initial [⟨pixelMat, 110⟩]).map (fun t => t.darkMode) =
      some false ∧
    (runFrames stillVision Session.initial [⟨pixelMat, 100⟩]).map (fun t => t.darkMode) =
      some true := by
  refine ⟨⟨"\tESC - quit the program\n\tr - auto-initialize tracking\n\tc - delete all the points\n",
    "To add/remove a feature point click it\n\n", ?_⟩, by decide, ?_, ?_, by decide, by decide⟩
  · unfold help
    have hs : ("\tESC - quit the program\n" ++ "\tr - auto-initialize tracking\n" ++
        "\tc - delete all the points\n" ++ "\tn - switch the \"dark\" mode on/off\n" ++
        "To add/remove a feature point click it\n" ++ "\n" : String) =
        "\tESC - quit the program\n\tr - auto-initialize tracking\n\tc - delete all the points\n" ++
          "\tn - switch the \"dark\" mode on/off\n" ++
          "To add/remove a feature point click it\n\n" := by decide
    rw [hs]
    simp
  · exact handleKey_other s _ (by decide) (by decide) (by decide)
  · rw [handleKey_d]

/-! ## Engines that keep the length contract -/

theorem opticalFlow_wellFormed {v : Vision} (hwf : v.WellFormed) (prevGray gray image : Mat)
    (prev feat : List Point2f) :
    ∃ r, opticalFlow v prevGray gray image prev feat = some r ∧
      r.prevFeatures.length = r.features.length := by
  have h := hwf (if prevGray.empty then gray else prevGray) gray prev feat
  obtain ⟨r, hr, _, _, _, hlen, _⟩ :=
    opticalFlow_result v prevGray gray image prev feat (by rw [h.1, h.2])
      (fun i hi _ => by rw [h.1] at hi; exact hi)
  exact ⟨r, hr, hlen⟩

theorem track_wellFormed {v : Vision} (hwf : v.WellFormed) (s : Session) :
    ∃ t calls, track v s = some (t, calls) := by
  by_cases hinit : s.needToInit = true
  · exact ⟨_, _, track_reinit hinit⟩
  · have hinit : s.needToInit = false := by simpa using hinit
    by_cases hp : s.points0 = []
    · exact ⟨_, _, track_idle hinit hp⟩
    · obtain ⟨r, hr, _⟩ := opticalFlow_wellFormed hwf s.prevGray s.gray s.image s.points0 s.points1
      exact ⟨_, _, track_flow_some hinit hp hr⟩

theorem frameStep_wellFormed {v : Vision} (hwf : v.WellFormed) (s : Session)
    (inp : FrameInput) : frameStep v s inp ≠ Step.fault := by
  cases hframe : inp.frame.empty with
  | true =>
    unfold frameStep
    simp [hframe]
  | false =>
    obtain ⟨t, calls, ht⟩ := track_wellFormed hwf (acquire v s inp.frame)
    rw [frameStep_of_track hframe ht]
    split_ifs <;> simp

theorem mainLoop_wellFormed {v : Vision} (hwf : v.WellFormed) :
    ∀ (inputs : List FrameInput) (s : Session), ∃ calls, mainLoop v s inputs = some calls := by
  intro inputs
  induction inputs with
  | nil => intro s; exact ⟨[], rfl⟩
  | cons inp rest ih =>
    intro s
    cases hstep : frameStep v s inp with
    | fault => exact absurd hstep (frameStep_wellFormed hwf s inp)
    | exit s1 calls => exact ⟨calls, by simp [mainLoop, hstep]⟩
    | next s1 calls =>
      obtain ⟨later, hlater⟩ := ih s1
      exact ⟨calls ++ later, by simp [mainLoop, hstep, hlater]⟩

theorem frameStep_exit_iff (v : Vision) (s : Session) (inp : FrameInput) :
    (∃ s1 calls, frameStep v s inp = Step.exit s1 calls) ↔
      (inp.frame.empty = true ∨ (toChar inp.key = 27 ∧ frameStep v s inp ≠ Step.fault)) := by
  cases hframe : inp.frame.empty with
  | true =>
    simp only [true_or, iff_true]
    exact ⟨_, _, by unfold frameStep; simp only [hframe]; rfl⟩
  | false =>
    simp only [Bool.false_eq_true, false_or]
    cases ht : track v (acquire v s inp.frame) with
    | none =>
      rw [frameStep_fault_of_track hframe ht]
      simp
    | some r =>
      obtain ⟨t, calls⟩ := r
      rw [frameStep_of_track hframe ht]
      by_cases hk : toChar inp.key = 27
      · simp [hk]
      · simp [hk]

theorem mainLoop_ends (v : Vision) :
    ∀ (inputs : List FrameInput) (s : Session) (calls : List Call),
      mainLoop v s inputs = some calls →
        ∃ pre rest s1, inputs = pre ++ rest ∧ runFrames v s pre = some s1 ∧
          (rest = [] ∨ ∃ inp tail s2 last, rest = inp :: tail ∧
            frameStep v s1 inp = Step.exit s2 last ∧
            (inp.frame.empty = true ∨ toChar inp.key = 27)) := by
  intro inputs
  induction inputs with
  | nil => intro s calls _; exact ⟨[], [], s, rfl, rfl, Or.inl rfl⟩
  | cons inp rest ih =>
    intro s calls h
    cases hstep : frameStep v s inp with
    | fault => simp [mainLoop, hstep] at h
    | exit s2 last =>
      refine ⟨[], inp :: rest, s, rfl, rfl, Or.inr ⟨inp, rest, s2, last, rfl, hstep, ?_⟩⟩
      have hx := (frameStep_exit_iff v s inp).mp ⟨s2, last, hstep⟩
      exact hx.imp id (fun h => h.1)
    | next s1 first =>
      simp only [mainLoop, hstep] at h
      cases hl : mainLoop v s1 rest with
      | none => simp [hl] at h
      | some later =>
        obtain ⟨pre, rest1, s3, hsplit, hrun, hend⟩ := ih s1 later hl
        refine ⟨inp :: pre, rest1, s3, by rw [hsplit]; rfl, ?_, hend⟩
        simp only [runFrames, hstep]
        exact hrun

theorem mainLoop_append (v : Vision) (rest : List FrameInput) :
    ∀ (pre : List FrameInput) (s s1 : Session) (c1 : List Call),
      runTrace v s pre = some (s1, c1) →
        mainLoop v s (pre ++ rest) = (mainLoop v s1 rest).map (fun later => c1 ++ later) := by
  intro pre
  induction pre with
  | nil =>
    intro s s1 c1 h
    simp only [runTrace] at h
    obtain ⟨h1, h2⟩ := Prod.mk.inj (Option.some.inj h)
    subst h1 h2
    rw [List.nil_append]
    cases hm : mainLoop v s rest <;> simp
  | cons inp pre ih =>
    intro s s1 c1 h
    cases hstep : frameStep v s inp with
    | fault => simp [runTrace, hstep] at h
    | exit s2 calls => simp [runTrace, hstep] at h
    | next s2 calls =>
      simp only [runTrace, hstep] at h
      cases hr : runTrace v s2 pre with
      | none => simp [hr] at h
      | some r =>
        obtain ⟨s3, c3⟩ := r
        simp only [hr, Option.map_some'] at h
        obtain ⟨h1, h2⟩ := Prod.mk.inj (Option.some.inj h)
        subst h1 h2
        rw [List.cons_append]
        simp only [mainLoop, hstep]
        rw [ih s2 s3 c3 hr]
        cases hm : mainLoop v s3 rest <;> simp

theorem mainLoop_trace (v : Vision) :
    ∀ (inputs : List FrameInput) (s : Session) (calls : List Call),
      mainLoop v s inputs = some calls →
        ∃ pre rest s1 c1, inputs = pre ++ rest ∧ runTrace v s pre = some (s1, c1) ∧
          ((rest = [] ∧ calls = c1) ∨ ∃ inp tail s2 last, rest = inp :: tail ∧
            frameStep v s1 inp = Step.exit s2 last ∧
            (inp.frame.empty = true ∨ toChar inp.key = 27) ∧ calls = c1 ++ last) := by
  intro inputs
  induction inputs with
  | nil =>
    intro s calls h
    simp only [mainLoop] at h
    exact ⟨[], [], s, [], rfl, rfl, Or.inl ⟨rfl, (Option.some.inj h).symm⟩⟩
  | cons inp rest ih =>
    intro s calls h
    cases hstep : frameStep v s inp with
    | fault => simp [mainLoop, hstep] at h
    | exit s2 last =>
      simp only [mainLoop, hstep] at h
      have hx := (frameStep_exit_iff v s inp).mp ⟨s2, last, hstep⟩
      exact ⟨[], inp :: rest, s, [], rfl, rfl, Or.inr ⟨inp, rest, s2, last, rfl, hstep,
        hx.imp id (fun h => h.1), by simpa using (Option.some.inj h).symm⟩⟩
    | next s1 first =>
      simp only [mainLoop, hstep] at h
      cases hl : mainLoop v s1 rest with
      | none => simp [hl] at h
      | some later =>
        simp only [hl, Option.map_some'] at h
        have hcalls : calls = first ++ later := (Option.some.inj h).symm
        obtain ⟨pre, rest1, s3, c3, hsplit, hrun, hend⟩ := ih s1 later hl
        refine ⟨inp :: pre, rest1, s3, first ++ c3, by rw [hsplit]; rfl, ?_, ?_⟩
        · simp only [runTrace, hstep, hrun, Option.map_some']
        · rcases hend with ⟨hnil, hc⟩ | ⟨inp2, tail, s4, last, hr, hex, hwhy, hc⟩
          · exact Or.inl ⟨hnil, by rw [hcalls, hc]⟩
          · exact Or.inr ⟨inp2, tail, s4, last, hr, hex, hwhy, by
              rw [hcalls, hc, List.append_assoc]⟩

/-- C15: when the capture does not open `main` returns -1 after writing only the error
message, so no frame is processed.  When it opens, the result of `main` is that of the
frame loop started in the initial state, with status 0 and with the help text and the
window creation in front of the loop's calls; it returns for every engine that keeps the
length contract.  The frame loop ends only at a frame that is empty (the recording running
out counts as one) or at a polled ESC: an iteration breaks exactly in these two cases;
after any run of continuing frames `main` returns 0 with exactly their calls when the
recording ends there, and with their calls and those of the breaking frame when the next
frame breaks, the frames behind it being left unprocessed; and every result of `main` with
the capture open arises in one of these two ways. -/
theorem main_exit_status (v : Vision) (cvVersion : String) (inputs : List FrameInput) :
    main v cvVersion false inputs = some (-1, [Call.cout "error, could not open webcam\n"]) ∧
    (main v cvVersion true inputs = none ∨
      ∃ calls, main v cvVersion true inputs = some (0, calls)) ∧
    (v.WellFormed → ∃ calls, main v cvVersion true inputs = some (0, calls)) ∧
    (∀ (s : Session) (inp : FrameInput),
      (∃ s1 calls, frameStep v s inp = Step.exit s1 calls) ↔
        (inp.frame.empty = true ∨ (toChar inp.key = 27 ∧ frameStep v s inp ≠ Step.fault))) ∧
    (∀ calls, mainLoop v Session.initial inputs = some calls →
      ∃ pre rest s1, inputs = pre ++ rest ∧ runFrames v Session.initial pre = some s1 ∧
        (rest = [] ∨ ∃ inp tail s2 last, rest = inp :: tail ∧
          frameStep v s1 inp = Step.exit s2 last ∧
          (inp.frame.empty = true ∨ toChar inp.key = 27))) ∧
    main v cvVersion true inputs =
      (mainLoop v Session.initial inputs).map (fun calls =>
        (0, help cvVersion ++ [Call.namedWindow "motion tracking"] ++ calls)) ∧
    (∀ (pre : List FrameInput) (s1 : Session) (c1 : List Call),
      runTrace v Session.initial pre = some (s1, c1) →
        main v cvVersion true pre =
          some (0, help cvVersion ++ [Call.namedWindow "motion tracking"] ++ c1) ∧
        (∀ (inp : FrameInput) (tail : List FrameInput) (s2 : Session) (last : List Call),
          frameStep v s1 inp = Step.exit s2 last →
            main v cvVersion true (pre ++ inp :: tail) =
              some (0, help cvVersion ++ [Call.namedWindow "motion tracking"] ++ c1 ++ last)) ∧
        (∀ (inp : FrameInput) (tail : List FrameInput),
          frameStep v s1 inp = Step.fault →
            main v cvVersion true (pre ++ inp :: tail) = none)) ∧
    (∀ (code : Int) (calls : List Call), main v cvVersion true inputs = some (code, calls) →
      code = 0 ∧
      ∃ pre rest s1 c1, inputs = pre ++ rest ∧
        runTrace v Session.initial pre = some (s1, c1) ∧
        ((rest = [] ∧
            calls = help cvVersion ++ [Call.namedWindow "motion tracking"] ++ c1) ∨
          ∃ inp tail s2 last, rest = inp :: tail ∧
            frameStep v s1 inp = Step.exit s2 last ∧
            (inp.frame.empty = true ∨ toChar inp.key = 27) ∧
            calls = help cvVersion ++ [Call.namedWindow "motion tracking"] ++ c1 ++ last)) := by
  have hmain : ∀ ins : List FrameInput, main v cvVersion true ins =
      (mainLoop v Session.initial ins).map (fun calls =>
        (0, help cvVersion ++ [Call.namedWindow "motion tracking"] ++ calls)) := by
    intro ins
    simp [main]
  refine ⟨rfl, ?_, ?_, frameStep_exit_iff v, mainLoop_ends v inputs Session.initial,
    hmain inputs, ?_, ?_⟩
  · cases h : mainLoop v Session.initial inputs with
    | none => left; simp [main, h]
    | some calls =>
      right
      exact ⟨help cvVersion ++ [Call.namedWindow "motion tracking"] ++ calls, by simp [main, h]⟩
  · intro hwf
    obtain ⟨calls, hc⟩ := mainLoop_wellFormed hwf inputs Session.initial
    exact ⟨help cvVersion ++ [Call.namedWindow "motion tracking"] ++ calls, by simp [main, hc]⟩
  · intro pre s1 c1 hrun
    refine ⟨?_, ?_, ?_⟩
    · have h := mainLoop_append v [] pre Session.initial s1 c1 hrun
      rw [List.append_nil] at h
      rw [hmain, h]
      simp [mainLoop]
    · intro inp tail s2 last hstep
      rw [hmain, mainLoop_append v (inp :: tail) pre Session.initial s1 c1 hrun]
      simp [mainLoop, hstep]
    · intro inp tail hstep
      rw [hmain, mainLoop_append v (inp :: tail) pre Session.initial s1 c1 hrun]
      simp [mainLoop, hstep]
  · intro code calls h
    rw [hmain] at h
    cases hl : mainLoop v Session.initial inputs with
    | none => simp [hl] at h
    | some loopCalls =>
      simp only [hl, Option.map_some'] at h
      obtain ⟨hcode, hcalls⟩ := Prod.mk.inj (Option.some.inj h)
      obtain ⟨pre, rest, s1, c1, hsplit, hrun, hend⟩ :=
        mainLoop_trace v inputs Session.initial loopCalls hl
      refine ⟨hcode.symm, pre, rest, s1, c1, hsplit, hrun, ?_⟩
      rcases hend with ⟨hnil, hc⟩ | ⟨inp, tail, s2, last, hr, hex, hwhy, hc⟩
      · exact Or.inl ⟨hnil, by rw [← hcalls, hc]⟩
      · exact Or.inr ⟨inp, tail, s2, last, hr, hex, hwhy, by
          rw [← hcalls, hc]; simp only [List.append_assoc]⟩

/-! ## Lengths of the two point vectors -/

theorem stillVision_wellFormed : stillVision.WellFormed := by
  intro _ _ prevPts _
  simp [stillVision]

/-- C11 fails as stated: `stillVision` keeps the length contract, yet from the initial
state an Idle frame with `r` polled followed by the Reinitialize frame ends with one point
in `points[0]` and none in `points[1]`. -/
theorem lengths_differ_after_reinit :
    stillVision.WellFormed ∧
    (runFrames stillVision Session.initial [⟨pixelMat, 114⟩, ⟨pixelMat, -1⟩]).map
      (fun s => (s.points0, s.points1)) = some ([⟨4, 4⟩], []) :=
  ⟨stillVision_wellFormed, by decide⟩

/-- C11 as amended: under an engine that keeps the length contract, from any state (hence
from every reachable one), a non-empty frame without ESC is processed without fault, and
`points[0]` and `points[1]` have equal length at the following frame boundary when the
frame took the Track branch, or took the Idle branch with equal lengths before, or had `c`
polled.  Nothing is stated for the boundary after a Reinitialize frame. -/
theorem lengths_equal_after_track (v : Vision) (hwf : v.WellFormed) (s : Session)
    (inp : FrameInput) (hframe : inp.frame.empty = false) (hkey : toChar inp.key ≠ 27)
    (hbranch : (s.needToInit = false ∧
        (s.points0 ≠ [] ∨ s.points0.length = s.points1.length)) ∨
      toChar inp.key = ord 'c') :
    ∃ s1 calls, frameStep v s inp = Step.next s1 calls ∧
      s1.points0.length = s1.points1.length := by
  obtain ⟨t, calls1, ht⟩ := track_wellFormed hwf (acquire v s inp.frame)
  have hstep := frameStep_of_track hframe ht
  rw [if_neg hkey] at hstep
  refine ⟨_, _, hstep, ?_⟩
  by_cases hc : toChar inp.key = ord 'c'
  · have hnr : ¬ (ord 'c' = ord 'r') := by decide
    rw [hc]
    simp [rotate, handleKey, display, hnr]
  · have hb := hbranch.resolve_right hc
    have hlen : t.points0.length = t.points1.length := by
      by_cases hp : s.points0 = []
      · have heq : s.points0.length = s.points1.length := hb.2.resolve_left (fun h => h hp)
        rw [track_idle (s := acquire v s inp.frame) hb.1 hp] at ht
        rw [← (Prod.mk.inj (Option.some.inj ht)).1]
        exact heq
      · obtain ⟨r, hr, hrl⟩ := opticalFlow_wellFormed hwf (acquire v s inp.frame).prevGray
          (acquire v s inp.frame).gray (acquire v s inp.frame).image s.points0 s.points1
        rw [track_flow_some (s := acquire v s inp.frame) hb.1 hp hr] at ht
        rw [← (Prod.mk.inj (Option.some.inj ht)).1]
        exact hrl
    show (rotate (handleKey (display t).1 (toChar inp.key))).points0.length =
      (rotate (handleKey (display t).1 (toChar inp.key))).points1.length
    unfold rotate handleKey display
    split_ifs
    · exact hlen.symm
    · exact hlen.symm
    · exact hlen.symm

/-- C11 as amended, on a Track frame of `stillVision` that starts with one point in
`points[0]` and none in `points[1]`: the frame is processed and the lengths agree after. -/
theorem lengths_equal_after_track_witness :
    ∃ s1 calls, frameStep stillVision
        { Session.initial with points0 := [⟨4, 4⟩], prevGray := pixelMat }
        ⟨pixelMat, -1⟩ = Step.next s1 calls ∧ s1.points0.length = s1.points1.length :=
  lengths_equal_after_track stillVision stillVision_wellFormed
    { Session.initial with points0 := [⟨4, 4⟩], prevGray := pixelMat } ⟨pixelMat, -1⟩
    (by decide) (by decide) (Or.inl ⟨by decide, Or.inl (by decide)⟩)

/-! ## Idle frames -/

/-- C12 fails as stated: under `fickleVision` three frames from the initial state (`r`
polled twice, the detector finding one point and then none) reach a state with
`needToInit` false, `points[0]` empty and the old point in `points[1]`.  The next frame is
Idle, but it rotates the old point into `points[0]`, and the frame after it, still with no
key polled, runs the correspondence engine. -/
theorem idle_then_track :
    (runFrames fickleVision Session.initial
        [⟨pixelMat, 114⟩, ⟨pixelMat, 114⟩, ⟨darkMat, -1⟩]).map
      (fun s => (s.needToInit, s.points0, s.points1)) = some (false, [], [⟨4, 4⟩]) ∧
    (runFrames fickleVision Session.initial
        [⟨pixelMat, 114⟩, ⟨pixelMat, 114⟩, ⟨darkMat, -1⟩]).map
      (fun s => invokesCorrespondence (frameStep fickleVision s ⟨pixelMat, -1⟩).calls) =
      some false ∧
    (runFrames fickleVision Session.initial
        [⟨pixelMat, 114⟩, ⟨pixelMat, 114⟩, ⟨darkMat, -1⟩, ⟨pixelMat, -1⟩]).map
      (fun s => (s.points0, invokesCorrespondence (frameStep fickleVision s ⟨pixelMat, -1⟩).calls)) =
      some ([⟨4, 4⟩], true) := by
  decide

/-- C12 as amended: from any state with `needToInit` false and both `points[0]` and
`points[1]` empty, two consecutive non-empty frames on which neither ESC nor `r` is polled
both take the Idle branch: each frame's calls are only `imshow` of the image as acquired
(nothing drawn on it by the branch) and `waitKey`, no detector or correspondence call is
made, and both point vectors are empty after each frame. -/
theorem idle_idempotent (v : Vision) (s : Session) (inp1 inp2 : FrameInput)
    (hinit : s.needToInit = false) (h0 : s.points0 = []) (h1 : s.points1 = [])
    (hf1 : inp1.frame.empty = false) (hf2 : inp2.frame.empty = false)
    (hk1 : toChar inp1.key ≠ 27) (hr1 : toChar inp1.key ≠ ord 'r')
    (hk2 : toChar inp2.key ≠ 27) (hr2 : toChar inp2.key ≠ ord 'r') :
    ∃ s1 s2,
      frameStep v s inp1 = Step.next s1
        [Call.imshow "motion tracking" (acquire v s inp1.frame).image, Call.waitKey 10] ∧
      frameStep v s1 inp2 = Step.next s2
        [Call.imshow "motion tracking" (acquire v s1 inp2.frame).image, Call.waitKey 10] ∧
      s1.needToInit = false ∧ s1.points0 = [] ∧ s1.points1 = [] ∧
      s2.needToInit = false ∧ s2.points0 = [] ∧ s2.points1 = [] := by
  have key : ∀ (u : Session) (inp : FrameInput), u.needToInit = false → u.points0 = [] →
      u.points1 = [] → inp.frame.empty = false → toChar inp.key ≠ 27 →
      toChar inp.key ≠ ord 'r' →
      ∃ u1, frameStep v u inp = Step.next u1
          [Call.imshow "motion tracking" (acquire v u inp.frame).image, Call.waitKey 10] ∧
        u1.needToInit = false ∧ u1.points0 = [] ∧ u1.points1 = [] := by
    intro u inp hi hp0 hp1 hf hk hr
    have ht := track_idle (v := v) (s := acquire v u inp.frame) hi hp0
    have hstep := frameStep_of_track hf ht
    rw [if_neg hk] at hstep
    refine ⟨_, hstep, ?_, ?_, ?_⟩
    · unfold rotate handleKey display
      rw [if_neg hr]
      split_ifs <;> rfl
    · unfold rotate handleKey display
      rw [if_neg hr]
      split_ifs
      · rfl
      · exact hp1
      · exact hp1
    · unfold rotate handleKey display
      rw [if_neg hr]
      split_ifs
      · rfl
      · exact hp0
      · exact hp0
  obtain ⟨s1, hs1, hi1, hp10, hp11⟩ := key s inp1 hinit h0 h1 hf1 hk1 hr1
  obtain ⟨s2, hs2, hi2, hp20, hp21⟩ := key s1 inp2 hi1 hp10 hp11 hf2 hk2 hr2
  exact ⟨s1, s2, hs1, hs2, hi1, hp10, hp11, hi2, hp20, hp21⟩

/-- C12 as amended, on the initial state with two frames and no key polled. -/
theorem idle_idempotent_witness :
    ∃ s1 s2,
      frameStep stillVision Session.initial ⟨pixelMat, -1⟩ = Step.next s1
        [Call.imshow "motion tracking" pixelMat, Call.waitKey 10] ∧
      frameStep stillVision s1 ⟨pixelMat, -1⟩ = Step.next s2
        [Call.imshow "motion tracking" (acquire stillVision s1 pixelMat).image,
          Call.waitKey 10] ∧
      s2.points0 = [] ∧ s2.points1 = [] :=
  have h := idle_idempotent stillVision Session.initial ⟨pixelMat, -1⟩ ⟨pixelMat, -1⟩
    (by decide) (by decide) (by decide) (by decide) (by decide) (by decide) (by decide)
    (by decide) (by decide)
  h.elim fun s1 h1 => h1.elim fun s2 h2 =>
    ⟨s1, s2, h2.1, h2.2.1, h2.2.2.2.2.2.2.1, h2.2.2.2.2.2.2.2⟩

/-! ## Drawing order -/

/-- C16: when the engine returns `features` and `status` of the same length N as
`prevFeatures`, with K non-zero flags, `opticalFlow` returns and appends to the circles
already on the image exactly K trace circles (radius 1, blue, thickness -1) followed by
exactly K classifier circles (radius 3, thickness -1).  For each `j < K` the `j`-th trace
circle and the `j`-th classifier circle are both centred on the engine's new position of
the `j`-th successful index, and the classifier colour is that of the retained pair. -/
theorem opticalFlow_draw_order (v : Vision) (prevGray gray image : Mat)
    (prev feat : List Point2f) (out : List Point2f × List Nat)
    (hout : v.calcOpticalFlowPyrLK (if prevGray.empty then gray else prevGray) gray prev feat =
      out)
    (hN1 : out.1.length = prev.length) (hN2 : out.2.length = prev.length) :
    ∃ r traces markers, opticalFlow v prevGray gray image prev feat = some r ∧
      r.features = keepTracked out.2 out.1 ∧ r.prevFeatures = keepTracked out.2 prev ∧
      r.image.pixels = image.pixels ∧
      r.image.drawn = image.drawn ++ traces ++ markers ∧
      traces.length = out.2.countP (fun s => decide (s ≠ 0)) ∧
      markers.length = out.2.countP (fun s => decide (s ≠ 0)) ∧
      ∀ j, j < out.2.countP (fun s => decide (s ≠ 0)) →
        ∃ i f p, (successIndices out.2 out.2.length)[j]? = some i ∧
          out.1[i]? = some f ∧ prev[i]? = some p ∧
          r.features[j]? = some f ∧ r.prevFeatures[j]? = some p ∧
          traces[j]? = some ⟨f, 1, blue, -1⟩ ∧
          markers[j]? = some ⟨f, 3, classifyColor p f, -1⟩ := by
  obtain ⟨r, hr, _, hfeat, hprev, hlen, hpix, hdrawn, _⟩ :=
    opticalFlow_result v prevGray gray image prev feat
      (by rw [hout, hN1, hN2]) (fun i hi _ => by rw [hout, hN1] at hi; exact hi)
  rw [hout] at hfeat hprev
  have hle1 : out.1.length ≤ out.2.length := by rw [hN1, hN2]
  have hleP : prev.length ≤ out.2.length := by rw [hN2]
  have hprev1 : r.prevFeatures = atSuccessIndices out.2 prev := by
    rw [hprev]; unfold atSuccessIndices; rw [hN1]
  have hK : (successIndices out.2 out.2.length).length =
      out.2.countP (fun s => decide (s ≠ 0)) := by
    rw [successIndices_length out.2 out.2.length le_rfl, List.take_length]
  have hin1 : ∀ i ∈ successIndices out.2 out.2.length, i < out.1.length :=
    fun i hi => by have := (mem_successIndices.mp hi).1; omega
  have hinP : ∀ i ∈ successIndices out.2 out.2.length, i < prev.length :=
    fun i hi => by have := (mem_successIndices.mp hi).1; omega
  have hfeatAt : ∀ j : Nat, r.features[j]? =
      (successIndices out.2 out.2.length)[j]?.bind (fun i : Nat => out.1[i]?) := by
    intro j
    rw [hfeat]; unfold atSuccessIndices
    rw [hN1, ← hN2]
    exact filterMap_getElem?_at _ _ hin1 j
  have hprevAt : ∀ j : Nat, r.prevFeatures[j]? =
      (successIndices out.2 out.2.length)[j]?.bind (fun i : Nat => prev[i]?) := by
    intro j
    rw [hprev1]; unfold atSuccessIndices
    rw [← hN2]
    exact filterMap_getElem?_at _ _ hinP j
  have hlenF : r.features.length = out.2.countP (fun s => decide (s ≠ 0)) := by
    rw [hfeat, ← hK]; unfold atSuccessIndices
    rw [hN1, ← hN2]
    exact filterMap_getElem?_length _ _ hin1
  refine ⟨r, r.features.map traceCircle, List.zipWith classify r.prevFeatures r.features, hr,
    ?_, ?_, hpix, hdrawn, ?_, ?_, ?_⟩
  · rw [hfeat, keepTracked_eq_atSuccessIndices _ _ hle1]
  · rw [hprev1, keepTracked_eq_atSuccessIndices _ _ hleP]
  · rw [List.length_map, hlenF]
  · rw [List.length_zipWith, hlen, Nat.min_self, hlenF]
  · intro j hj
    rw [← hK] at hj
    have hij : (successIndices out.2 out.2.length)[j]? =
        some (successIndices out.2 out.2.length)[j] := List.getElem?_eq_getElem hj
    have hi1 := hin1 _ (List.getElem_mem hj)
    have hiP := hinP _ (List.getElem_mem hj)
    have hf : r.features[j]? = some out.1[(successIndices out.2 out.2.length)[j]] := by
      rw [hfeatAt, hij]
      exact List.getElem?_eq_getElem hi1
    have hp : r.prevFeatures[j]? = some prev[(successIndices out.2 out.2.length)[j]] := by
      rw [hprevAt, hij]
      exact List.getElem?_eq_getElem hiP
    refine ⟨_, _, _, hij, List.getElem?_eq_getElem hi1, List.getElem?_eq_getElem hiP, hf, hp,
      ?_, ?_⟩
    · rw [List.getElem?_map, hf]
      rfl
    · rw [List.getElem?_zipWith, hp, hf]
      rfl

/-- C16 on `firstOnlyVision` with two points, the second lost: one trace circle and one
classifier circle are drawn, and the first point alone is retained. -/
theorem opticalFlow_draw_order_witness :
    ∃ r traces markers,
      opticalFlow firstOnlyVision pixelMat pixelMat pixelMat [⟨1, 1⟩, ⟨2, 2⟩] [] = some r ∧
      r.features = [⟨1, 1⟩] ∧ r.image.drawn = pixelMat.drawn ++ traces ++ markers ∧
      traces.length = 1 ∧ markers.length = 1 :=
  have h := opticalFlow_draw_order firstOnlyVision pixelMat pixelMat pixelMat
    [⟨1, 1⟩, ⟨2, 2⟩] [] ([⟨1, 1⟩, ⟨2, 2⟩], [1, 0]) (by decide) (by decide) (by decide)
  h.elim fun r h1 => h1.elim fun traces h2 => h2.elim fun markers h3 =>
    ⟨r, traces, markers, h3.1, h3.2.1.trans (by decide), h3.2.2.2.2.1,
      h3.2.2.2.2.2.1.trans (by decide), h3.2.2.2.2.2.2.1.trans (by decide)⟩

/-! ## The previous grayscale image -/

theorem frameStep_next_prevGray {v : Vision} {s s1 : Session} {inp : FrameInput}
    {calls : List Call} (h : frameStep v s inp = Step.next s1 calls) :
    inp.frame.empty = false ∧ s1.prevGray = v.cvtColor inp.frame := by
  have hframe : inp.frame.empty = false := by
    cases he : inp.frame.empty with
    | false => rfl
    | true =>
      unfold frameStep at h
      simp [he] at h
  have hsafe : frameStep v s inp ≠ Step.fault := by rw [h]; simp
  obtain ⟨t, calls1, ht⟩ := track_of_not_fault hframe hsafe
  have hgray : t.gray = v.cvtColor inp.frame := (track_keeps ht).2.1
  rw [frameStep_of_track hframe ht] at h
  split_ifs at h with hk
  have hs1 := (Step.next.inj h).1
  refine ⟨hframe, ?_⟩
  rw [← hs1, ← hgray]
  unfold rotate handleKey display
  split_ifs <;> rfl

theorem runFrames_last (v : Vision) (inp : FrameInput) :
    ∀ (inputs : List FrameInput) (s0 s : Session),
      runFrames v s0 (inputs ++ [inp]) = some s →
        inp.frame.empty = false ∧ s.prevGray = v.cvtColor inp.frame := by
  intro inputs s0 s h
  obtain ⟨s1, calls, hstep⟩ := runFrames_snoc v inp inputs s0 s h
  exact frameStep_next_prevGray hstep

theorem frameStep_flow_call {v : Vision} {s : Session} {inp : FrameInput} {pg g : Mat}
    {pts : List Point2f} (hframe : inp.frame.empty = false)
    (h : Call.calcOpticalFlowPyrLK pg g pts ∈ (frameStep v s inp).calls) :
    s.needToInit = false ∧ s.points0 ≠ [] ∧
      pg = (if s.prevGray.empty then v.cvtColor inp.frame else s.prevGray) ∧
      g = v.cvtColor inp.frame ∧ pts = s.points0 := by
  cases ht : track v (acquire v s inp.frame) with
  | none =>
    rw [frameStep_fault_of_track hframe ht] at h
    simp [Step.calls] at h
  | some r0 =>
    obtain ⟨t, calls1⟩ := r0
    rw [frameStep_calls_of_track hframe ht] at h
    simp only [List.mem_append, List.mem_singleton, reduceCtorEq, or_false] at h
    by_cases hinit : s.needToInit = true
    · rw [track_reinit (s := acquire v s inp.frame) hinit] at ht
      rw [← (Prod.mk.inj (Option.some.inj ht)).2] at h
      simp at h
    · have hinit : s.needToInit = false := by simpa using hinit
      by_cases hp : s.points0 = []
      · rw [track_idle (s := acquire v s inp.frame) hinit hp] at ht
        rw [← (Prod.mk.inj (Option.some.inj ht)).2] at h
        simp at h
      · rw [track_flow (s := acquire v s inp.frame) hinit hp] at ht
        cases hr : opticalFlow v (acquire v s inp.frame).prevGray (acquire v s inp.frame).gray
            (acquire v s inp.frame).image (acquire v s inp.frame).points0
            (acquire v s inp.frame).points1 with
        | none => rw [hr] at ht; exact absurd ht (by simp)
        | some r =>
          rw [hr] at ht
          have hc := (Prod.mk.inj (Option.some.inj ht)).2
          rw [← hc] at h
          have hcalls := opticalFlow_some_calls hr
          rw [hcalls] at h
          rw [List.mem_cons] at h
          rcases h with h | h
          · have hinj := Call.calcOpticalFlowPyrLK.inj h
            exact ⟨hinit, hp, hinj.1, hinj.2.1, hinj.2.2⟩
          · split_ifs at h <;> simp at h

/-- C18: under a `cvtColor` that turns non-empty images into non-empty images, in every
state reached from the initial state: before any frame is processed the Track branch is
not taken (`points[0]` is empty and `needToInit` false, so the first frame is Idle); after
at least one processed frame `prevGray` is the non-empty grayscale image of the last
processed frame; so whenever the Track branch is taken `prevGray` is non-empty, the copy
of lines 44-46 is not made, and every call of the correspondence engine receives the
previous frame's grayscale image as `prevGray` and this frame's as `gray`. -/
theorem lazy_copy_unreachable (v : Vision) (hsize : v.KeepsSize) (inputs : List FrameInput)
    (s : Session) (hrun : runFrames v Session.initial inputs = some s) :
    (inputs = [] → s.points0 = [] ∧ s.needToInit = false) ∧
    (∀ pre last, inputs = pre ++ [last] →
      last.frame.empty = false ∧ s.prevGray = v.cvtColor last.frame ∧
        s.prevGray.empty = false) ∧
    (s.needToInit = false → s.points0 ≠ [] →
      s.prevGray.empty = false ∧
        ∀ gray : Mat, (if s.prevGray.empty then gray else s.prevGray) = s.prevGray) ∧
    (∀ (inp : FrameInput) (pg g : Mat) (pts : List Point2f), inp.frame.empty = false →
      Call.calcOpticalFlowPyrLK pg g pts ∈ (frameStep v s inp).calls →
        pg = s.prevGray ∧ pg.empty = false ∧ g = v.cvtColor inp.frame) := by
  have hfirst : inputs = [] → s.points0 = [] ∧ s.needToInit = false := by
    intro hnil
    subst hnil
    simp only [runFrames] at hrun
    rw [← Option.some.inj hrun]
    exact ⟨rfl, rfl⟩
  have hlast : ∀ pre last, inputs = pre ++ [last] →
      last.frame.empty = false ∧ s.prevGray = v.cvtColor last.frame ∧
        s.prevGray.empty = false := by
    intro pre last hsplit
    subst hsplit
    obtain ⟨hf, hg⟩ := runFrames_last v last pre Session.initial s hrun
    exact ⟨hf, hg, by rw [hg]; exact hsize _ hf⟩
  have htrack : s.needToInit = false → s.points0 ≠ [] → s.prevGray.empty = false := by
    intro _ hp
    rcases List.eq_nil_or_concat inputs with hnil | ⟨pre, last, hsplit⟩
    · exact absurd (hfirst hnil).1 hp
    · exact (hlast pre last (by rw [hsplit]; simp)).2.2
  refine ⟨hfirst, hlast, fun hi hp => ⟨htrack hi hp, fun gray => ?_⟩, ?_⟩
  · rw [htrack hi hp]
    rfl
  · intro inp pg g pts hframe hmem
    obtain ⟨hi, hp, hpg, hg, _⟩ := frameStep_flow_call hframe hmem
    have hne := htrack hi hp
    rw [hne] at hpg
    exact ⟨hpg, by rw [hpg]; exact hne, hg⟩

/-- C18 on `stillVision`: after an Idle frame with `r` polled and the Reinitialize frame,
the Track branch is about to be taken and `prevGray` is non-empty. -/
theorem lazy_copy_unreachable_witness :
    stillVision.KeepsSize ∧
    (runFrames stillVision Session.initial [⟨pixelMat, 114⟩, ⟨pixelMat, -1⟩]).map
      (fun s => (s.needToInit, s.points0, s.prevGray.empty)) =
      some (false, [⟨4, 4⟩], false) :=
  have hsize : stillVision.KeepsSize := fun _ h => h
  have hrun : runFrames stillVision Session.initial [⟨pixelMat, 114⟩, ⟨pixelMat, -1⟩] =
      some ⟨false, false, pixelMat, pixelMat, pixelMat, pixelMat, [⟨4, 4⟩], []⟩ := by decide
  have h := lazy_copy_unreachable stillVision hsize [⟨pixelMat, 114⟩, ⟨pixelMat, -1⟩] _ hrun
  ⟨hsize, by
    rw [hrun]
    have hne := (h.2.2.1 rfl (by decide)).1
    simp only [Option.map_some']
    rw [hne]⟩

end LKDemo
